import Mathlib

/-!
# Apollo Unified S-Band TV decoder (`apollo-tv.c`)

A shallow embedding of the decoder `_usbtv_t` / `_usbtv_init` / `_usbtv_write` / `_usbtv_read`.

Conventions of the embedding.

* C `int` values are integers (`Int`).  Signed overflow is undefined in C, so the embedding
  describes exactly the executions in which no `int` overflows.  `/` and `%` on `int` are
  `Int.tdiv` and `Int.tmod` (truncation toward zero).
* `uint32_t` pixels are naturals below `2 ^ 32`.
* The buffers `iline`, `hsyncwin` and `framebuffer` are lists.  An access outside a buffer, a
  division by zero and a shift that C leaves undefined make the operation return `none`.
* The pair (`in`, `in_len`) is the list `inp` of pending input samples.
* `int16_t` samples are integers.  The decoder only copies samples (into `iline` and
  `hsyncwin`), so no conversion to 16 bits occurs, and the `int32_t` window sum `hsync` is a
  sum of `hsync_width` samples.
* The floating point expressions `x + INT16_MAX * c` that are stored into an `int`, and the
  comparisons with `-0.15 * INT16_MAX`, are computed over the rationals with integer arithmetic:
  the constants `9830.1`, `11550.3675` and `4915.05` are not integers and the rounding error
  of the double sum is far below their distance to the nearest integer.
* The sample counts that `_usbtv_init` rounds from floating point products are computed from
  the exact rational products; see the section on initialisation.
-/

namespace ApolloTV

set_option maxRecDepth 100000

/-- The decoder state `_usbtv_t`. -/
structure _usbtv_t where
  sample_rate : Nat
  colour : Int
  lines : Int
  active_lines : Int
  width : Int
  hsync_width : Int
  vsync_width : Int
  active_left : Int
  active_width : Int
  fsc_left : Int
  fsc_width : Int
  frame_rate_num : Int
  frame_rate_den : Int
  frame : Int
  line : Int
  fsc : Int
  fsc_hold : Int
  inp : List Int
  iline : List Int
  iline_len : Int
  hsync : Int
  hsyncwin : List Int
  hsyncwin_x : Int
  hsync_offset : Int
  vsync : Int
  vsync_count : Int
  sync_level : Int
  blank_level : Int
  black_level : Int
  white_level : Int
  framebuffer : List Nat

/-- The constant `INT16_MAX`. -/
def INT16_MAX : Int := 32767

/-- Read `a[i]`; outside the buffer the read is undefined. -/
def rd {α : Type} (a : List α) (i : Int) : Option α :=
  if 0 ≤ i then a[i.toNat]? else none

/-- Store `a[i] = v`; outside the buffer the store is undefined. -/
def wr {α : Type} (a : List α) (i : Int) (v : α) : Option (List α) :=
  if 0 ≤ i ∧ i.toNat < a.length then some (a.set i.toNat v) else none

/-- The loop `for(; n iterations; x++) acc += a[x];`. -/
def sum_from (a : List Int) : Nat → Int → Int → Option Int
  | 0, _, acc => some acc
  | n + 1, x, acc =>
    match rd a x with
    | none => none
    | some v => sum_from a n (x + 1) (acc + v)

/-- The expression `(int) (x + INT16_MAX * (p / q))` for a constant `p / q` with `q > 0`. -/
def add_level (x p q : Int) : Int := (x * q + INT16_MAX * p).tdiv q

/-- The test `ref < -0.15 * INT16_MAX`. -/
def below_sync (ref : Int) : Bool := decide (ref * 100 < -(15 * INT16_MAX))

/-- The statement `v |= 1` on an `int`. -/
def or1 (v : Int) : Int := if v % 2 = 0 then v + 1 else v

/-- `_usbtv_write`: hand a buffer of demodulated samples to the decoder. -/
def _usbtv_write (s : _usbtv_t) (buf : List Int) : _usbtv_t :=
  { s with inp := buf }

/-- The line accumulator, `while(s->iline_len < s->width) ...` followed by `s->iline_len = 0`.
The result is `(false, s)` when the loop leaves through `return(2)` and `(true, s)` when the
line is complete.  The first argument bounds the number of iterations. -/
def fill_line : Nat → _usbtv_t → Option (Bool × _usbtv_t)
  | 0, _ => none
  | fuel + 1, s =>
    if s.iline_len < s.width then
      if s.hsync_offset < 0 then
        fill_line fuel { s with iline_len := s.iline_len + 1, hsync_offset := s.hsync_offset + 1 }
      else if s.iline_len > 0 ∧ s.hsync_offset > 0 then
        fill_line fuel { s with iline_len := s.iline_len - 1, hsync_offset := s.hsync_offset - 1 }
      else
        match s.inp with
        | [] => some (false, s)
        | v :: rest =>
          match wr s.iline s.iline_len v with
          | none => none
          | some il =>
            fill_line fuel { s with iline := il, iline_len := s.iline_len + 1, inp := rest }
    else some (true, { s with iline_len := 0 })

/-- Every iteration of the accumulator either consumes an input sample or moves
`hsync_offset` one step toward zero, so this many iterations always suffice. -/
def fill_fuel (s : _usbtv_t) : Nat := s.inp.length + s.hsync_offset.natAbs + 1

/-- The hsync search `for(x = 0; x < s->width; x++)`, with `n` iterations left.  Returns the
final `mx` and the state with the updated window. -/
def hsync_loop : Nat → Int → Int → Int → _usbtv_t → Option (Int × _usbtv_t)
  | 0, _, mx, _, s => some (mx, s)
  | n + 1, x, mx, ref, s =>
    match rd s.hsyncwin s.hsyncwin_x, rd s.iline x with
    | some old, some v =>
      match wr s.hsyncwin s.hsyncwin_x v with
      | none => none
      | some win =>
        let h := s.hsync - old + v
        let wx := if s.hsyncwin_x + 1 = s.hsync_width then 0 else s.hsyncwin_x + 1
        let s1 := { s with hsync := h, hsyncwin := win, hsyncwin_x := wx }
        if h < ref then hsync_loop n (x + 1) x h s1 else hsync_loop n (x + 1) mx ref s1
    | _, _ => none

/-- The block `Scan for hsync`: `mx = 0; ref = s->hsync;` and the loop. -/
def hsync_scan (s : _usbtv_t) : Option (Int × _usbtv_t) :=
  hsync_loop s.width.toNat 0 0 s.hsync s

/-- The value `ref` after `ref = mx - s->hsync_width;` and the two wrap statements. -/
def hsync_delta (mx hsync_width width : Int) : Int :=
  let ref := mx - hsync_width
  let ref := if ref < (-width).tdiv 2 then ref + width else ref
  if ref ≥ width.tdiv 2 then ref - width else ref

/-- The statements `if(ref < 0) s->hsync_offset--; if(ref > 0) s->hsync_offset++;`. -/
def hsync_adjust (s : _usbtv_t) (mx : Int) : _usbtv_t :=
  let ref := hsync_delta mx s.hsync_width s.width
  let off := if ref < 0 then s.hsync_offset - 1 else s.hsync_offset
  let off := if ref > 0 then off + 1 else off
  { s with hsync_offset := off }

/-- The value `ref` of the block `Update the sync level` after `ref /= s->hsync_width - 2`. -/
def sync_tip (s : _usbtv_t) : Option Int :=
  match rd s.iline 1 with
  | none => none
  | some r1 =>
    match sum_from s.iline (s.hsync_width - 1 - 2).toNat 2 r1 with
    | none => none
    | some sum => if s.hsync_width - 2 = 0 then none else some (sum.tdiv (s.hsync_width - 2))

/-- The blocks `Update the sync level` and `Calculate the black and white levels`. -/
def level_update (s : _usbtv_t) : Option _usbtv_t :=
  match sync_tip s with
  | none => none
  | some ref =>
    let sl := (s.sync_level * 99 + ref).tdiv 100
    some { s with
      sync_level := sl
      blank_level := add_level sl 3 10
      black_level := if s.colour ≠ 0 then add_level sl 3525 10000 else add_level sl 3 10
      white_level := add_level sl 1 1 }

/-- The line-start measurement of `Scan for vsync`: `ref` after `ref -= s->blank_level`. -/
def vsync_m1 (s : _usbtv_t) : Option Int :=
  match rd s.iline 0 with
  | none => none
  | some r0 =>
    match sum_from s.iline (s.vsync_width - 1).toNat 1 r0 with
    | none => none
    | some sum => if s.vsync_width = 0 then none else some (sum.tdiv s.vsync_width - s.blank_level)

/-- The mid-line measurement of the colour branch: `x = s->width / 2; ref = s->iline[x];`,
the loop from that same `x`, the division and `ref -= s->blank_level`. -/
def vsync_m2 (s : _usbtv_t) : Option Int :=
  match rd s.iline (s.width.tdiv 2) with
  | none => none
  | some r0 =>
    match sum_from s.iline (s.width.tdiv 2 + s.vsync_width - s.width.tdiv 2).toNat
        (s.width.tdiv 2) r0 with
    | none => none
    | some sum => if s.vsync_width = 0 then none else some (sum.tdiv s.vsync_width - s.blank_level)

/-- The vsync shift register after this line has been shifted in and the mask applied. -/
def vsync_reg (s : _usbtv_t) : Option Int :=
  match vsync_m1 s with
  | none => none
  | some m1 =>
    let v := s.vsync * 2
    let v := if below_sync m1 then or1 v else v
    if s.colour ≠ 0 then
      match vsync_m2 s with
      | none => none
      | some m2 =>
        let v := v * 2
        let v := if below_sync m2 then or1 v else v
        some (v % 65536)
    else some (v % 1024)

/-- The local `aline` at the end of the pattern test of `Scan for vsync`. -/
def vsync_match (colour reg : Int) : Int :=
  if colour ≠ 0 then
    if reg = 252 then 7 else if reg = 126 then 269 else 0
  else
    if reg = 510 then 9 else 0

/-- The block `Scan for vsync` up to and including the update of `vsync_count`. -/
def vsync_scan (s : _usbtv_t) : Option _usbtv_t :=
  match vsync_reg s with
  | none => none
  | some reg =>
    let aline := vsync_match s.colour reg
    let s1 := { s with vsync := reg }
    let s2 := if aline ≠ 0 then { s1 with line := aline, vsync_count := s1.lines * 10 } else s1
    some { s2 with vsync_count := s2.vsync_count + (if s2.vsync_count ≠ 0 then -1 else 0) }

/-- The field-start advance `if(s->line == 1 || s->line == 264) ...`. -/
def fsc_advance (s : _usbtv_t) : _usbtv_t :=
  if s.line = 1 ∨ s.line = 264 then
    let f := (s.fsc + 1).tmod 3
    { s with fsc := f, fsc_hold := if f = 1 then 0 else s.fsc_hold }
  else s

/-- Whether the FSC flag detector resets the colour phase on this line: the guard
`!s->fsc_hold && (s->line == 18 || s->line == 281)` and the burst comparison. -/
def fsc_burst (s : _usbtv_t) : Option Bool :=
  if s.fsc_hold = 0 ∧ (s.line = 18 ∨ s.line = 281) then
    match sum_from s.iline (s.fsc_left + s.fsc_width - s.fsc_left).toNat s.fsc_left 0 with
    | none => none
    | some sum =>
      if s.fsc_width = 0 then none
      else some (decide (sum.tdiv s.fsc_width > (s.white_level + s.black_level).tdiv 2))
  else some false

/-- The colour branch of `Update FSC counter` (without the computation of `aline`). -/
def fsc_update (s : _usbtv_t) : Option _usbtv_t :=
  if s.colour ≠ 0 then
    match fsc_burst (fsc_advance s) with
    | none => none
    | some b =>
      some (if b then { fsc_advance s with fsc := 1, fsc_hold := 1 } else fsc_advance s)
  else some s

/-- The active-output row `aline` of line number `line`: the assignment to `aline` at the
end of `Update FSC counter`. -/
def aline_of (colour line : Int) : Int :=
  if colour ≠ 0 then
    (if line < 265 then (line - 23) * 2 else (line - 286) * 2 + 1)
  else line - 9

/-- The intensity `v` after scaling and clamping. -/
def intensity (sample black white : Int) : Option Int :=
  if white - black = 0 then none
  else
    let v := ((sample - black) * 255).tdiv (white - black)
    some (if v > 255 then 255 else (if v < 0 then 0 else v))

/-- The colour pixel update `c &= ~(0xFF << (fsc * 8)); c |= v << (fsc * 8);` on a
`uint32_t`.  The shift of the `int` constant `0xFF` is defined for `fsc` in `0..2` only. -/
def colour_pixel (c : Nat) (fsc v : Int) : Option Nat :=
  if 0 ≤ fsc ∧ fsc ≤ 2 then
    let sh := (fsc * 8).toNat
    some (((c &&& (0xFFFFFFFF ^^^ (0xFF <<< sh))) ||| (v.toNat <<< sh)) % 2 ^ 32)
  else none

/-- The mono pixel `c = v << 16 | v << 8 | v`. -/
def mono_pixel (v : Int) : Nat :=
  ((v.toNat <<< 16) ||| (v.toNat <<< 8) ||| v.toNat) % 2 ^ 32

/-- Byte `j` of a pixel: bits `8 * j .. 8 * j + 7`. -/
def byte (c j : Nat) : Nat := (c >>> (8 * j)) % 256

/-- One iteration of the rasterizer loop, for column `x` of row `aline`. -/
def put_pixel (s : _usbtv_t) (aline x : Int) : Option _usbtv_t :=
  match rd s.iline (s.active_left + x) with
  | none => none
  | some sample =>
    match intensity sample s.black_level s.white_level with
    | none => none
    | some v =>
      if s.colour ≠ 0 then
        match rd s.framebuffer (aline * s.active_width + x) with
        | none => none
        | some c =>
          match colour_pixel c s.fsc v with
          | none => none
          | some c1 =>
            match wr s.framebuffer (aline * s.active_width + x) c1 with
            | none => none
            | some fb => some { s with framebuffer := fb }
      else
        match wr s.framebuffer (aline * s.active_width + x) (mono_pixel v) with
        | none => none
        | some fb => some { s with framebuffer := fb }

/-- The rasterizer loop `for(x = 0; x < s->active_width; x++)`, with `n` iterations left. -/
def raster_loop (aline : Int) : Nat → Int → _usbtv_t → Option _usbtv_t
  | 0, _, s => some s
  | n + 1, x, s =>
    match put_pixel s aline x with
    | none => none
    | some s1 => raster_loop aline n (x + 1) s1

/-- The guarded rasterizer `if(aline >= 0 && aline < s->active_lines) ...`. -/
def rasterize (s : _usbtv_t) : Option _usbtv_t :=
  if aline_of s.colour s.line ≥ 0 ∧ aline_of s.colour s.line < s.active_lines then
    raster_loop (aline_of s.colour s.line) s.active_width.toNat 0 s
  else some s

/-- The end of `_usbtv_read`: `s->line++` and the returned status. -/
def line_advance (s : _usbtv_t) : Int × _usbtv_t :=
  let s1 := { s with line := s.line + 1 }
  if s1.line > s1.lines then (1, { s1 with line := 1, frame := s1.frame + 1 })
  else if s1.colour ≠ 0 ∧ s1.line = 264 then (1, s1)
  else (0, s1)

/-- The state in which the block `Update FSC counter` is entered: hsync search, phase
correction, level update and vsync scan have been done. -/
def pre_fsc (s : _usbtv_t) : Option _usbtv_t :=
  match hsync_scan s with
  | none => none
  | some (mx, s1) =>
    match level_update (hsync_adjust s1 mx) with
    | none => none
    | some s3 => vsync_scan s3

/-- The state in which the rasterizer is entered: the FSC update has been done as well. -/
def pre_raster (s : _usbtv_t) : Option _usbtv_t :=
  match pre_fsc s with
  | none => none
  | some s4 => fsc_update s4

/-- The per-line processing of `_usbtv_read`, everything after `s->iline_len = 0`. -/
def process_line (s : _usbtv_t) : Option (Int × _usbtv_t) :=
  match pre_raster s with
  | none => none
  | some s5 =>
    match rasterize s5 with
    | none => none
    | some s6 => some (line_advance s6)

/-- The function `_usbtv_read`: status `2` asks for more input, `1` announces a frame (or
field), `0` a line without event. -/
def _usbtv_read (s : _usbtv_t) : Option (Int × _usbtv_t) :=
  match fill_line (fill_fuel s) s with
  | none => none
  | some (false, s1) => some (2, s1)
  | some (true, s1) => process_line s1

/-! ## Runs of completed lines -/

/-- What the caller may do between two completed lines: hand over buffers and call reads
that return `2`. -/
inductive Idle : _usbtv_t → _usbtv_t → Prop
  | done (s : _usbtv_t) : Idle s s
  | write (s t : _usbtv_t) (buf : List Int) : Idle (_usbtv_write s buf) t → Idle s t
  | more (s s1 t : _usbtv_t) : _usbtv_read s = some (2, s1) → Idle s1 t → Idle s t

/-- A run of `n` completed lines: line `i` is completed by the read entered in state `t i`,
which returns status `r i` and leaves state `u i`; between two completed lines the caller is
idle. -/
def CompletedLines (n : Nat) (t u : Nat → _usbtv_t) (r : Nat → Int) : Prop :=
  (∀ i, i < n → _usbtv_read (t i) = some (r i, u i) ∧ r i ≠ 2) ∧
  (∀ i, i + 1 < n → Idle (u i) (t (i + 1)))

/-- The line number with which the block `Update FSC counter` of the read entered in `s`
is executed (`0` when the read does not get there). -/
def fsc_line (s : _usbtv_t) : Int :=
  match fill_line (fill_fuel s) s with
  | some (true, s0) =>
    match pre_fsc s0 with
    | some s4 => s4.line
    | none => 0
  | _ => 0

/-- Whether the FSC flag detector of the read entered in `s` resets the colour phase, that
is executes `s->fsc = 1; s->fsc_hold = 1;`. -/
def fsc_reset (s : _usbtv_t) : Bool :=
  match fill_line (fill_fuel s) s with
  | some (true, s0) =>
    match pre_fsc s0 with
    | some s4 => decide (s4.colour ≠ 0) && (fsc_burst (fsc_advance s4) == some true)
    | none => false
  | _ => false

/-! ## Reading off the states of a read -/

/-- The state left by the line accumulator of a read entered in `s`. -/
def filled (s : _usbtv_t) : _usbtv_t :=
  match fill_line (fill_fuel s) s with
  | some (_, t) => t
  | none => s

/-- The state left by the hsync search entered in `s`. -/
def scanned (s : _usbtv_t) : _usbtv_t :=
  match hsync_scan s with
  | some (_, t) => t
  | none => s

/-- The state left by a read entered in `s`. -/
def after_read (s : _usbtv_t) : _usbtv_t :=
  match _usbtv_read s with
  | some (_, t) => t
  | none => s

/-! ## Small decoders -/

/-- A mono decoder with lines of 8 samples, a 3-sample hsync window, a 2-sample vsync window
and 2 active samples from column 2, at line 9 of its first frame. -/
def mono8 : _usbtv_t :=
  { sample_rate := 0, colour := 0, lines := 320, active_lines := 312, width := 8,
    hsync_width := 3, vsync_width := 2, active_left := 2, active_width := 2,
    fsc_left := 0, fsc_width := 0, frame_rate_num := 10, frame_rate_den := 1,
    frame := 1, line := 9, fsc := 0, fsc_hold := 0, inp := [],
    iline := List.replicate 8 0, iline_len := 0, hsync := 0, hsyncwin := [0, 0, 0],
    hsyncwin_x := 0, hsync_offset := 0, vsync := 0, vsync_count := 0, sync_level := 0,
    blank_level := 0, black_level := 0, white_level := 0,
    framebuffer := List.replicate (2 * 312) 0 }

/-- The decoder `mono8` holding a line whose sync tip ends at sample 5. -/
def late_sync : _usbtv_t := _usbtv_write mono8 [0, 0, 0, -100, -100, -100, 0, 0]

/-! ## Well-formed decoder states -/

/-- The buffers have the lengths `_usbtv_init` allocates, the window index is inside the
window, the divisors of `_usbtv_read` are not zero, every sample window lies inside one line
and, in colour mode, `fsc` is one of the three channels. -/
def Ready (s : _usbtv_t) : Prop :=
  (s.iline.length : Int) = s.width ∧ (s.hsyncwin.length : Int) = s.hsync_width ∧
  (s.framebuffer.length : Int) = s.active_width * s.active_lines ∧
  0 ≤ s.hsyncwin_x ∧ s.hsyncwin_x < s.hsync_width ∧
  2 ≤ s.width ∧ s.hsync_width ≠ 2 ∧ s.hsync_width - 1 ≤ s.width ∧
  1 ≤ s.vsync_width ∧ s.vsync_width ≤ s.width ∧
  0 ≤ s.active_left ∧ s.active_left + s.active_width ≤ s.width ∧
  (s.colour ≠ 0 →
    s.width.tdiv 2 + s.vsync_width ≤ s.width ∧ 0 ≤ s.fsc_left ∧ 1 ≤ s.fsc_width ∧
    s.fsc_left + s.fsc_width ≤ s.width ∧ 0 ≤ s.fsc ∧ s.fsc ≤ 2)

instance Ready_decidable (s : _usbtv_t) : Decidable (Ready s) := by
  unfold Ready
  infer_instance

/-- The decoder `mono8` with a pending phase correction of `-1` and seven pending samples. -/
def skip_one : _usbtv_t :=
  { _usbtv_write mono8 [0, 0, -100, -100, -100, 0, 0] with hsync_offset := -1 }

/-- A colour decoder with lines of 8 samples, a 3-sample hsync window, a 2-sample vsync
window, 1 active sample at column 2 and a 2-sample burst window at column 2, at line 3. -/
def colour8 : _usbtv_t :=
  { sample_rate := 0, colour := 1, lines := 525, active_lines := 480, width := 8,
    hsync_width := 3, vsync_width := 2, active_left := 2, active_width := 1,
    fsc_left := 2, fsc_width := 2, frame_rate_num := 30000, frame_rate_den := 1001,
    frame := 1, line := 3, fsc := 0, fsc_hold := 0, inp := [],
    iline := List.replicate 8 0, iline_len := 0, hsync := 0, hsyncwin := [0, 0, 0],
    hsyncwin_x := 0, hsync_offset := 0, vsync := 0, vsync_count := 0, sync_level := 0,
    blank_level := 0, black_level := 0, white_level := 0,
    framebuffer := List.replicate (1 * 480) 0 }

/-- The decoder `colour8` after six low half-lines, fed a line whose two vsync windows are
not low. -/
def sync_end : _usbtv_t :=
  { _usbtv_write colour8 [20000, 0, 0, 0, 10000, 10000, 0, 0] with vsync := 63 }

/-- The decoder `mono8` at line 100 with eight low lines in its register and a running
countdown of 5, fed a line whose vsync window is not low. -/
def held : _usbtv_t :=
  { _usbtv_write mono8 [20000, 0, 0, 0, 0, 0, 0, 0] with
    vsync := 255, vsync_count := 5, line := 100 }

/-- The state left by one iteration of the rasterizer loop. -/
def put_at (s : _usbtv_t) (aline x : Int) : _usbtv_t :=
  match put_pixel s aline x with
  | some t => t
  | none => s

/-- The state in which the rasterizer of a read entered in `s` is entered. -/
def at_raster (s : _usbtv_t) : _usbtv_t :=
  match pre_raster (filled s) with
  | some t => t
  | none => s

/-- The decoder `mono8` holding a line, with black level 9830 and white level 32767. -/
def lit : _usbtv_t :=
  { mono8 with iline := [0, 0, 0, 10000, 20000, 32767, 30000, 5], black_level := 9830,
               white_level := 32767 }

/-- The decoder `colour8` at line 23 (row 0) in the green field, its framebuffer filled with
the pixel `0x00AABBCC`, fed one line. -/
def tint : _usbtv_t :=
  { _usbtv_write colour8 [0, 0, 12000, 20000, 32767, 30000, 5, 0] with
    line := 23, fsc := 1, framebuffer := List.replicate (1 * 480) 0x00AABBCC }

/-- The decoder `mono8` at line 9 (row 0), fed one line. -/
def grey : _usbtv_t := _usbtv_write mono8 [0, 0, 12000, 32767, 20000, 30000, 5, 0]

/-! ## A caller that feeds one buffer per line -/

/-- The state in which read `i` is entered when the caller hands over `buf` before every
read, starting from `s`. -/
def feed_t (s : _usbtv_t) (buf : List Int) : Nat → _usbtv_t
  | 0 => _usbtv_write s buf
  | i + 1 => _usbtv_write (after_read (feed_t s buf i)) buf

/-- The state left by read `i` of that caller. -/
def feed_u (s : _usbtv_t) (buf : List Int) (i : Nat) : _usbtv_t := after_read (feed_t s buf i)

/-- The status of read `i` of that caller (`2` also when the read is undefined). -/
def feed_r (s : _usbtv_t) (buf : List Int) (i : Nat) : Int :=
  match _usbtv_read (feed_t s buf i) with
  | some (r, _) => r
  | none => 2

/-- Whether the first reads of that caller complete a line each and execute their FSC block
with the line numbers listed in `ls`. -/
def feed_check (buf : List Int) : List Int → _usbtv_t → Bool
  | [], _ => true
  | l :: ls, s =>
    match _usbtv_read (_usbtv_write s buf) with
    | some (r, s') =>
      decide (r ≠ 2) && decide (fsc_line (_usbtv_write s buf) = l) && feed_check buf ls s'
    | none => false

/-- A colour decoder with lines of 8 samples, a 3-sample hsync window, a 2-sample vsync
window, a 2-sample burst window at column 5 and a framebuffer of one pixel, at line 1. -/
def cam : _usbtv_t :=
  { sample_rate := 0, colour := 1, lines := 525, active_lines := 1, width := 8,
    hsync_width := 3, vsync_width := 2, active_left := 2, active_width := 1,
    fsc_left := 5, fsc_width := 2, frame_rate_num := 30000, frame_rate_den := 1001,
    frame := 1, line := 1, fsc := 0, fsc_hold := 0, inp := [],
    iline := List.replicate 8 0, iline_len := 0, hsync := 0, hsyncwin := [0, 0, 0],
    hsyncwin_x := 0, hsync_offset := 0, vsync := 0, vsync_count := 0, sync_level := 0,
    blank_level := 0, black_level := 0, white_level := 0, framebuffer := [0] }

/-- A line with a sync tip in samples 1 to 3 and white level from sample 4 on. -/
def burst_line : List Int := [30000, -10000, -10000, -10000, 30000, 30000, 30000, 30000]

/-- The decoder `mono8` at line 319, the last but one of its frame. -/
def mono_end : _usbtv_t := { mono8 with line := 319 }

/-- The line numbers 1 to 20. -/
def first_lines : List Int :=
  [1, 2, 3, 4, 5, 6, 7, 8, 9, 10, 11, 12, 13, 14, 15, 16, 17, 18, 19, 20]

/-! ## Initialisation

The sample counts of `_usbtv_init` are `round` or `ceil` of a product of doubles.  The exact
value of each product is a rational `n / d` with `d` at most `15750000`, and the rounding
error of the double computation (a few units of `2 ^ -53`, relative) is far below
`1 / (2 * d)`.  So `round` gives the integer nearest to `n / d` unless `n / d` is exactly
half way between two integers, and `ceil` gives the least integer above `n / d` unless `n / d`
is an integer; in these two cases the double may fall on either side, and a parameter of the
embedding tells which. -/

/-- The value of `round(x)` for a double `x` computed from the exact value `n / d`; `up`
tells where a value exactly half way between two integers goes. -/
def fp_round (up : Bool) (n d : Nat) : Int :=
  if 2 * (n % d) = d then ((n / d : Nat) : Int) + (if up then 1 else 0)
  else (((2 * n + d) / (2 * d) : Nat) : Int)

/-- The value of `ceil(x)` for a double `x` computed from the exact value `n / d`; `up`
tells whether an exact integer is overshot. -/
def fp_ceil (up : Bool) (n d : Nat) : Int :=
  if n % d = 0 then ((n / d : Nat) : Int) + (if up then 1 else 0)
  else ((n / d : Nat) : Int) + 1

/-- The function `_usbtv_init`, when its three allocations succeed.  `tie k` is the side taken
by the `k`-th floating point expression in the cases described above, `junk` and `junk_fb`
are the contents of the memory that `malloc` returns for `iline` and `framebuffer`; `hsyncwin`
comes from `calloc`, and `memset` clears every field that is not assigned. -/
def _usbtv_init (tie : Nat → Bool) (junk : Nat → Int) (junk_fb : Nat → Nat)
    (sample_rate : Nat) (colour : Int) : _usbtv_t :=
  let col : Int := if colour ≠ 0 then 1 else 0
  let hsync_width :=
    if col ≠ 0 then fp_round (tie 0) (sample_rate * 47) 10000000
    else fp_round (tie 0) (sample_rate * 200) 10000000
  let vsync_width :=
    if col ≠ 0 then fp_round (tie 1) (sample_rate * 271) 10000000
    else fp_round (tie 1) (sample_rate * 2675) 10000000
  let active_left :=
    if col ≠ 0 then fp_round (tie 2) (sample_rate * 92) 10000000
    else fp_round (tie 2) (sample_rate * 250) 10000000
  let active_width :=
    if col ≠ 0 then fp_ceil (tie 3) (sample_rate * 529) 10000000
    else fp_ceil (tie 3) (sample_rate * 2825) 10000000
  let fsc_left := if col ≠ 0 then fp_round (tie 4) (sample_rate * 147) 10000000 else 0
  let fsc_width := if col ≠ 0 then fp_round (tie 5) (sample_rate * 200) 10000000 else 0
  let width :=
    if col ≠ 0 then fp_round (tie 6) (sample_rate * 1001) (525 * 30000)
    else fp_round (tie 6) sample_rate (320 * 10)
  let active_width := if active_width > width then width else active_width
  let active_lines : Int := if col ≠ 0 then 480 else 312
  { sample_rate := sample_rate
    colour := col
    lines := if col ≠ 0 then 525 else 320
    active_lines := active_lines
    width := width
    hsync_width := hsync_width
    vsync_width := vsync_width
    active_left := active_left
    active_width := active_width
    fsc_left := fsc_left
    fsc_width := fsc_width
    frame_rate_num := if col ≠ 0 then 30000 else 10
    frame_rate_den := if col ≠ 0 then 1001 else 1
    frame := 1
    line := 1
    fsc := 0
    fsc_hold := 0
    inp := []
    iline := (List.range width.toNat).map junk
    iline_len := 0
    hsync := 0
    hsyncwin := List.replicate hsync_width.toNat 0
    hsyncwin_x := 0
    hsync_offset := 0
    vsync := 0
    vsync_count := 0
    sync_level := 0
    blank_level := 0
    black_level := 0
    white_level := 0
    framebuffer := (List.range (active_width * active_lines).toNat).map junk_fb }

/-- The states that a decoder initialised as `s0` reaches by calls of `_usbtv_write` and
`_usbtv_read`, whatever the buffers and whatever status the reads return. -/
inductive Reach (s0 : _usbtv_t) : _usbtv_t → Prop
  | start : Reach s0 s0
  | write (s : _usbtv_t) (buf : List Int) : Reach s0 s → Reach s0 (_usbtv_write s buf)
  | read (s : _usbtv_t) (r : Int) (s' : _usbtv_t) :
      Reach s0 s → _usbtv_read s = some (r, s') → Reach s0 s'

/-- The state invariant of the data model: `iline_len` and `hsyncwin_x` are in range, `hsync`
is the sum of the window, `line` is a line of the frame and in colour mode `fsc` is one of the
three channels. -/
def StateInv (s : _usbtv_t) : Prop :=
  (0 ≤ s.iline_len ∧ s.iline_len ≤ s.width) ∧
  (0 ≤ s.hsyncwin_x ∧ s.hsyncwin_x < s.hsync_width) ∧
  s.hsync = s.hsyncwin.sum ∧
  (1 ≤ s.line ∧ s.line ≤ s.lines) ∧
  (s.colour ≠ 0 → 0 ≤ s.fsc ∧ s.fsc ≤ 2)

/-- The decoder for mono at 2 250 000 samples per second, with cleared buffers. -/
def mono_sdr : _usbtv_t :=
  _usbtv_init (fun _ => false) (fun _ => 0) (fun _ => 0) 2250000 0

/-- The decoder for mono at 90 000 samples per second (`-s 90000`), holding a buffer of 28
samples: lines of 28 samples and an hsync window of 2 samples. -/
def slow_mono : _usbtv_t :=
  _usbtv_write (_usbtv_init (fun _ => false) (fun _ => 0) (fun _ => 0) 90000 0)
    (List.replicate 28 0)

/-- The phase correction is pending only at the start of a line: `hsync_offset` is `0`, or
it is `-1` or `1` and the line buffer is empty. -/
def PhaseInv (s : _usbtv_t) : Prop :=
  s.hsync_offset = 0 ∨ (s.iline_len = 0 ∧ (s.hsync_offset = -1 ∨ s.hsync_offset = 1))

/-- The decoder for mono at 160 000 samples per second: lines of 50 samples, an hsync window
of 3 samples and a vsync window of 43 samples. -/
def mono160 : _usbtv_t :=
  _usbtv_init (fun _ => false) (fun _ => 0) (fun _ => 0) 160000 0

/-- The decoder `mono160` holding a first line whose sync pulse is three samples late. -/
def mono160_line : _usbtv_t :=
  _usbtv_write mono160 ([0, 0, 0, -20000, -20000, -20000] ++ List.replicate 44 0)

/-- The decoder for mono at 141 600 samples per second (`-s 141600`): lines of 44 samples, an
hsync window of 3 samples, a vsync window of 38 samples and an active window of 41 samples
from column 4. -/
def narrow_mono : _usbtv_t :=
  _usbtv_init (fun _ => false) (fun _ => 0) (fun _ => 0) 141600 0

/-- A caller that hands over a line of 44 samples at level zero before every read. -/
def flat_lines (_ : Nat) : List Int := List.replicate 44 0

/-! ## Reading off the measurements of a read -/

/-- The state in which the block `Scan for vsync` is entered: hsync search, phase
correction and level update have been done. -/
def pre_vsync (s : _usbtv_t) : Option _usbtv_t :=
  match hsync_scan s with
  | none => none
  | some (mx, s1) => level_update (hsync_adjust s1 mx)

/-- Whether the line completed by the read entered in `s` sets the bit of the line-start
measurement: the test `ref < -0.15 * INT16_MAX` of `Scan for vsync` succeeds. -/
def line_low (s : _usbtv_t) : Bool :=
  match fill_line (fill_fuel s) s with
  | some (true, s0) =>
    match pre_vsync s0 with
    | some s3 =>
      match vsync_m1 s3 with
      | some m1 => below_sync m1
      | none => false
    | none => false
  | _ => false

/-- The bit that the line completed by the read entered in `s` shifts into the mono vsync
register. -/
def line_bit (s : _usbtv_t) : Int := if line_low s then 1 else 0

/-- The sync tip mean `ref` that the read entered in `s` feeds into the level filter (`0`
when the read does not get there). -/
def line_tip (s : _usbtv_t) : Int :=
  match fill_line (fill_fuel s) s with
  | some (true, s0) =>
    match sync_tip (scanned s0) with
    | some ref => ref
    | none => 0
  | _ => 0

/-- The statement `s->sync_level = (s->sync_level * 99 + ref) / 100;` as a function of the
old level and of the sync tip mean `ref`. -/
def level_filter (sync_level ref : Int) : Int := (sync_level * 99 + ref).tdiv 100

/-! ## A caller that feeds a buffer of its choice per line -/

/-- The state in which read `i` is entered when the caller hands over `bufs i` before read
`i`, starting from `s`. -/
def play_t (s : _usbtv_t) (bufs : Nat → List Int) : Nat → _usbtv_t
  | 0 => _usbtv_write s (bufs 0)
  | i + 1 => _usbtv_write (after_read (play_t s bufs i)) (bufs (i + 1))

/-- The state left by read `i` of that caller. -/
def play_u (s : _usbtv_t) (bufs : Nat → List Int) (i : Nat) : _usbtv_t :=
  after_read (play_t s bufs i)

/-- The status of read `i` of that caller (`2` also when the read is undefined). -/
def play_r (s : _usbtv_t) (bufs : Nat → List Int) (i : Nat) : Int :=
  match _usbtv_read (play_t s bufs i) with
  | some (r, _) => r
  | none => 2

/-- Whether each of the first `n` reads of that caller completes a line. -/
def play_ok (s : _usbtv_t) (bufs : Nat → List Int) (n : Nat) : Bool :=
  (List.range n).all (fun i => decide (play_r s bufs i ≠ 2))

/-- The decoder `mono8` in lock: the hsync window holds the end of a previous line. -/
def locked8 : _usbtv_t := { mono8 with hsyncwin := [5000, 5000, 5000], hsync := 15000 }

/-- A line whose sync pulse is at samples 1 to 3 and whose first two samples are at sync
level: its line-start measurement is low. -/
def low_line : List Int := [1000, 0, 0, 0, 5000, 5000, 5000, 5000]

/-- A line with the same sync pulse that starts well above blanking level. -/
def high_line : List Int := [30000, 0, 0, 0, 5000, 5000, 5000, 5000]

/-- A line whose sync tip is at level `50`. -/
def tip50_line : List Int := [1000, 50, 50, 50, 5000, 5000, 5000, 5000]

/-- Eleven low lines followed by high lines. -/
def eleven_low (i : Nat) : List Int := if i < 11 then low_line else high_line

/-- A high line, eight low lines and high lines again. -/
def eight_low (i : Nat) : List Int := if 1 ≤ i ∧ i ≤ 8 then low_line else high_line

/-! ## Three fields on one pixel -/

/-- The pixel after three colour pixel updates in a row, as three consecutive fields apply
them to the same framebuffer cell. -/
def overlay (c : Nat) (f1 v1 f2 v2 f3 v3 : Int) : Option Nat :=
  match colour_pixel c f1 v1 with
  | none => none
  | some c1 =>
    match colour_pixel c1 f2 v2 with
    | none => none
    | some c2 => colour_pixel c2 f3 v3

/-- A line whose sync tip is at level `-32000`. -/
def deep_line : List Int := [-31000, -32000, -32000, -32000, 5000, 5000, 5000, 5000]

/-! ## Means as the specification words them -/

/-- The samples `a[lo], ..., a[lo + n - 1]`. -/
def window (a : List Int) (lo n : Nat) : List Int := (a.drop lo).take n

/-- The truncated arithmetic mean of a list of samples: their sum divided by their count. -/
def mean_of (l : List Int) : Int := l.sum.tdiv l.length

/-- The mid-line measurement as the specification words it: the truncated mean of the
`vsync_width` consecutive samples `iline[width / 2 .. width / 2 + vsync_width - 1]`, each
counted once, minus `blank_level`. -/
def vsync_m2_claimed (s : _usbtv_t) : Int :=
  mean_of (window s.iline (s.width.tdiv 2).toNat s.vsync_width.toNat) - s.blank_level

/-- The sync tip as the specification words it: the truncated mean of the samples
`iline[2], ..., iline[hsync_width - 2]`. -/
def sync_tip_claimed (s : _usbtv_t) : Int :=
  mean_of (window s.iline 2 (s.hsync_width - 3).toNat)

/-- The colour decoder `cam` holding a line whose sample `width / 2` is at level `6000` and
whose next sample is at sync level. -/
def mid_line : _usbtv_t := _usbtv_write cam [1000, 0, 0, 0, 6000, 0, 5000, 5000]

/-- The state in which the vsync scan of the read entered in `s` is entered (`s` itself when
the read does not get there). -/
def at_vsync (s : _usbtv_t) : _usbtv_t :=
  match pre_vsync (filled s) with
  | some s3 => s3
  | none => s

/-- A mono decoder with an hsync window of 4 samples, holding a line that starts with the
samples `0, 100, 0, 0`. -/
def wide_tip : _usbtv_t :=
  { mono8 with
    hsync_width := 4
    hsyncwin := [0, 0, 0, 0]
    iline := [0, 100, 0, 0, 0, 0, 0, 0] }

/-! ## The running sum of the hsync search -/

/-- The state after one iteration of the hsync search that evicts `old` from the window,
pushes `v` and stores the window `win`. -/
def hsync_next (s : _usbtv_t) (old v : Int) (win : List Int) : _usbtv_t :=
  { s with
    hsync := s.hsync - old + v
    hsyncwin := win
    hsyncwin_x := if s.hsyncwin_x + 1 = s.hsync_width then 0 else s.hsyncwin_x + 1 }

/-- The state after `n` iterations of the hsync search entered in `s` at index `x0`. -/
def hsync_after (s : _usbtv_t) (x0 : Int) (n : Nat) : Option _usbtv_t :=
  (hsync_loop n x0 0 0 s).map Prod.snd

/-- The running sum `s->hsync` after the hsync search, entered in `s` at index `x0`, has
pushed the samples `x0, ..., x0 + j` (`0` when the search faults before). -/
def running_sum (s : _usbtv_t) (x0 : Int) (j : Nat) : Int :=
  match hsync_after s x0 (j + 1) with
  | some t => t.hsync
  | none => 0

/-- The hsync window read from its oldest entry to its newest: the entries from
`hsyncwin_x` to the end, then the entries before `hsyncwin_x`. -/
def window_order (s : _usbtv_t) : List Int :=
  s.hsyncwin.drop s.hsyncwin_x.toNat ++ s.hsyncwin.take s.hsyncwin_x.toNat

/-! ## Buffers -/

theorem rd_eq_some {α : Type} {a : List α} {i : Int} {v : α} (h : rd a i = some v) :
    0 ≤ i ∧ i.toNat < a.length ∧ a[i.toNat]? = some v := by
  unfold rd at h
  split at h
  · rename_i h0
    exact ⟨h0, (List.getElem?_eq_some_iff.mp h).1, h⟩
  · exact absurd h (by simp)

theorem rd_of_lt {α : Type} (a : List α) (i : Int) (h0 : 0 ≤ i) (h1 : i < a.length) :
    ∃ v, rd a i = some v := by
  have h2 : i.toNat < a.length := by omega
  exact ⟨a[i.toNat], by simp [rd, h0, List.getElem?_eq_getElem h2]⟩

theorem wr_eq_some {α : Type} {a a' : List α} {i : Int} {v : α} (h : wr a i v = some a') :
    0 ≤ i ∧ i.toNat < a.length ∧ a' = a.set i.toNat v := by
  unfold wr at h
  split at h
  · rename_i h0
    simp only [Option.some.injEq] at h
    exact ⟨h0.1, h0.2, h.symm⟩
  · exact absurd h (by simp)

theorem wr_of_lt {α : Type} (a : List α) (i : Int) (v : α) (h0 : 0 ≤ i) (h1 : i < a.length) :
    wr a i v = some (a.set i.toNat v) := by
  have h2 : i.toNat < a.length := by omega
  simp [wr, h0, h2]

theorem wr_length {α : Type} {a a' : List α} {i : Int} {v : α} (h : wr a i v = some a') :
    a'.length = a.length := by
  rw [(wr_eq_some h).2.2, List.length_set]

theorem rd_wr_same {α : Type} {a a' : List α} {i : Int} {v : α} (h : wr a i v = some a') :
    rd a' i = some v := by
  obtain ⟨h0, h1, h2⟩ := wr_eq_some h
  subst h2
  simp [rd, h0, h1]

theorem rd_wr_other {α : Type} {a a' : List α} {i j : Int} {v : α} (h : wr a i v = some a')
    (hj : j ≠ i) : rd a' j = rd a j := by
  obtain ⟨h0, h1, h2⟩ := wr_eq_some h
  subst h2
  unfold rd
  split
  · rename_i hj0
    have : i.toNat ≠ j.toNat := by omega
    simp [List.getElem?_set_ne this]
  · rfl

/-! ## What each block of `_usbtv_read` leaves alone -/

theorem fill_line_frame : ∀ (fuel : Nat) (s : _usbtv_t) (b : Bool) (s' : _usbtv_t),
    fill_line fuel s = some (b, s') →
    s' = { s with inp := s'.inp, iline := s'.iline, iline_len := s'.iline_len,
                  hsync_offset := s'.hsync_offset } := by
  intro fuel
  induction fuel with
  | zero =>
    intro s b s' h
    exact absurd h (by simp [fill_line])
  | succ n ih =>
    intro s b s' h
    rw [fill_line] at h
    split at h
    · split at h
      · have := ih _ _ _ h
        rw [this]
      · split at h
        · have := ih _ _ _ h
          rw [this]
        · split at h
          · simp only [Option.some.injEq, Prod.mk.injEq] at h
            rw [← h.2]
          · split at h
            · exact absurd h (by simp)
            · have := ih _ _ _ h
              rw [this]
    · simp only [Option.some.injEq, Prod.mk.injEq] at h
      rw [← h.2]

theorem hsync_loop_frame : ∀ (n : Nat) (x mx ref : Int) (s : _usbtv_t) (mx' : Int)
    (s' : _usbtv_t), hsync_loop n x mx ref s = some (mx', s') →
    s' = { s with hsync := s'.hsync, hsyncwin := s'.hsyncwin, hsyncwin_x := s'.hsyncwin_x } := by
  intro n
  induction n with
  | zero =>
    intro x mx ref s mx' s' h
    simp only [hsync_loop, Option.some.injEq, Prod.mk.injEq] at h
    rw [← h.2]
  | succ n ih =>
    intro x mx ref s mx' s' h
    rw [hsync_loop] at h
    split at h
    · split at h
      · exact absurd h (by simp)
      · dsimp only at h
        split at h
        · have := ih _ _ _ _ _ _ h
          rw [this]
        · have := ih _ _ _ _ _ _ h
          rw [this]
    · exact absurd h (by simp)

theorem hsync_scan_frame {s s' : _usbtv_t} {mx : Int} (h : hsync_scan s = some (mx, s')) :
    s' = { s with hsync := s'.hsync, hsyncwin := s'.hsyncwin, hsyncwin_x := s'.hsyncwin_x } :=
  hsync_loop_frame _ _ _ _ _ _ _ h

theorem level_update_frame {s s' : _usbtv_t} (h : level_update s = some s') :
    s' = { s with sync_level := s'.sync_level, blank_level := s'.blank_level,
                  black_level := s'.black_level, white_level := s'.white_level } := by
  unfold level_update at h
  split at h
  · exact absurd h (by simp)
  · simp only [Option.some.injEq] at h
    rw [← h]

theorem vsync_scan_frame {s s' : _usbtv_t} (h : vsync_scan s = some s') :
    s' = { s with vsync := s'.vsync, line := s'.line, vsync_count := s'.vsync_count } := by
  unfold vsync_scan at h
  split at h
  · exact absurd h (by simp)
  · simp only [Option.some.injEq] at h
    rw [← h]
    split <;> rfl

theorem fsc_update_frame {s s' : _usbtv_t} (h : fsc_update s = some s') :
    s' = { s with fsc := s'.fsc, fsc_hold := s'.fsc_hold } := by
  unfold fsc_update at h
  split at h
  · split at h
    · exact absurd h (by simp)
    · simp only [Option.some.injEq] at h
      rw [← h]
      unfold fsc_advance
      split <;> split <;> rfl
  · simp only [Option.some.injEq] at h
    rw [← h]

theorem put_pixel_frame {s s' : _usbtv_t} {aline x : Int} (h : put_pixel s aline x = some s') :
    s' = { s with framebuffer := s'.framebuffer } := by
  unfold put_pixel at h
  split at h
  · exact absurd h (by simp)
  · split at h
    · exact absurd h (by simp)
    · split at h
      · split at h
        · exact absurd h (by simp)
        · split at h
          · exact absurd h (by simp)
          · split at h
            · exact absurd h (by simp)
            · simp only [Option.some.injEq] at h
              rw [← h]
      · split at h
        · exact absurd h (by simp)
        · simp only [Option.some.injEq] at h
          rw [← h]

theorem raster_loop_frame (aline : Int) : ∀ (n : Nat) (x : Int) (s s' : _usbtv_t),
    raster_loop aline n x s = some s' → s' = { s with framebuffer := s'.framebuffer } := by
  intro n
  induction n with
  | zero =>
    intro x s s' h
    simp only [raster_loop, Option.some.injEq] at h
    rw [← h]
  | succ n ih =>
    intro x s s' h
    rw [raster_loop] at h
    split at h
    · exact absurd h (by simp)
    · rename_i s1 h1
      have h2 := ih _ _ _ h
      have h3 := put_pixel_frame h1
      rw [h2, h3]

theorem rasterize_frame {s s' : _usbtv_t} (h : rasterize s = some s') :
    s' = { s with framebuffer := s'.framebuffer } := by
  unfold rasterize at h
  split at h
  · exact raster_loop_frame _ _ _ _ _ h
  · simp only [Option.some.injEq] at h
    rw [← h]

theorem line_advance_frame (s : _usbtv_t) :
    (line_advance s).2 = { s with line := (line_advance s).2.line,
                                  frame := (line_advance s).2.frame } := by
  unfold line_advance
  dsimp only
  split
  · rfl
  · split <;> rfl

/-- The per-line processing is the sequence of its blocks. -/
theorem process_line_inv {s : _usbtv_t} {r : Int} {s' : _usbtv_t}
    (h : process_line s = some (r, s')) :
    ∃ mx s1 s3 s4 s5 s6, hsync_scan s = some (mx, s1) ∧
      level_update (hsync_adjust s1 mx) = some s3 ∧ vsync_scan s3 = some s4 ∧
      fsc_update s4 = some s5 ∧ pre_raster s = some s5 ∧ rasterize s5 = some s6 ∧
      line_advance s6 = (r, s') := by
  unfold process_line at h
  split at h
  · exact absurd h (by simp)
  · rename_i s5 h5
    split at h
    · exact absurd h (by simp)
    · rename_i s6 h6
      simp only [Option.some.injEq] at h
      have h5' := h5
      unfold pre_raster at h5
      split at h5
      · exact absurd h5 (by simp)
      · rename_i s4 h4
        unfold pre_fsc at h4
        split at h4
        · exact absurd h4 (by simp)
        · rename_i mx s1 h1
          split at h4
          · exact absurd h4 (by simp)
          · rename_i s3 h3
            exact ⟨mx, s1, s3, s4, s5, s6, h1, h3, h4, h5, h5', h6, h⟩

/-- A completed read is the accumulator followed by the per-line processing. -/
theorem read_inv {s : _usbtv_t} {r : Int} {s' : _usbtv_t}
    (h : _usbtv_read s = some (r, s')) :
    (r = 2 ∧ fill_line (fill_fuel s) s = some (false, s')) ∨
    (∃ s0, fill_line (fill_fuel s) s = some (true, s0) ∧ process_line s0 = some (r, s')) := by
  unfold _usbtv_read at h
  split at h
  · exact absurd h (by simp)
  · rename_i s1 h1
    simp only [Option.some.injEq, Prod.mk.injEq] at h
    left
    rw [← h.2]
    exact ⟨h.1.symm, h1⟩
  · rename_i s1 h1
    right
    exact ⟨s1, h1, h⟩

theorem line_advance_status (s : _usbtv_t) :
    (line_advance s).1 = 0 ∨ (line_advance s).1 = 1 := by
  unfold line_advance
  dsimp only
  split
  · right; rfl
  · split
    · right; rfl
    · left; rfl

theorem process_line_status {s : _usbtv_t} {r : Int} {s' : _usbtv_t}
    (h : process_line s = some (r, s')) : r = 0 ∨ r = 1 := by
  obtain ⟨_, _, _, _, _, s6, _, _, _, _, _, _, h7⟩ := process_line_inv h
  have := line_advance_status s6
  rw [h7] at this
  exact this

theorem process_line_frame {s : _usbtv_t} {r : Int} {s' : _usbtv_t}
    (h : process_line s = some (r, s')) :
    s' = { s with hsync := s'.hsync, hsyncwin := s'.hsyncwin, hsyncwin_x := s'.hsyncwin_x,
                  hsync_offset := s'.hsync_offset, sync_level := s'.sync_level,
                  blank_level := s'.blank_level, black_level := s'.black_level,
                  white_level := s'.white_level, vsync := s'.vsync, line := s'.line,
                  vsync_count := s'.vsync_count, fsc := s'.fsc, fsc_hold := s'.fsc_hold,
                  framebuffer := s'.framebuffer, frame := s'.frame } := by
  obtain ⟨mx, s1, s3, s4, s5, s6, h1, h3, h4, h5, _, h6, h7⟩ := process_line_inv h
  have e7 : s' = (line_advance s6).2 := by rw [h7]
  have f7 := line_advance_frame s6
  rw [← e7] at f7
  have f6 := rasterize_frame h6
  have f5 := fsc_update_frame h5
  have f4 := vsync_scan_frame h4
  have f3 := level_update_frame h3
  have f1 := hsync_scan_frame h1
  rw [f7, f6, f5, f4, f3]
  unfold hsync_adjust
  rw [f1]

/-! ## The blocks of a completed read -/

/-- A read that does not ask for more input runs every block once: `s3` is the state in
which the vsync scan is entered, `s4` the state it leaves, `s5` the state in which the
rasterizer is entered and `s6` the state it leaves. -/
theorem read_stages {s : _usbtv_t} {r : Int} {s' : _usbtv_t}
    (h : _usbtv_read s = some (r, s')) (hr : r ≠ 2) :
    ∃ s0 mx s1 s3 s4 s5 s6, fill_line (fill_fuel s) s = some (true, s0) ∧
      hsync_scan s0 = some (mx, s1) ∧
      level_update (hsync_adjust s1 mx) = some s3 ∧ vsync_scan s3 = some s4 ∧
      fsc_update s4 = some s5 ∧ pre_raster s0 = some s5 ∧ rasterize s5 = some s6 ∧
      line_advance s6 = (r, s') ∧
      s3 = { s with inp := s3.inp, iline := s3.iline, iline_len := s3.iline_len,
                    hsync_offset := s3.hsync_offset, hsync := s3.hsync,
                    hsyncwin := s3.hsyncwin, hsyncwin_x := s3.hsyncwin_x,
                    sync_level := s3.sync_level, blank_level := s3.blank_level,
                    black_level := s3.black_level, white_level := s3.white_level } ∧
      s6 = { s4 with fsc := s6.fsc, fsc_hold := s6.fsc_hold,
                     framebuffer := s6.framebuffer } := by
  rcases read_inv h with ⟨h2, _⟩ | ⟨s0, h0, hp⟩
  · exact absurd h2 hr
  · obtain ⟨mx, s1, s3, s4, s5, s6, h1, h3, h4, h5, h5', h6, h7⟩ := process_line_inv hp
    refine ⟨s0, mx, s1, s3, s4, s5, s6, h0, h1, h3, h4, h5, h5', h6, h7, ?_, ?_⟩
    · have f0 := fill_line_frame _ _ _ _ h0
      have f1 := hsync_scan_frame h1
      have f3 := level_update_frame h3
      rw [f3]
      unfold hsync_adjust
      rw [f1, f0]
    · have f5 := fsc_update_frame h5
      have f6 := rasterize_frame h6
      rw [f6, f5]

/-- The effect of the vsync scan on the register, the line number and the countdown. -/
theorem vsync_scan_spec {s s' : _usbtv_t} (h : vsync_scan s = some s') :
    vsync_reg s = some s'.vsync ∧
    s'.line = (if vsync_match s.colour s'.vsync ≠ 0 then vsync_match s.colour s'.vsync
               else s.line) ∧
    s'.vsync_count =
      (if vsync_match s.colour s'.vsync ≠ 0 then s.lines * 10 else s.vsync_count) +
      (if (if vsync_match s.colour s'.vsync ≠ 0 then s.lines * 10 else s.vsync_count) ≠ 0
       then -1 else 0) := by
  unfold vsync_scan at h
  split at h
  · exact absurd h (by simp)
  · rename_i reg hreg
    simp only [Option.some.injEq] at h
    subst h
    by_cases hm : vsync_match s.colour reg = 0
    · simp [hm, hreg]
    · simp [hm, hreg]

/-- The masked register is a 16-bit value in colour mode and a 10-bit value in mono mode. -/
theorem vsync_reg_range {s : _usbtv_t} {reg : Int} (h : vsync_reg s = some reg) :
    0 ≤ reg ∧ (s.colour ≠ 0 → reg < 65536) ∧ (s.colour = 0 → reg < 1024) := by
  unfold vsync_reg at h
  split at h
  · exact absurd h (by simp)
  · dsimp only at h
    split at h
    · rename_i hc
      split at h
      · exact absurd h (by simp)
      · simp only [Option.some.injEq] at h
        rw [← h]
        exact ⟨by omega, fun _ => by omega, fun h0 => absurd h0 hc⟩
    · rename_i hc
      simp only [Option.some.injEq] at h
      rw [← h]
      exact ⟨by omega, fun h0 => absurd h0 hc, fun _ => by omega⟩

/-! ## Reference levels -/

theorem tdiv_pos_cases (a b : Int) (hb : 0 < b) :
    a.tdiv b = if 0 ≤ a then a / b else -((-a) / b) := by
  split
  · rename_i h
    exact Int.tdiv_eq_ediv h (le_of_lt hb)
  · rename_i h
    have h1 : a = -(-a) := by omega
    rw [h1, Int.neg_tdiv, Int.tdiv_eq_ediv (by omega) (le_of_lt hb)]
    simp

theorem add_level_white (x : Int) : add_level x 1 1 = x + 32767 := by
  unfold add_level INT16_MAX
  simp

theorem add_level_blank (x : Int) :
    add_level x 3 10 = if -9830 ≤ x then x + 9830 else x + 9831 := by
  unfold add_level INT16_MAX
  rw [tdiv_pos_cases _ _ (by norm_num)]
  split_ifs <;> omega

theorem add_level_black (x : Int) :
    add_level x 3525 10000 = if -11550 ≤ x then x + 11550 else x + 11551 := by
  unfold add_level INT16_MAX
  rw [tdiv_pos_cases _ _ (by norm_num)]
  split_ifs <;> omega

/-- After the level update the white level lies above the black level. -/
theorem level_update_levels {s s' : _usbtv_t} (h : level_update s = some s') :
    21216 ≤ s'.white_level - s'.black_level ∧ s'.white_level - s'.black_level ≤ 22937 := by
  unfold level_update at h
  split at h
  · exact absurd h (by simp)
  · simp only [Option.some.injEq] at h
    rw [← h]
    dsimp only
    rw [add_level_white, add_level_blank, add_level_black]
    split_ifs <;> omega

/-! ## Pixels -/

theorem testBit_255 (i : Nat) : Nat.testBit 255 i = decide (i < 8) := by
  have h : (255 : Nat) = 2 ^ 8 - 1 := by norm_num
  rw [h, Nat.testBit_two_pow_sub_one]

theorem testBit_mask32 (i : Nat) : Nat.testBit 0xFFFFFFFF i = decide (i < 32) := by
  have h : (0xFFFFFFFF : Nat) = 2 ^ 32 - 1 := by norm_num
  rw [h, Nat.testBit_two_pow_sub_one]

theorem testBit_lt_256 (v i : Nat) (hv : v < 256) (hi : 8 ≤ i) : Nat.testBit v i = false := by
  apply Nat.testBit_lt_two_pow
  calc v < 2 ^ 8 := by omega
    _ ≤ 2 ^ i := Nat.pow_le_pow_right (by norm_num) hi

/-- Bit `i` of the pixel after `c &= ~(0xFF << sh); c |= v << sh;`. -/
theorem testBit_colour (c v sh i : Nat) (hv : v < 256) :
    Nat.testBit (((c &&& (0xFFFFFFFF ^^^ (0xFF <<< sh))) ||| (v <<< sh)) % 2 ^ 32) i =
      (decide (i < 32) &&
        (if sh ≤ i ∧ i < sh + 8 then Nat.testBit v (i - sh) else Nat.testBit c i)) := by
  rw [Nat.testBit_mod_two_pow, Nat.testBit_lor, Nat.testBit_land, Nat.testBit_xor,
    Nat.testBit_shiftLeft, Nat.testBit_shiftLeft, testBit_255, testBit_mask32]
  by_cases h32 : i < 32
  · by_cases h1 : sh ≤ i
    · by_cases h2 : i < sh + 8
      · have h3 : i - sh < 8 := by omega
        simp [h32, h1, h2, h3]
      · have h3 : ¬ i - sh < 8 := by omega
        have h4 : Nat.testBit v (i - sh) = false := testBit_lt_256 v _ hv (by omega)
        simp [h32, h1, h2, h3, h4]
    · simp [h32, h1]
  · simp [h32]

theorem testBit_byte (c j i : Nat) :
    Nat.testBit (byte c j) i = (decide (i < 8) && Nat.testBit c (8 * j + i)) := by
  unfold byte
  have h : (256 : Nat) = 2 ^ 8 := by norm_num
  rw [h, Nat.testBit_mod_two_pow, Nat.testBit_shiftRight]

theorem byte_lt (c j : Nat) : byte c j < 256 := by
  unfold byte
  omega

theorem intensity_range {sample black white v : Int}
    (h : intensity sample black white = some v) : 0 ≤ v ∧ v ≤ 255 := by
  unfold intensity at h
  split at h
  · exact absurd h (by simp)
  · simp only [Option.some.injEq] at h
    rw [← h]
    split_ifs <;> omega

/-- The colour pixel update replaces byte `fsc` by `v` and keeps the other three bytes. -/
theorem colour_pixel_bytes {c c1 : Nat} {fsc v : Int} (hv0 : 0 ≤ v) (hv1 : v ≤ 255)
    (h : colour_pixel c fsc v = some c1) :
    0 ≤ fsc ∧ fsc ≤ 2 ∧ c1 < 2 ^ 32 ∧ (byte c1 fsc.toNat : Int) = v ∧
    ∀ j : Nat, j < 4 → (j : Int) ≠ fsc → byte c1 j = byte c j := by
  unfold colour_pixel at h
  split at h
  · rename_i hf
    simp only [Option.some.injEq] at h
    have hvn : v.toNat < 256 := by omega
    refine ⟨hf.1, hf.2, ?_, ?_, ?_⟩
    · rw [← h]
      exact Nat.mod_lt _ (by norm_num)
    · have hb : byte c1 fsc.toNat = v.toNat := by
        apply Nat.eq_of_testBit_eq
        intro i
        rw [testBit_byte, ← h, testBit_colour _ _ _ _ hvn]
        have e : (fsc * 8).toNat = 8 * fsc.toNat := by omega
        rw [e]
        by_cases hi : i < 8
        · have h1 : 8 * fsc.toNat + i < 32 := by omega
          have h2 : 8 * fsc.toNat ≤ 8 * fsc.toNat + i ∧
              8 * fsc.toNat + i < 8 * fsc.toNat + 8 := by omega
          have h3 : 8 * fsc.toNat + i - 8 * fsc.toNat = i := by omega
          simp [hi, h1, h2, h3]
        · have h4 : Nat.testBit v.toNat i = false := testBit_lt_256 _ _ hvn (by omega)
          simp [hi, h4]
      rw [hb]
      omega
    · intro j hj hne
      apply Nat.eq_of_testBit_eq
      intro i
      rw [testBit_byte, testBit_byte, ← h, testBit_colour _ _ _ _ hvn]
      have e : (fsc * 8).toNat = 8 * fsc.toNat := by omega
      rw [e]
      by_cases hi : i < 8
      · have h1 : 8 * j + i < 32 := by omega
        have h2 : ¬ (8 * fsc.toNat ≤ 8 * j + i ∧ 8 * j + i < 8 * fsc.toNat + 8) := by omega
        simp [hi, h1, h2]
      · simp [hi]
  · exact absurd h (by simp)

theorem mono_pixel_fin : ∀ v : Fin 256,
    (v.val <<< 16 ||| v.val <<< 8 ||| v.val) % 2 ^ 32 = 0x010101 * v.val ∧
    byte (0x010101 * v.val) 0 = v.val ∧ byte (0x010101 * v.val) 1 = v.val ∧
    byte (0x010101 * v.val) 2 = v.val ∧ byte (0x010101 * v.val) 3 = 0 := by
  decide

/-- The mono pixel is `0x010101 * v`: red, green and blue are `v` and alpha is zero. -/
theorem mono_pixel_bytes {v : Int} (hv0 : 0 ≤ v) (hv1 : v ≤ 255) :
    mono_pixel v = 0x010101 * v.toNat ∧
    (byte (mono_pixel v) 0 : Int) = v ∧ (byte (mono_pixel v) 1 : Int) = v ∧
    (byte (mono_pixel v) 2 : Int) = v ∧ byte (mono_pixel v) 3 = 0 := by
  have hvn : v.toNat < 256 := by omega
  obtain ⟨h0, h1, h2, h3, h4⟩ := mono_pixel_fin ⟨v.toNat, hvn⟩
  simp only at h0 h1 h2 h3 h4
  have e : mono_pixel v = 0x010101 * v.toNat := h0
  rw [e, h1, h2, h3, h4]
  refine ⟨rfl, ?_, ?_, ?_, rfl⟩ <;> omega

/-! ## The rasterizer loop -/

/-- One iteration of the rasterizer loop: the stored pixel. -/
theorem put_pixel_spec {s s' : _usbtv_t} {aline x : Int}
    (h : put_pixel s aline x = some s') :
    ∃ sample v c px, rd s.iline (s.active_left + x) = some sample ∧
      intensity sample s.black_level s.white_level = some v ∧
      rd s.framebuffer (aline * s.active_width + x) = some c ∧
      (if s.colour ≠ 0 then colour_pixel c s.fsc v else some (mono_pixel v)) = some px ∧
      wr s.framebuffer (aline * s.active_width + x) px = some s'.framebuffer := by
  unfold put_pixel at h
  split at h
  · exact absurd h (by simp)
  · rename_i sample hsample
    split at h
    · exact absurd h (by simp)
    · rename_i v hv
      split at h
      · rename_i hc
        split at h
        · exact absurd h (by simp)
        · rename_i c hc1
          split at h
          · exact absurd h (by simp)
          · rename_i c1 hc2
            split at h
            · exact absurd h (by simp)
            · rename_i fb hfb
              simp only [Option.some.injEq] at h
              refine ⟨sample, v, c, c1, hsample, hv, hc1, ?_, ?_⟩
              · rw [if_pos hc]
                exact hc2
              · rw [← h]
                exact hfb
      · rename_i hc
        split at h
        · exact absurd h (by simp)
        · rename_i fb hfb
          simp only [Option.some.injEq] at h
          obtain ⟨i0, i1, _⟩ := wr_eq_some hfb
          obtain ⟨c, hc1⟩ := rd_of_lt s.framebuffer _ i0 (by omega)
          refine ⟨sample, v, c, mono_pixel v, hsample, hv, hc1, ?_, ?_⟩
          · rw [if_neg hc]
          · rw [← h]
            exact hfb

/-- The rasterizer loop from column `x` for `n` columns: the framebuffer keeps its length,
the pixels outside columns `x .. x + n - 1` of row `aline` are unchanged, and the pixel of
each of those columns is built from its old value and the column's intensity. -/
theorem raster_loop_spec (aline : Int) : ∀ (n : Nat) (x : Int) (s s' : _usbtv_t),
    raster_loop aline n x s = some s' →
    s'.framebuffer.length = s.framebuffer.length ∧
    (∀ i : Int, i < aline * s.active_width + x ∨ aline * s.active_width + x + n ≤ i →
      rd s'.framebuffer i = rd s.framebuffer i) ∧
    (∀ j : Int, x ≤ j → j < x + n →
      ∃ sample v c px, rd s.iline (s.active_left + j) = some sample ∧
        intensity sample s.black_level s.white_level = some v ∧
        rd s.framebuffer (aline * s.active_width + j) = some c ∧
        (if s.colour ≠ 0 then colour_pixel c s.fsc v else some (mono_pixel v)) = some px ∧
        rd s'.framebuffer (aline * s.active_width + j) = some px) := by
  intro n
  induction n with
  | zero =>
    intro x s s' h
    simp only [raster_loop, Option.some.injEq] at h
    rw [← h]
    refine ⟨rfl, fun _ _ => rfl, ?_⟩
    intro j h1 h2
    simp at h2
    omega
  | succ n ih =>
    intro x s s' h
    rw [raster_loop] at h
    split at h
    · exact absurd h (by simp)
    · rename_i s1 h1
      obtain ⟨sample, v, c, px, p1, p2, p3, p4, p5⟩ := put_pixel_spec h1
      have f1 := put_pixel_frame h1
      have e_il : s1.iline = s.iline := by
        have t := congrArg _usbtv_t.iline f1
        exact t
      have e_al : s1.active_left = s.active_left := by
        have t := congrArg _usbtv_t.active_left f1
        exact t
      have e_aw : s1.active_width = s.active_width := by
        have t := congrArg _usbtv_t.active_width f1
        exact t
      have e_bl : s1.black_level = s.black_level := by
        have t := congrArg _usbtv_t.black_level f1
        exact t
      have e_wl : s1.white_level = s.white_level := by
        have t := congrArg _usbtv_t.white_level f1
        exact t
      have e_c : s1.colour = s.colour := by
        have t := congrArg _usbtv_t.colour f1
        exact t
      have e_f : s1.fsc = s.fsc := by
        have t := congrArg _usbtv_t.fsc f1
        exact t
      obtain ⟨q1, q2, q3⟩ := ih (x + 1) s1 s' h
      rw [e_il, e_al, e_aw, e_bl, e_wl, e_c, e_f] at q3
      rw [e_aw] at q2
      refine ⟨by rw [q1]; exact wr_length p5, ?_, ?_⟩
      · intro i hi
        rw [q2 i (by push_cast at hi; omega)]
        exact rd_wr_other p5 (by push_cast at hi; omega)
      · intro j hj1 hj2
        by_cases hjx : j = x
        · subst hjx
          refine ⟨sample, v, c, px, p1, p2, p3, p4, ?_⟩
          rw [q2 _ (by omega)]
          exact rd_wr_same p5
        · obtain ⟨sample', v', c', px', r1, r2, r3, r4, r5⟩ :=
            q3 j (by omega) (by push_cast at hj2; omega)
          refine ⟨sample', v', c', px', r1, r2, ?_, r4, r5⟩
          rw [← r3]
          exact (rd_wr_other p5 (by omega)).symm

/-! ## The rasterizer inside a read -/

/-- Off the lines 1, 264, 18 and 281 the FSC block changes nothing. -/
theorem fsc_update_idle {s s' : _usbtv_t} (h : fsc_update s = some s')
    (h1 : s.line ≠ 1) (h2 : s.line ≠ 264) (h3 : s.line ≠ 18) (h4 : s.line ≠ 281) :
    s' = s := by
  unfold fsc_update at h
  have ha : fsc_advance s = s := by
    unfold fsc_advance
    rw [if_neg (by omega)]
  have hb : fsc_burst s = some false := by
    unfold fsc_burst
    rw [if_neg (by omega)]
  rw [ha, hb] at h
  split at h
  · simp only [Option.some.injEq] at h
    rw [← h]
    simp
  · simp only [Option.some.injEq] at h
    exact h.symm

/-- The lines that the colour rasterizer writes are not the lines of the FSC block. -/
theorem aline_of_colour_range {c l : Int} (hc : c ≠ 0)
    (h : 0 ≤ aline_of c l ∧ aline_of c l < 480) :
    (23 ≤ l ∧ l ≤ 262) ∨ (286 ≤ l ∧ l ≤ 525) := by
  unfold aline_of at h
  rw [if_pos hc] at h
  split at h <;> omega

/-- A read whose accumulator completes the line, split at the rasterizer: `s4` enters the
FSC block, `s5` enters the rasterizer, `s6` leaves it, and the read leaves the framebuffer of
`s6`. -/
theorem read_raster {s s0 s5 s' : _usbtv_t} {r : Int}
    (hfill : fill_line (fill_fuel s) s = some (true, s0)) (hpre : pre_raster s0 = some s5)
    (hread : _usbtv_read s = some (r, s')) :
    ∃ s4 s6, fsc_update s4 = some s5 ∧ rasterize s5 = some s6 ∧ line_advance s6 = (r, s') ∧
      s'.framebuffer = s6.framebuffer ∧
      s5 = { s with inp := s5.inp, iline := s5.iline, iline_len := s5.iline_len,
                    hsync_offset := s5.hsync_offset, hsync := s5.hsync,
                    hsyncwin := s5.hsyncwin, hsyncwin_x := s5.hsyncwin_x,
                    sync_level := s5.sync_level, blank_level := s5.blank_level,
                    black_level := s5.black_level, white_level := s5.white_level,
                    vsync := s5.vsync, line := s5.line, vsync_count := s5.vsync_count,
                    fsc := s5.fsc, fsc_hold := s5.fsc_hold } ∧
      s4.fsc = s.fsc ∧ s4.line = s5.line ∧ s5.iline = s0.iline ∧
      21216 ≤ s5.white_level - s5.black_level ∧ s5.white_level - s5.black_level ≤ 22937 := by
  have hp : process_line s0 = some (r, s') := by
    unfold _usbtv_read at hread
    rw [hfill] at hread
    exact hread
  obtain ⟨mx, s1, s3, s4, s5', s6, h1, h3, h4, h5, h5', h6, h7⟩ := process_line_inv hp
  rw [hpre] at h5'
  simp only [Option.some.injEq] at h5'
  subst h5'
  have e8 : s' = (line_advance s6).2 := by rw [h7]
  have e9 : s'.framebuffer = s6.framebuffer := by
    have t := congrArg _usbtv_t.framebuffer (line_advance_frame s6)
    rw [← e8] at t
    exact t
  have f0 := fill_line_frame _ _ _ _ hfill
  have f1 := hsync_scan_frame h1
  have f3 := level_update_frame h3
  have f4 := vsync_scan_frame h4
  have f5 := fsc_update_frame h5
  obtain ⟨l1, l2⟩ := level_update_levels h3
  have w4 : s4.white_level = s3.white_level := by
    have t := congrArg _usbtv_t.white_level f4
    exact t
  have b4 : s4.black_level = s3.black_level := by
    have t := congrArg _usbtv_t.black_level f4
    exact t
  have w5 : s5.white_level = s4.white_level := by
    have t := congrArg _usbtv_t.white_level f5
    exact t
  have b5 : s5.black_level = s4.black_level := by
    have t := congrArg _usbtv_t.black_level f5
    exact t
  refine ⟨s4, s6, h5, h6, h7, e9, ?_, ?_, ?_, ?_, ?_, ?_⟩
  · rw [f5, f4, f3]
    unfold hsync_adjust
    rw [f1, f0]
  · have t4 := congrArg _usbtv_t.fsc f4
    have t3 := congrArg _usbtv_t.fsc f3
    have t1 := congrArg _usbtv_t.fsc f1
    have t0 := congrArg _usbtv_t.fsc f0
    exact t4.trans (t3.trans (t1.trans t0))
  · have t := congrArg _usbtv_t.line f5
    exact t.symm
  · have t5 := congrArg _usbtv_t.iline f5
    have t4 := congrArg _usbtv_t.iline f4
    have t3 := congrArg _usbtv_t.iline f3
    have t1 := congrArg _usbtv_t.iline f1
    exact t5.trans (t4.trans (t3.trans t1))
  · rw [w5, b5, w4, b4]
    exact l1
  · rw [w5, b5, w4, b4]
    exact l2

/-! ## Reads seen from the caller -/

/-- A read that returns `2` is the accumulator alone. -/
theorem read_two {s s' : _usbtv_t} (h : _usbtv_read s = some (2, s')) :
    fill_line (fill_fuel s) s = some (false, s') := by
  rcases read_inv h with ⟨_, h2⟩ | ⟨s0, _, hp⟩
  · exact h2
  · have := process_line_status hp
    omega

/-- While the caller is idle only the input, the line buffer, `iline_len` and
`hsync_offset` change. -/
theorem idle_frame {s t : _usbtv_t} (h : Idle s t) :
    t = { s with inp := t.inp, iline := t.iline, iline_len := t.iline_len,
                 hsync_offset := t.hsync_offset } := by
  induction h with
  | done s => rfl
  | write s t buf _ ih =>
    rw [ih]
    rfl
  | more s s1 t hr _ ih =>
    have f := fill_line_frame _ _ _ _ (read_two hr)
    rw [ih, f]

/-- The blocks of a completed read, with the state `s4` in which the FSC block is entered. -/
theorem read_fsc_stage {s : _usbtv_t} {r : Int} {s' : _usbtv_t}
    (h : _usbtv_read s = some (r, s')) (hr : r ≠ 2) :
    ∃ s0 s4 s5 s6, fill_line (fill_fuel s) s = some (true, s0) ∧ pre_fsc s0 = some s4 ∧
      fsc_update s4 = some s5 ∧ rasterize s5 = some s6 ∧ line_advance s6 = (r, s') ∧
      s4 = { s with inp := s4.inp, iline := s4.iline, iline_len := s4.iline_len,
                    hsync_offset := s4.hsync_offset, hsync := s4.hsync,
                    hsyncwin := s4.hsyncwin, hsyncwin_x := s4.hsyncwin_x,
                    sync_level := s4.sync_level, blank_level := s4.blank_level,
                    black_level := s4.black_level, white_level := s4.white_level,
                    vsync := s4.vsync, line := s4.line, vsync_count := s4.vsync_count } ∧
      s4.line = (if vsync_match s.colour s4.vsync ≠ 0 then vsync_match s.colour s4.vsync
                 else s.line) ∧
      s' = { s4 with fsc := s5.fsc, fsc_hold := s5.fsc_hold, framebuffer := s'.framebuffer,
                     line := s'.line, frame := s'.frame } ∧
      s6 = { s4 with fsc := s5.fsc, fsc_hold := s5.fsc_hold, framebuffer := s6.framebuffer } := by
  obtain ⟨s0, mx, s1, s3, s4, s5, s6, h0, h1, h3, h4, h5, _, h6, h7, f3, f6⟩ :=
    read_stages h hr
  have hpre : pre_fsc s0 = some s4 := by
    unfold pre_fsc
    rw [h1]
    simp only [h3, h4]
  have f4 := vsync_scan_frame h4
  have f5 := fsc_update_frame h5
  have f6' := rasterize_frame h6
  have e8 : s' = (line_advance s6).2 := by rw [h7]
  have f7 := line_advance_frame s6
  rw [← e8] at f7
  obtain ⟨_, g2, _⟩ := vsync_scan_spec h4
  have e1 : s3.line = s.line := by
    have t := congrArg _usbtv_t.line f3
    exact t
  have e2 : s3.colour = s.colour := by
    have t := congrArg _usbtv_t.colour f3
    exact t
  rw [e1, e2] at g2
  refine ⟨s0, s4, s5, s6, h0, hpre, h5, h6, h7, ?_, g2, ?_, ?_⟩
  · rw [f4, f3]
  · rw [f7, f6', f5]
  · rw [f6', f5]

theorem line_advance_spec (s : _usbtv_t) :
    (line_advance s).2.line = (if s.line + 1 > s.lines then 1 else s.line + 1) ∧
    (line_advance s).2.frame = (if s.line + 1 > s.lines then s.frame + 1 else s.frame) ∧
    (line_advance s).1 = (if s.line + 1 > s.lines then 1
                          else if s.colour ≠ 0 ∧ s.line + 1 = 264 then 1 else 0) := by
  unfold line_advance
  dsimp only
  split
  · exact ⟨rfl, rfl, rfl⟩
  · split <;> exact ⟨rfl, rfl, rfl⟩

/-- The line counter, frame counter and status of a completed read without vsync match. -/
theorem read_advance {s : _usbtv_t} {r : Int} {s' : _usbtv_t}
    (h : _usbtv_read s = some (r, s')) (hr : r ≠ 2)
    (hm : vsync_match s.colour s'.vsync = 0) :
    s'.line = (if s.line + 1 > s.lines then 1 else s.line + 1) ∧
    s'.frame = (if s.line + 1 > s.lines then s.frame + 1 else s.frame) ∧
    r = (if s.line + 1 > s.lines then 1
         else if s.colour ≠ 0 ∧ s.line + 1 = 264 then 1 else 0) ∧
    s'.lines = s.lines ∧ s'.colour = s.colour ∧ fsc_line s = s.line := by
  obtain ⟨s0, s4, s5, s6, h0, hpre, h5, h6, h7, f4, g2, f7, f6⟩ := read_fsc_stage h hr
  have ev : s'.vsync = s4.vsync := by
    have t := congrArg _usbtv_t.vsync f7
    exact t
  rw [← ev, hm] at g2
  simp only [ne_eq, not_true_eq_false, if_false] at g2
  have el : s6.line = s.line := by
    have t := congrArg _usbtv_t.line f6
    exact t.trans g2
  have els : s6.lines = s.lines := by
    have t6 := congrArg _usbtv_t.lines f6
    have t4 := congrArg _usbtv_t.lines f4
    exact t6.trans t4
  have ec : s6.colour = s.colour := by
    have t6 := congrArg _usbtv_t.colour f6
    have t4 := congrArg _usbtv_t.colour f4
    exact t6.trans t4
  have ef : s6.frame = s.frame := by
    have t6 := congrArg _usbtv_t.frame f6
    have t4 := congrArg _usbtv_t.frame f4
    exact t6.trans t4
  have hfl : fsc_line s = s.line := by
    unfold fsc_line
    rw [h0]
    simp only [hpre]
    exact g2
  obtain ⟨a1, a2, a3⟩ := line_advance_spec s6
  rw [h7] at a1 a2 a3
  dsimp only at a1 a2 a3
  rw [el, els] at a1 a2 a3
  rw [ef] at a2
  rw [ec] at a3
  have els' : s'.lines = s.lines := by
    have t := congrArg _usbtv_t.lines f7
    have t4 := congrArg _usbtv_t.lines f4
    exact t.trans t4
  have ec' : s'.colour = s.colour := by
    have t := congrArg _usbtv_t.colour f7
    have t4 := congrArg _usbtv_t.colour f4
    exact t.trans t4
  exact ⟨a1, a2, a3, els', ec', hfl⟩

/-- The FSC block of a completed colour read, in terms of the line number with which it is
executed: a field start advances `fsc` and clears the hold when `fsc` becomes 1; a reset
happens only on lines 18 and 281 with the hold clear and leaves `fsc = 1` with the hold set;
otherwise `fsc` and the hold are unchanged. -/
theorem read_fsc {s : _usbtv_t} {r : Int} {s' : _usbtv_t}
    (h : _usbtv_read s = some (r, s')) (hr : r ≠ 2) (hc : s.colour ≠ 0) :
    s'.colour = s.colour ∧
    ((fsc_line s = 1 ∨ fsc_line s = 264) →
      s'.fsc = (s.fsc + 1).tmod 3 ∧
      s'.fsc_hold = (if (s.fsc + 1).tmod 3 = 1 then 0 else s.fsc_hold) ∧
      fsc_reset s = false) ∧
    (¬ (fsc_line s = 1 ∨ fsc_line s = 264) →
      (fsc_reset s = true →
        s.fsc_hold = 0 ∧ (fsc_line s = 18 ∨ fsc_line s = 281) ∧ s'.fsc = 1 ∧ s'.fsc_hold = 1) ∧
      (fsc_reset s = false → s'.fsc = s.fsc ∧ s'.fsc_hold = s.fsc_hold)) := by
  obtain ⟨s0, s4, s5, s6, h0, hpre, h5, h6, h7, f4, _, f7, _⟩ := read_fsc_stage h hr
  have c4 : s4.colour = s.colour := by
    have t := congrArg _usbtv_t.colour f4
    exact t
  have k4 : s4.fsc = s.fsc := by
    have t := congrArg _usbtv_t.fsc f4
    exact t
  have d4 : s4.fsc_hold = s.fsc_hold := by
    have t := congrArg _usbtv_t.fsc_hold f4
    exact t
  have k7 : s'.fsc = s5.fsc := by
    have t := congrArg _usbtv_t.fsc f7
    exact t
  have d7 : s'.fsc_hold = s5.fsc_hold := by
    have t := congrArg _usbtv_t.fsc_hold f7
    exact t
  have c7 : s'.colour = s.colour := by
    have t := congrArg _usbtv_t.colour f7
    exact t.trans c4
  have hfl : fsc_line s = s4.line := by
    unfold fsc_line
    rw [h0]
    simp only [hpre]
  have hfr : fsc_reset s = (fsc_burst (fsc_advance s4) == some true) := by
    unfold fsc_reset
    rw [h0]
    simp only [hpre]
    rw [c4]
    simp [hc]
  rw [hfl, hfr, k7, d7, ← k4, ← d4]
  unfold fsc_update at h5
  rw [if_pos (by rw [c4]; exact hc)] at h5
  refine ⟨c7, ?_, ?_⟩
  · intro hl
    have ha : fsc_advance s4 = { s4 with
        fsc := (s4.fsc + 1).tmod 3
        fsc_hold := if (s4.fsc + 1).tmod 3 = 1 then 0 else s4.fsc_hold } := by
      unfold fsc_advance
      rw [if_pos hl]
    have hb : fsc_burst (fsc_advance s4) = some false := by
      unfold fsc_burst
      rw [ha]
      dsimp only
      rw [if_neg (by omega)]
    rw [hb] at h5
    simp only [Bool.false_eq_true, if_false, Option.some.injEq] at h5
    rw [hb, ← h5, ha]
    exact ⟨rfl, rfl, rfl⟩
  · intro hl
    have ha : fsc_advance s4 = s4 := by
      unfold fsc_advance
      rw [if_neg hl]
    rw [ha] at h5 ⊢
    split at h5
    · exact absurd h5 (by simp)
    · rename_i b hb
      simp only [Option.some.injEq] at h5
      rw [hb]
      constructor
      · intro hbt
        have hbt' : b = true := by simpa using hbt
        subst hbt'
        simp only [if_true] at h5
        have hg : s4.fsc_hold = 0 ∧ (s4.line = 18 ∨ s4.line = 281) := by
          unfold fsc_burst at hb
          by_contra hcon
          rw [if_neg hcon] at hb
          simp at hb
        rw [← h5]
        exact ⟨hg.1, hg.2, rfl, rfl⟩
      · intro hbf
        have hbf' : b = false := by simpa using hbf
        subst hbf'
        simp only [Bool.false_eq_true, if_false] at h5
        rw [← h5]
        exact ⟨rfl, rfl⟩

/-- Between two completed lines of a run the counters, the mode and the colour phase are
kept. -/
theorem run_link {n : Nat} {t u : Nat → _usbtv_t} {r : Nat → Int}
    (hrun : CompletedLines n t u r) {i : Nat} (hi : i + 1 < n) :
    (t (i + 1)).line = (u i).line ∧ (t (i + 1)).frame = (u i).frame ∧
    (t (i + 1)).lines = (u i).lines ∧ (t (i + 1)).colour = (u i).colour ∧
    (t (i + 1)).fsc = (u i).fsc ∧ (t (i + 1)).fsc_hold = (u i).fsc_hold := by
  have f := idle_frame (hrun.2 i hi)
  refine ⟨?_, ?_, ?_, ?_, ?_, ?_⟩
  · have e := congrArg _usbtv_t.line f
    exact e
  · have e := congrArg _usbtv_t.frame f
    exact e
  · have e := congrArg _usbtv_t.lines f
    exact e
  · have e := congrArg _usbtv_t.colour f
    exact e
  · have e := congrArg _usbtv_t.fsc f
    exact e
  · have e := congrArg _usbtv_t.fsc_hold f
    exact e

theorem vsync_match_zero {c v : Int}
    (h : (c ≠ 0 → v ≠ 252 ∧ v ≠ 126) ∧ (c = 0 → v ≠ 510)) : vsync_match c v = 0 := by
  unfold vsync_match
  by_cases hc : c ≠ 0
  · obtain ⟨h1, h2⟩ := h.1 hc
    rw [if_pos hc, if_neg h1, if_neg h2]
  · have hc0 : c = 0 := by simpa using hc
    rw [if_neg hc, if_neg (h.2 hc0)]

/-- A completed read keeps the mode. -/
theorem read_colour {s : _usbtv_t} {r : Int} {s' : _usbtv_t}
    (h : _usbtv_read s = some (r, s')) (hr : r ≠ 2) : s'.colour = s.colour := by
  obtain ⟨s0, s4, s5, s6, _, _, _, _, _, f4, _, f7, _⟩ := read_fsc_stage h hr
  have t7 := congrArg _usbtv_t.colour f7
  have t4 := congrArg _usbtv_t.colour f4
  exact t7.trans t4

/-- The mode is the same on every line of a run. -/
theorem run_colour {n : Nat} {t u : Nat → _usbtv_t} {r : Nat → Int}
    (hrun : CompletedLines n t u r) : ∀ i, i < n → (t i).colour = (t 0).colour := by
  intro i
  induction i with
  | zero => intro _; rfl
  | succ k ih =>
    intro hk
    obtain ⟨hrd, hr2⟩ := hrun.1 k (by omega)
    obtain ⟨_, _, _, l4, _, _⟩ := run_link hrun hk
    rw [l4, read_colour hrd hr2]
    exact ih (by omega)

/-- While the hold is set and no field starts, the colour phase and the hold are kept and
no reset happens. -/
theorem run_hold_segment {n : Nat} {t u : Nat → _usbtv_t} {r : Nat → Int}
    (hrun : CompletedLines n t u r) (hcol : (t 0).colour ≠ 0) (a : Nat) :
    ∀ d : Nat, a + d < n →
      (∀ k, a < k → k ≤ a + d → ¬ (fsc_line (t k) = 1 ∨ fsc_line (t k) = 264)) →
      (u a).fsc_hold ≠ 0 →
      (u (a + d)).fsc = (u a).fsc ∧ (u (a + d)).fsc_hold = (u a).fsc_hold ∧
      ∀ k, a < k → k ≤ a + d → fsc_reset (t k) = false := by
  intro d
  induction d with
  | zero =>
    intro _ _ _
    refine ⟨rfl, rfl, ?_⟩
    intro k h1 h2
    omega
  | succ e ih =>
    intro hlt hfs hh
    obtain ⟨i1, i2, i3⟩ := ih (by omega) (fun k h1 h2 => hfs k h1 (by omega)) hh
    have hk : a + e + 1 < n := by omega
    obtain ⟨hrd, hr2⟩ := hrun.1 (a + e + 1) hk
    obtain ⟨_, _, _, _, l5, l6⟩ := run_link hrun hk
    have hc : (t (a + e + 1)).colour ≠ 0 := by
      rw [run_colour hrun _ hk]
      exact hcol
    obtain ⟨_, _, g3⟩ := read_fsc hrd hr2 hc
    obtain ⟨g4, g5⟩ := g3 (hfs (a + e + 1) (by omega) (by omega))
    have hno : fsc_reset (t (a + e + 1)) = false := by
      cases hres : fsc_reset (t (a + e + 1)) with
      | false => rfl
      | true =>
        have h0 := (g4 hres).1
        rw [l6, i2] at h0
        exact absurd h0 hh
    obtain ⟨g6, g7⟩ := g5 hno
    refine ⟨?_, ?_, ?_⟩
    · show (u (a + e + 1)).fsc = (u a).fsc
      rw [g6, l5, i1]
    · show (u (a + e + 1)).fsc_hold = (u a).fsc_hold
      rw [g7, l6, i2]
    · intro k h1 h2
      by_cases hke : k ≤ a + e
      · exact i3 k h1 hke
      · have : k = a + e + 1 := by omega
        rw [this]
        exact hno

/-- A field start of a run: the colour phase advances, and the hold is cleared exactly when
the phase becomes 1. -/
theorem run_field_start {n : Nat} {t u : Nat → _usbtv_t} {r : Nat → Int}
    (hrun : CompletedLines n t u r) (hcol : (t 0).colour ≠ 0) {k : Nat} (hk : k + 1 < n)
    (hfs : fsc_line (t (k + 1)) = 1 ∨ fsc_line (t (k + 1)) = 264) :
    (u (k + 1)).fsc = ((u k).fsc + 1).tmod 3 ∧
    (u (k + 1)).fsc_hold = (if ((u k).fsc + 1).tmod 3 = 1 then 0 else (u k).fsc_hold) := by
  obtain ⟨hrd, hr2⟩ := hrun.1 (k + 1) hk
  obtain ⟨_, _, _, _, l5, l6⟩ := run_link hrun hk
  have hc : (t (k + 1)).colour ≠ 0 := by
    rw [run_colour hrun _ hk]
    exact hcol
  obtain ⟨_, g2, _⟩ := read_fsc hrd hr2 hc
  obtain ⟨g3, g4, _⟩ := g2 hfs
  rw [l5] at g3 g4
  rw [l6] at g4
  exact ⟨g3, g4⟩

/-- A reset of a run happens on line 18 or 281 and leaves `fsc = 1` with the hold set. -/
theorem run_reset {n : Nat} {t u : Nat → _usbtv_t} {r : Nat → Int}
    (hrun : CompletedLines n t u r) (hcol : (t 0).colour ≠ 0) {i : Nat} (hi : i < n)
    (hres : fsc_reset (t i) = true) :
    (fsc_line (t i) = 18 ∨ fsc_line (t i) = 281) ∧ (t i).fsc_hold = 0 ∧
    (u i).fsc = 1 ∧ (u i).fsc_hold = 1 := by
  obtain ⟨hrd, hr2⟩ := hrun.1 i hi
  have hc : (t i).colour ≠ 0 := by
    rw [run_colour hrun _ hi]
    exact hcol
  obtain ⟨_, g2, g3⟩ := read_fsc hrd hr2 hc
  by_cases hfs : fsc_line (t i) = 1 ∨ fsc_line (t i) = 264
  · have := (g2 hfs).2.2
    rw [hres] at this
    exact absurd this (by simp)
  · obtain ⟨h1, h2, h3, h4⟩ := (g3 hfs).1 hres
    exact ⟨h2, h1, h3, h4⟩

/-! ## The caller that feeds one buffer per line -/

theorem feed_t_succ (s : _usbtv_t) (buf : List Int) : ∀ i : Nat,
    feed_t s buf (i + 1) = feed_t (after_read (_usbtv_write s buf)) buf i := by
  intro i
  induction i with
  | zero => rfl
  | succ k ih =>
    show _usbtv_write (after_read (feed_t s buf (k + 1))) buf = _
    rw [ih]
    rfl

/-- A successful check yields a run of completed lines with the line numbers checked. -/
theorem feed_check_run (buf : List Int) : ∀ (ls : List Int) (s : _usbtv_t),
    feed_check buf ls s = true →
    CompletedLines ls.length (feed_t s buf) (feed_u s buf) (feed_r s buf) ∧
    ∀ i : Nat, i < ls.length → some (fsc_line (feed_t s buf i)) = ls[i]? := by
  have point : ∀ (ls : List Int) (s : _usbtv_t), feed_check buf ls s = true →
      ∀ i : Nat, i < ls.length →
        (_usbtv_read (feed_t s buf i) = some (feed_r s buf i, feed_u s buf i) ∧
          feed_r s buf i ≠ 2) ∧ some (fsc_line (feed_t s buf i)) = ls[i]? := by
    intro ls
    induction ls with
    | nil =>
      intro s _ i hi
      simp at hi
    | cons l ls ih =>
      intro s h i hi
      rw [feed_check] at h
      split at h
      · rename_i r s' hrd
        simp only [Bool.and_eq_true, decide_eq_true_eq] at h
        obtain ⟨⟨h1, h2⟩, h3⟩ := h
        cases i with
        | zero =>
          have e0 : feed_t s buf 0 = _usbtv_write s buf := rfl
          refine ⟨⟨?_, ?_⟩, ?_⟩
          · unfold feed_r feed_u after_read
            rw [e0, hrd]
          · unfold feed_r
            rw [e0, hrd]
            exact h1
          · rw [e0, h2]
            simp
        | succ j =>
          have es : s' = after_read (_usbtv_write s buf) := by
            unfold after_read
            rw [hrd]
          have := ih s' h3 j (by simpa using hi)
          rw [es] at this
          have et := feed_t_succ s buf j
          unfold feed_r feed_u
          rw [et]
          unfold feed_r feed_u at this
          refine ⟨this.1, ?_⟩
          rw [this.2]
          simp
      · exact absurd h (by simp)
  intro ls s h
  refine ⟨⟨fun i hi => (point ls s h i hi).1, ?_⟩, fun i hi => (point ls s h i hi).2⟩
  intro i _
  exact Idle.write _ _ buf (Idle.done _)

/-! ## Horizontal phase correction -/

theorem level_update_two {s s' : _usbtv_t} (h : level_update s = some s') :
    2 ≤ s.iline.length := by
  unfold level_update at h
  split at h
  · exact absurd h (by simp)
  · rename_i ref href
    unfold sync_tip at href
    split at href
    · exact absurd href (by simp)
    · rename_i r1 hr1
      have := (rd_eq_some hr1).2.1
      simpa using this

theorem hsync_adjust_offset (s : _usbtv_t) (mx : Int) :
    (hsync_adjust s mx).hsync_offset =
      if hsync_delta mx s.hsync_width s.width < 0 then s.hsync_offset - 1
      else if hsync_delta mx s.hsync_width s.width > 0 then s.hsync_offset + 1
      else s.hsync_offset := by
  unfold hsync_adjust
  dsimp only
  split_ifs <;> omega

/-- The phase correction that a completed read applies, in terms of its hsync search. -/
theorem process_line_offset {s s1 s' : _usbtv_t} {mx r : Int}
    (hscan : hsync_scan s = some (mx, s1)) (h : process_line s = some (r, s')) :
    s'.hsync_offset = (hsync_adjust s1 mx).hsync_offset ∧ 2 ≤ s.iline.length ∧
      s1.hsync_offset = s.hsync_offset ∧ s1.width = s.width ∧
      s1.hsync_width = s.hsync_width := by
  obtain ⟨mx', s1', s3, s4, s5, s6, h1, h3, h4, h5, _, h6, h7⟩ := process_line_inv h
  rw [hscan] at h1
  simp only [Option.some.injEq, Prod.mk.injEq] at h1
  obtain ⟨rfl, rfl⟩ := h1
  have e7 : s' = (line_advance s6).2 := by rw [h7]
  have f7 := line_advance_frame s6
  rw [← e7] at f7
  have a7 : s'.hsync_offset = s6.hsync_offset := by
    have t := congrArg _usbtv_t.hsync_offset f7
    exact t
  have a6 : s6.hsync_offset = s5.hsync_offset := by
    have t := congrArg _usbtv_t.hsync_offset (rasterize_frame h6)
    exact t
  have a5 : s5.hsync_offset = s4.hsync_offset := by
    have t := congrArg _usbtv_t.hsync_offset (fsc_update_frame h5)
    exact t
  have a4 : s4.hsync_offset = s3.hsync_offset := by
    have t := congrArg _usbtv_t.hsync_offset (vsync_scan_frame h4)
    exact t
  have a3 : s3.hsync_offset = (hsync_adjust s1 mx).hsync_offset := by
    have t := congrArg _usbtv_t.hsync_offset (level_update_frame h3)
    exact t
  have b1 : s1.iline = s.iline := by
    have t := congrArg _usbtv_t.iline (hsync_scan_frame hscan)
    exact t
  have b2 : (hsync_adjust s1 mx).iline = s1.iline := rfl
  have l2 := level_update_two h3
  rw [b2, b1] at l2
  refine ⟨by rw [a7, a6, a5, a4, a3], l2, ?_, ?_, ?_⟩
  · have t := congrArg _usbtv_t.hsync_offset (hsync_scan_frame hscan)
    exact t
  · have t := congrArg _usbtv_t.width (hsync_scan_frame hscan)
    exact t
  · have t := congrArg _usbtv_t.hsync_width (hsync_scan_frame hscan)
    exact t

/-! ## The line accumulator -/

theorem take_set_succ (a : List Int) (j : Nat) (v : Int) (h : j < a.length) :
    (a.set j v).take (j + 1) = a.take j ++ [v] := by
  rw [List.take_succ, List.set_take, List.set_eq_of_length_le (by simp)]
  simp [h]

theorem drop_set_succ (a : List Int) (j m : Nat) (v : Int) (h : j < m) :
    (a.set j v).drop m = a.drop m := by
  rw [List.drop_set, if_pos h]

/-- With no phase correction pending the accumulator copies input samples into the line
buffer from position `iline_len` on, until the line is full or the input is used up. -/
theorem fill_line_copy : ∀ (l : List Int) (fuel : Nat) (s : _usbtv_t) (j W : Nat),
    s.inp = l → s.hsync_offset = 0 → s.iline_len = (j : Int) → s.width = (W : Int) →
    s.iline.length = W → j ≤ W → l.length + 1 ≤ fuel →
    fill_line fuel s =
      if W - j ≤ l.length then
        some (true, { s with iline_len := 0, inp := l.drop (W - j),
                             iline := s.iline.take j ++ l.take (W - j) })
      else
        some (false, { s with iline_len := ((j + l.length : Nat) : Int), inp := [],
                              iline := s.iline.take j ++ l ++ s.iline.drop (j + l.length) }) := by
  intro l
  induction l with
  | nil =>
    intro fuel s j W hin hoff hlen hw hal hj hfuel
    obtain ⟨f, rfl⟩ : ∃ f, fuel = f + 1 := ⟨fuel - 1, by omega⟩
    rw [fill_line]
    by_cases hjW : j = W
    · subst hjW
      have h1 : ¬ s.iline_len < s.width := by omega
      rw [if_neg h1, if_pos (by simp)]
      have h2 : List.take j s.iline = s.iline := List.take_of_length_le (by omega)
      simp [h2, hin]
    · have h1 : s.iline_len < s.width := by omega
      rw [if_pos h1, if_neg (by omega), if_neg (by omega)]
      rw [if_neg (by simp; omega)]
      simp only [hin]
      cases s
      simp_all
  | cons v rest ih =>
    intro fuel s j W hin hoff hlen hw hal hj hfuel
    obtain ⟨f, rfl⟩ : ∃ f, fuel = f + 1 := ⟨fuel - 1, by omega⟩
    rw [fill_line]
    by_cases hjW : j = W
    · subst hjW
      have h1 : ¬ s.iline_len < s.width := by omega
      rw [if_neg h1, if_pos (by simp)]
      have h2 : List.take j s.iline = s.iline := List.take_of_length_le (by omega)
      simp [h2, hin]
    · have h1 : s.iline_len < s.width := by omega
      rw [if_pos h1, if_neg (by omega), if_neg (by omega)]
      simp only [hin]
      have hjl : (j : Int) < s.iline.length := by omega
      rw [hlen, wr_of_lt s.iline j v (by omega) hjl]
      simp only [Int.toNat_ofNat]
      have hlen2 : (j : Int) + 1 = ((j + 1 : Nat) : Int) := by push_cast; rfl
      simp only [List.length_cons] at hfuel
      rw [ih f { s with inp := rest, iline := s.iline.set j v, iline_len := (j : Int) + 1 }
        (j + 1) W rfl hoff hlen2 hw (by simp [hal]) (by omega) (by omega)]
      have hjl2 : j < s.iline.length := by omega
      by_cases hfit : W - j ≤ (v :: rest).length
      · have hfit2 : W - (j + 1) ≤ rest.length := by
          simp only [List.length_cons] at hfit
          omega
        rw [if_pos hfit, if_pos hfit2]
        have e1 : W - j = (W - (j + 1)) + 1 := by omega
        simp only [take_set_succ s.iline j v hjl2]
        rw [e1, List.drop_succ_cons, List.take_succ_cons]
        simp
      · have hfit2 : ¬ W - (j + 1) ≤ rest.length := by
          simp only [List.length_cons] at hfit
          omega
        rw [if_neg hfit, if_neg hfit2]
        simp only [take_set_succ s.iline j v hjl2, List.length_cons]
        have e2 : j + (rest.length + 1) = j + 1 + rest.length := by omega
        rw [drop_set_succ s.iline j _ v (by omega), e2]
        simp

theorem fill_line_length : ∀ (fuel : Nat) (s : _usbtv_t) (b : Bool) (s' : _usbtv_t),
    fill_line fuel s = some (b, s') → s'.iline.length = s.iline.length := by
  intro fuel
  induction fuel with
  | zero =>
    intro s b s' h
    exact absurd h (by simp [fill_line])
  | succ n ih =>
    intro s b s' h
    rw [fill_line] at h
    split at h
    · split at h
      · have t := ih _ _ _ h
        exact t
      · split at h
        · have t := ih _ _ _ h
          exact t
        · split at h
          · simp only [Option.some.injEq, Prod.mk.injEq] at h
            rw [← h.2]
          · split at h
            · exact absurd h (by simp)
            · rename_i il hil
              have t := ih _ _ _ h
              rw [t]
              exact wr_length hil
    · simp only [Option.some.injEq, Prod.mk.injEq] at h
      rw [← h.2]

/-- The accumulator keeps a well-formed state well-formed. -/
theorem fill_line_ready {fuel : Nat} {s : _usbtv_t} {b : Bool} {s' : _usbtv_t}
    (h : fill_line fuel s = some (b, s')) (hR : Ready s) : Ready s' := by
  have hl := fill_line_length _ _ _ _ h
  rw [fill_line_frame _ _ _ _ h]
  unfold Ready
  dsimp only
  rw [hl]
  exact hR

/-! ## The per-line processing of a well-formed state returns -/

theorem sum_from_total (a : List Int) : ∀ (n : Nat) (x acc : Int),
    0 ≤ x → x + n ≤ a.length → ∃ v, sum_from a n x acc = some v := by
  intro n
  induction n with
  | zero =>
    intro x acc _ _
    exact ⟨acc, rfl⟩
  | succ n ih =>
    intro x acc h0 h1
    obtain ⟨v, hv⟩ := rd_of_lt a x h0 (by push_cast at h1; omega)
    rw [sum_from, hv]
    exact ih (x + 1) (acc + v) (by omega) (by push_cast at h1 ⊢; omega)

theorem hsync_loop_total : ∀ (n : Nat) (x mx ref : Int) (s : _usbtv_t),
    Ready s → 0 ≤ x → x + n ≤ s.width →
    ∃ mx' s', hsync_loop n x mx ref s = some (mx', s') ∧ Ready s' := by
  intro n
  induction n with
  | zero =>
    intro x mx ref s hR _ _
    exact ⟨mx, s, rfl, hR⟩
  | succ n ih =>
    intro x mx ref s hR h0 h1
    have hR' := hR
    obtain ⟨a1, a2, a3, a4, a5, a6, a7, a8, a9, a10, a11, a12, a13⟩ := hR'
    obtain ⟨old, hold⟩ := rd_of_lt s.hsyncwin s.hsyncwin_x a4 (by omega)
    obtain ⟨v, hv⟩ := rd_of_lt s.iline x h0 (by push_cast at h1; omega)
    have hwr := wr_of_lt s.hsyncwin s.hsyncwin_x v a4 (by omega)
    rw [hsync_loop, hold, hv]
    simp only [hwr]
    have hR1 : Ready { s with
        hsync := s.hsync - old + v
        hsyncwin := s.hsyncwin.set s.hsyncwin_x.toNat v
        hsyncwin_x := if s.hsyncwin_x + 1 = s.hsync_width then 0 else s.hsyncwin_x + 1 } := by
      unfold Ready
      dsimp only
      refine ⟨a1, (by rw [List.length_set]; exact a2), a3, ?_, ?_, a6, a7, a8, a9, a10, a11, a12,
        a13⟩
      · split_ifs <;> omega
      · split_ifs <;> omega
    split
    · exact ih _ _ _ _ hR1 (by omega) (by push_cast at h1 ⊢; omega)
    · exact ih _ _ _ _ hR1 (by omega) (by push_cast at h1 ⊢; omega)

theorem hsync_scan_total (s : _usbtv_t) (hR : Ready s) :
    ∃ mx s', hsync_scan s = some (mx, s') ∧ Ready s' := by
  have hw : 2 ≤ s.width := hR.2.2.2.2.2.1
  exact hsync_loop_total _ 0 0 s.hsync s hR (le_refl 0) (by rw [Int.toNat_of_nonneg] <;> omega)

theorem level_update_total (s : _usbtv_t) (hR : Ready s) :
    ∃ s', level_update s = some s' ∧ Ready s' := by
  have hR' := hR
  obtain ⟨a1, a2, a3, a4, a5, a6, a7, a8, a9, a10, a11, a12, a13⟩ := hR'
  obtain ⟨r1, hr1⟩ := rd_of_lt s.iline 1 (by omega) (by omega)
  obtain ⟨sum, hsum⟩ := sum_from_total s.iline (s.hsync_width - 1 - 2).toNat 2 r1 (by omega)
    (by omega)
  have ht : sync_tip s = some (sum.tdiv (s.hsync_width - 2)) := by
    unfold sync_tip
    rw [hr1]
    simp only [hsum]
    rw [if_neg (by omega)]
  unfold level_update
  rw [ht]
  exact ⟨_, rfl, hR⟩

theorem vsync_scan_total (s : _usbtv_t) (hR : Ready s) :
    ∃ s', vsync_scan s = some s' ∧ Ready s' := by
  have hR' := hR
  obtain ⟨a1, a2, a3, a4, a5, a6, a7, a8, a9, a10, a11, a12, a13⟩ := hR'
  obtain ⟨r0, hr0⟩ := rd_of_lt s.iline 0 (by omega) (by omega)
  obtain ⟨sum, hsum⟩ := sum_from_total s.iline (s.vsync_width - 1).toNat 1 r0 (by omega)
    (by omega)
  have h1 : vsync_m1 s = some (sum.tdiv s.vsync_width - s.blank_level) := by
    unfold vsync_m1
    rw [hr0]
    simp only [hsum]
    rw [if_neg (by omega)]
  have hreg : ∃ reg, vsync_reg s = some reg := by
    unfold vsync_reg
    rw [h1]
    dsimp only
    by_cases hc : s.colour ≠ 0
    · obtain ⟨b1, b2, b3, b4, b5, b6⟩ := a13 hc
      have hh : 0 ≤ s.width.tdiv 2 := by
        rw [Int.tdiv_eq_ediv (by omega) (by omega)]
        omega
      obtain ⟨q0, hq0⟩ := rd_of_lt s.iline (s.width.tdiv 2) hh (by omega)
      obtain ⟨sum2, hsum2⟩ := sum_from_total s.iline
        (s.width.tdiv 2 + s.vsync_width - s.width.tdiv 2).toNat (s.width.tdiv 2) q0 hh (by omega)
      have h2 : vsync_m2 s = some (sum2.tdiv s.vsync_width - s.blank_level) := by
        unfold vsync_m2
        rw [hq0]
        simp only [hsum2]
        rw [if_neg (by omega)]
      rw [if_pos hc, h2]
      exact ⟨_, rfl⟩
    · rw [if_neg hc]
      exact ⟨_, rfl⟩
  obtain ⟨reg, hreg⟩ := hreg
  have hs : ∃ s', vsync_scan s = some s' := by
    unfold vsync_scan
    rw [hreg]
    exact ⟨_, rfl⟩
  obtain ⟨s', hs'⟩ := hs
  refine ⟨s', hs', ?_⟩
  rw [vsync_scan_frame hs']
  exact hR

theorem fsc_advance_ready (s : _usbtv_t) (hR : Ready s) : Ready (fsc_advance s) := by
  unfold fsc_advance
  split
  · obtain ⟨a1, a2, a3, a4, a5, a6, a7, a8, a9, a10, a11, a12, a13⟩ := hR
    unfold Ready
    dsimp only
    refine ⟨a1, a2, a3, a4, a5, a6, a7, a8, a9, a10, a11, a12, ?_⟩
    intro hc
    obtain ⟨b1, b2, b3, b4, b5, b6⟩ := a13 hc
    refine ⟨b1, b2, b3, b4, ?_, ?_⟩
    · have : s.fsc = 0 ∨ s.fsc = 1 ∨ s.fsc = 2 := by omega
      rcases this with h | h | h <;> rw [h] <;> decide
    · have : s.fsc = 0 ∨ s.fsc = 1 ∨ s.fsc = 2 := by omega
      rcases this with h | h | h <;> rw [h] <;> decide
  · exact hR

theorem fsc_update_total (s : _usbtv_t) (hR : Ready s) :
    ∃ s', fsc_update s = some s' ∧ Ready s' := by
  unfold fsc_update
  by_cases hc : s.colour ≠ 0
  · rw [if_pos hc]
    have hA := fsc_advance_ready s hR
    have hcA : (fsc_advance s).colour ≠ 0 := by
      unfold fsc_advance
      split <;> exact hc
    have hA' := hA
    obtain ⟨a1, a2, a3, a4, a5, a6, a7, a8, a9, a10, a11, a12, a13⟩ := hA'
    obtain ⟨b1, b2, b3, b4, b5, b6⟩ := a13 hcA
    have hb : ∃ b, fsc_burst (fsc_advance s) = some b := by
      unfold fsc_burst
      split
      · obtain ⟨sum, hsum⟩ := sum_from_total (fsc_advance s).iline
          ((fsc_advance s).fsc_left + (fsc_advance s).fsc_width - (fsc_advance s).fsc_left).toNat
          (fsc_advance s).fsc_left 0 b2 (by omega)
        simp only [hsum]
        rw [if_neg (by omega)]
        exact ⟨_, rfl⟩
      · exact ⟨_, rfl⟩
    obtain ⟨b, hb⟩ := hb
    rw [hb]
    refine ⟨_, rfl, ?_⟩
    split
    · unfold Ready
      dsimp only
      refine ⟨a1, a2, a3, a4, a5, a6, a7, a8, a9, a10, a11, a12, ?_⟩
      intro _
      exact ⟨b1, b2, b3, b4, by omega, by omega⟩
    · exact hA
  · rw [if_neg hc]
    exact ⟨s, rfl, hR⟩

theorem intensity_total (sample black white : Int) (h : white - black ≠ 0) :
    ∃ v, intensity sample black white = some v := by
  unfold intensity
  rw [if_neg h]
  exact ⟨_, rfl⟩

theorem raster_loop_total (aline : Int) : ∀ (n : Nat) (x : Int) (s : _usbtv_t),
    Ready s → s.white_level - s.black_level ≠ 0 → 0 ≤ aline → aline < s.active_lines →
    0 ≤ x → x + n ≤ s.active_width →
    ∃ s', raster_loop aline n x s = some s' ∧ Ready s' := by
  intro n
  induction n with
  | zero =>
    intro x s hR _ _ _ _ _
    exact ⟨s, rfl, hR⟩
  | succ n ih =>
    intro x s hR hl ha0 ha1 hx0 hx1
    have hR' := hR
    obtain ⟨a1, a2, a3, a4, a5, a6, a7, a8, a9, a10, a11, a12, a13⟩ := hR'
    push_cast at hx1
    obtain ⟨sample, hsample⟩ := rd_of_lt s.iline (s.active_left + x) (by omega) (by omega)
    obtain ⟨v, hv⟩ := intensity_total sample s.black_level s.white_level hl
    have hi0 : 0 ≤ aline * s.active_width + x := by
      have : 0 ≤ aline * s.active_width := mul_nonneg ha0 (by omega)
      omega
    have hi1 : aline * s.active_width + x < s.framebuffer.length := by
      rw [a3]
      have : (aline + 1) * s.active_width ≤ s.active_lines * s.active_width :=
        mul_le_mul_of_nonneg_right (by omega) (by omega)
      nlinarith
    have hput : ∃ s1, put_pixel s aline x = some s1 := by
      unfold put_pixel
      rw [hsample]
      simp only [hv]
      by_cases hc : s.colour ≠ 0
      · obtain ⟨b1, b2, b3, b4, b5, b6⟩ := a13 hc
        rw [if_pos hc]
        obtain ⟨c, hc1⟩ := rd_of_lt s.framebuffer _ hi0 hi1
        rw [hc1]
        have hcp : ∃ c1, colour_pixel c s.fsc v = some c1 := by
          unfold colour_pixel
          rw [if_pos ⟨b5, b6⟩]
          exact ⟨_, rfl⟩
        obtain ⟨c1, hcp⟩ := hcp
        simp only [hcp]
        rw [wr_of_lt _ _ _ hi0 hi1]
        exact ⟨_, rfl⟩
      · rw [if_neg hc, wr_of_lt _ _ _ hi0 hi1]
        exact ⟨_, rfl⟩
    obtain ⟨s1, hput⟩ := hput
    have f1 := put_pixel_frame hput
    have hlen : s1.framebuffer.length = s.framebuffer.length := by
      unfold put_pixel at hput
      rw [hsample] at hput
      simp only [hv] at hput
      split at hput
      · split at hput
        · exact absurd hput (by simp)
        · split at hput
          · exact absurd hput (by simp)
          · split at hput
            · exact absurd hput (by simp)
            · rename_i fb hfb
              simp only [Option.some.injEq] at hput
              rw [← hput]
              exact wr_length hfb
      · split at hput
        · exact absurd hput (by simp)
        · rename_i fb hfb
          simp only [Option.some.injEq] at hput
          rw [← hput]
          exact wr_length hfb
    have hR1 : Ready s1 := by
      rw [f1]
      unfold Ready
      dsimp only
      rw [hlen]
      exact hR
    rw [raster_loop, hput]
    have e1 : s1.white_level = s.white_level := by
      have t := congrArg _usbtv_t.white_level f1
      exact t
    have e2 : s1.black_level = s.black_level := by
      have t := congrArg _usbtv_t.black_level f1
      exact t
    have e3 : s1.active_lines = s.active_lines := by
      have t := congrArg _usbtv_t.active_lines f1
      exact t
    have e4 : s1.active_width = s.active_width := by
      have t := congrArg _usbtv_t.active_width f1
      exact t
    exact ih (x + 1) s1 hR1 (by rw [e1, e2]; exact hl) ha0 (by rw [e3]; exact ha1) (by omega)
      (by rw [e4]; omega)

theorem rasterize_total (s : _usbtv_t) (hR : Ready s)
    (hl : s.white_level - s.black_level ≠ 0) : ∃ s', rasterize s = some s' ∧ Ready s' := by
  unfold rasterize
  split
  · rename_i h
    obtain ⟨a1, a2, a3, a4, a5, a6, a7, a8, a9, a10, a11, a12, a13⟩ := hR
    by_cases hw : 0 ≤ s.active_width
    · exact raster_loop_total _ _ 0 s ⟨a1, a2, a3, a4, a5, a6, a7, a8, a9, a10, a11, a12, a13⟩
        hl h.1 h.2 (le_refl 0) (by rw [Int.toNat_of_nonneg hw]; omega)
    · have e : s.active_width.toNat = 0 := by omega
      rw [e]
      exact ⟨s, rfl, a1, a2, a3, a4, a5, a6, a7, a8, a9, a10, a11, a12, a13⟩
  · exact ⟨s, rfl, hR⟩

/-- The per-line processing of a well-formed state returns, with status `0` or `1`, and
leaves a well-formed state. -/
theorem process_line_total (s : _usbtv_t) (hR : Ready s) :
    ∃ r s', process_line s = some (r, s') ∧ (r = 0 ∨ r = 1) ∧ Ready s' := by
  obtain ⟨mx, s1, h1, R1⟩ := hsync_scan_total s hR
  have R2 : Ready (hsync_adjust s1 mx) := R1
  obtain ⟨s3, h3, R3⟩ := level_update_total _ R2
  obtain ⟨s4, h4, R4⟩ := vsync_scan_total _ R3
  obtain ⟨s5, h5, R5⟩ := fsc_update_total _ R4
  have l3 := level_update_levels h3
  have w4 : s4.white_level = s3.white_level := by
    have t := congrArg _usbtv_t.white_level (vsync_scan_frame h4)
    exact t
  have b4 : s4.black_level = s3.black_level := by
    have t := congrArg _usbtv_t.black_level (vsync_scan_frame h4)
    exact t
  have w5 : s5.white_level = s4.white_level := by
    have t := congrArg _usbtv_t.white_level (fsc_update_frame h5)
    exact t
  have b5 : s5.black_level = s4.black_level := by
    have t := congrArg _usbtv_t.black_level (fsc_update_frame h5)
    exact t
  obtain ⟨s6, h6, R6⟩ := rasterize_total s5 R5 (by rw [w5, b5, w4, b4]; omega)
  have hp : process_line s = some (line_advance s6) := by
    unfold process_line pre_raster pre_fsc
    rw [h1]
    simp only [h3, h4, h5, h6]
  refine ⟨(line_advance s6).1, (line_advance s6).2, hp, line_advance_status s6, ?_⟩
  rw [line_advance_frame s6]
  exact R6

/-- The accumulator never runs out of iterations: with at least `fill_fuel s` of them it
returns whenever the line buffer has `width` entries and `iline_len` is not negative. -/
theorem fill_line_total : ∀ (fuel : Nat) (s : _usbtv_t),
    s.inp.length + s.hsync_offset.natAbs + 1 ≤ fuel → 0 ≤ s.iline_len →
    s.width ≤ s.iline.length → ∃ b s', fill_line fuel s = some (b, s') := by
  intro fuel
  induction fuel with
  | zero =>
    intro s h _ _
    omega
  | succ f ih =>
    intro s hf h0 hw
    rw [fill_line]
    split
    · rename_i hlt
      split
      · rename_i hneg
        exact ih _ (by dsimp only; omega) (by dsimp only; omega) hw
      · rename_i hneg
        split
        · rename_i hpos
          exact ih _ (by dsimp only; omega) (by dsimp only; omega) hw
        · rename_i hpos
          split
          · exact ⟨_, _, rfl⟩
          · rename_i v rest hin
            rw [wr_of_lt s.iline s.iline_len v h0 (by omega)]
            dsimp only
            rw [hin] at hf
            simp only [List.length_cons] at hf
            exact ih _ (by dsimp only; omega) (by dsimp only; omega)
              (by dsimp only; rw [List.length_set]; exact hw)
    · exact ⟨_, _, rfl⟩

/-- A read of a well-formed state returns, with status `0`, `1` or `2`, and leaves a
well-formed state. -/
theorem read_total (s : _usbtv_t) (hR : Ready s) (h0 : 0 ≤ s.iline_len) :
    ∃ r s', _usbtv_read s = some (r, s') ∧ (r = 0 ∨ r = 1 ∨ r = 2) ∧ Ready s' := by
  obtain ⟨b, s1, h1⟩ := fill_line_total (fill_fuel s) s (le_refl _) h0 (by
    have := hR.1
    omega)
  have R1 := fill_line_ready h1 hR
  unfold _usbtv_read
  rw [h1]
  cases b with
  | false => exact ⟨2, s1, rfl, Or.inr (Or.inr rfl), R1⟩
  | true =>
    obtain ⟨r, s', hp, hr, R'⟩ := process_line_total s1 R1
    refine ⟨r, s', hp, ?_, R'⟩
    rcases hr with h | h
    · exact Or.inl h
    · exact Or.inr (Or.inl h)

/-! ## The state invariant -/

theorem sum_set_nat : ∀ (l : List Int) (i : Nat) (v : Int) (h : i < l.length),
    (l.set i v).sum = l.sum - l.get ⟨i, h⟩ + v := by
  intro l
  induction l with
  | nil => intro i v h; exact absurd h (by simp)
  | cons a l ih =>
    intro i v h
    cases i with
    | zero => simp only [List.set_cons_zero, List.sum_cons, List.get_eq_getElem,
                List.getElem_cons_zero]; omega
    | succ i =>
      have h' : i < l.length := by simpa using h
      have := ih i v h'
      simp only [List.set_cons_succ, List.sum_cons, List.get_eq_getElem,
        List.getElem_cons_succ] at this ⊢
      omega

/-- Replacing one entry of a buffer changes its sum by the difference of the entries. -/
theorem sum_wr {a a' : List Int} {i : Int} {v old : Int} (hw : wr a i v = some a')
    (hr : rd a i = some old) : a'.sum = a.sum - old + v := by
  obtain ⟨h0, h1, e⟩ := wr_eq_some hw
  unfold rd at hr
  rw [if_pos h0] at hr
  have hlt : i.toNat < a.length := by omega
  rw [List.getElem?_eq_getElem hlt] at hr
  simp only [Option.some.injEq] at hr
  rw [e, sum_set_nat a i.toNat v hlt, ← hr]
  rfl

/-- The accumulator keeps `iline_len` between `0` and `width`. -/
theorem fill_line_len : ∀ (fuel : Nat) (s : _usbtv_t) (b : Bool) (s' : _usbtv_t),
    fill_line fuel s = some (b, s') → 0 ≤ s.iline_len → s.iline_len ≤ s.width →
    0 ≤ s'.iline_len ∧ s'.iline_len ≤ s.width ∧ (b = false → s'.iline_len < s.width) := by
  intro fuel
  induction fuel with
  | zero => intro s b s' h; exact absurd h (by simp [fill_line])
  | succ fuel ih =>
    intro s b s' h h0 h1
    rw [fill_line] at h
    split at h
    · rename_i hlt
      split at h
      · have t := ih _ _ _ h
        exact t (by dsimp only; omega) (by dsimp only; omega)
      · split at h
        · rename_i hpos
          have t := ih _ _ _ h
          exact t (by dsimp only; omega) (by dsimp only; omega)
        · split at h
          · simp only [Option.some.injEq, Prod.mk.injEq] at h
            rw [← h.2]
            exact ⟨h0, h1, fun _ => hlt⟩
          · split at h
            · exact absurd h (by simp)
            · have t := ih _ _ _ h
              exact t (by dsimp only; omega) (by dsimp only; omega)
    · simp only [Option.some.injEq, Prod.mk.injEq] at h
      rw [← h.2, ← h.1]
      dsimp only
      exact ⟨le_refl 0, by omega, fun hb => absurd hb (by simp)⟩

/-- The hsync search keeps the window index in range and `hsync` equal to the window sum. -/
theorem hsync_loop_sum : ∀ (n : Nat) (x mx ref : Int) (s : _usbtv_t) (mx' : Int)
    (s' : _usbtv_t), hsync_loop n x mx ref s = some (mx', s') →
    0 ≤ s.hsyncwin_x → s.hsyncwin_x < s.hsync_width → s.hsync = s.hsyncwin.sum →
    0 ≤ s'.hsyncwin_x ∧ s'.hsyncwin_x < s.hsync_width ∧ s'.hsync = s'.hsyncwin.sum := by
  intro n
  induction n with
  | zero =>
    intro x mx ref s mx' s' h a1 a2 a3
    simp only [hsync_loop, Option.some.injEq, Prod.mk.injEq] at h
    rw [← h.2]
    exact ⟨a1, a2, a3⟩
  | succ n ih =>
    intro x mx ref s mx' s' h a1 a2 a3
    rw [hsync_loop] at h
    split at h
    · rename_i old v hold hv
      split at h
      · exact absurd h (by simp)
      · rename_i win hwin
        dsimp only at h
        have hs := sum_wr hwin hold
        have b1 : (0 : Int) ≤ (if s.hsyncwin_x + 1 = s.hsync_width then 0
            else s.hsyncwin_x + 1) := by split <;> omega
        have b2 : (if s.hsyncwin_x + 1 = s.hsync_width then 0 else s.hsyncwin_x + 1)
            < s.hsync_width := by split <;> omega
        have b3 : s.hsync - old + v = win.sum := by rw [hs, a3]
        split at h
        · have t := ih _ _ _ _ _ _ h
          exact t b1 b2 b3
        · have t := ih _ _ _ _ _ _ h
          exact t b1 b2 b3
    · exact absurd h (by simp)

/-- The FSC update keeps the colour phase among the three channels. -/
theorem fsc_update_range {s s' : _usbtv_t} (h : fsc_update s = some s')
    (h0 : 0 ≤ s.fsc) (h2 : s.fsc ≤ 2) : 0 ≤ s'.fsc ∧ s'.fsc ≤ 2 := by
  have hA : 0 ≤ (fsc_advance s).fsc ∧ (fsc_advance s).fsc ≤ 2 := by
    unfold fsc_advance
    split
    · dsimp only
      have : s.fsc = 0 ∨ s.fsc = 1 ∨ s.fsc = 2 := by omega
      rcases this with e | e | e <;> rw [e] <;> decide
    · exact ⟨h0, h2⟩
  unfold fsc_update at h
  split at h
  · split at h
    · exact absurd h (by simp)
    · simp only [Option.some.injEq] at h
      rw [← h]
      split
      · dsimp only
        omega
      · exact hA
  · simp only [Option.some.injEq] at h
    rw [← h]
    exact ⟨h0, h2⟩

/-- The line number that the vsync scan leaves is not negative. -/
theorem vsync_scan_line {s s' : _usbtv_t} (h : vsync_scan s = some s') (hl : 1 ≤ s.line) :
    1 ≤ s'.line := by
  have e := (vsync_scan_spec h).2.1
  rw [e]
  split
  · rename_i hm
    unfold vsync_match at hm ⊢
    split_ifs at hm ⊢ <;> omega
  · exact hl

/-- What the blocks after the hsync search leave alone. -/
theorem after_scan_frame {s1 s3 s4 s5 s6 s' : _usbtv_t} {mx r : Int}
    (h3 : level_update (hsync_adjust s1 mx) = some s3) (h4 : vsync_scan s3 = some s4)
    (h5 : fsc_update s4 = some s5) (h6 : rasterize s5 = some s6)
    (h7 : line_advance s6 = (r, s')) :
    s' = { s1 with hsync_offset := s'.hsync_offset, sync_level := s'.sync_level,
                   blank_level := s'.blank_level, black_level := s'.black_level,
                   white_level := s'.white_level, vsync := s'.vsync, line := s'.line,
                   vsync_count := s'.vsync_count, fsc := s'.fsc, fsc_hold := s'.fsc_hold,
                   framebuffer := s'.framebuffer, frame := s'.frame } := by
  have e7 : s' = (line_advance s6).2 := by rw [h7]
  have f7 := line_advance_frame s6
  rw [← e7] at f7
  have f6 := rasterize_frame h6
  have f5 := fsc_update_frame h5
  have f4 := vsync_scan_frame h4
  have f3 := level_update_frame h3
  rw [f7, f6, f5, f4, f3]
  unfold hsync_adjust
  rfl

/-- Every read that returns, with whatever status, preserves the state invariant. -/
theorem read_state_inv {s : _usbtv_t} {r : Int} {s' : _usbtv_t}
    (h : _usbtv_read s = some (r, s')) (hI : StateInv s) : StateInv s' := by
  obtain ⟨⟨i1, i2⟩, ⟨i3, i4⟩, i5, ⟨i6, i7⟩, i8⟩ := hI
  by_cases hr : r = 2
  · subst hr
    have h2 := read_two h
    have f0 := fill_line_frame _ _ _ _ h2
    have l := fill_line_len _ _ _ _ h2 i1 i2
    have e1 : s'.width = s.width := by
      have t := congrArg _usbtv_t.width f0
      exact t
    have e2 : s'.hsyncwin_x = s.hsyncwin_x := by
      have t := congrArg _usbtv_t.hsyncwin_x f0
      exact t
    have e3 : s'.hsync_width = s.hsync_width := by
      have t := congrArg _usbtv_t.hsync_width f0
      exact t
    have e4 : s'.hsync = s.hsync := by
      have t := congrArg _usbtv_t.hsync f0
      exact t
    have e5 : s'.hsyncwin = s.hsyncwin := by
      have t := congrArg _usbtv_t.hsyncwin f0
      exact t
    have e6 : s'.line = s.line := by
      have t := congrArg _usbtv_t.line f0
      exact t
    have e7 : s'.lines = s.lines := by
      have t := congrArg _usbtv_t.lines f0
      exact t
    have e8 : s'.colour = s.colour := by
      have t := congrArg _usbtv_t.colour f0
      exact t
    have e9 : s'.fsc = s.fsc := by
      have t := congrArg _usbtv_t.fsc f0
      exact t
    unfold StateInv
    rw [e1, e2, e3, e4, e5, e6, e7, e8, e9]
    exact ⟨⟨l.1, l.2.1⟩, ⟨i3, i4⟩, i5, ⟨i6, i7⟩, i8⟩
  · obtain ⟨s0, mx, s1, s3, s4, s5, s6, h0, h1, h3, h4, h5, _, h6, h7, g3, g6⟩ :=
      read_stages h hr
    have f0 := fill_line_frame _ _ _ _ h0
    have l := fill_line_len _ _ _ _ h0 i1 i2
    have f1 := hsync_scan_frame h1
    have fa := after_scan_frame h3 h4 h5 h6 h7
    -- the accumulator
    have a1 : s'.iline_len = s0.iline_len := by
      have t := congrArg _usbtv_t.iline_len fa
      have u := congrArg _usbtv_t.iline_len f1
      exact t.trans u
    have a2 : s'.width = s.width := by
      have t := congrArg _usbtv_t.width fa
      have u := congrArg _usbtv_t.width f1
      have v := congrArg _usbtv_t.width f0
      exact t.trans (u.trans v)
    -- the window
    have w0 : s0.hsyncwin_x = s.hsyncwin_x ∧ s0.hsync_width = s.hsync_width ∧
        s0.hsync = s.hsync ∧ s0.hsyncwin = s.hsyncwin := by
      refine ⟨?_, ?_, ?_, ?_⟩
      · have t := congrArg _usbtv_t.hsyncwin_x f0
        exact t
      · have t := congrArg _usbtv_t.hsync_width f0
        exact t
      · have t := congrArg _usbtv_t.hsync f0
        exact t
      · have t := congrArg _usbtv_t.hsyncwin f0
        exact t
    have w1 := hsync_loop_sum _ _ _ _ _ _ _ h1 (by rw [w0.1]; exact i3)
      (by rw [w0.1, w0.2.1]; exact i4) (by rw [w0.2.2.1, w0.2.2.2]; exact i5)
    have b1 : s'.hsyncwin_x = s1.hsyncwin_x := by
      have t := congrArg _usbtv_t.hsyncwin_x fa
      exact t
    have b2 : s'.hsync_width = s0.hsync_width := by
      have t := congrArg _usbtv_t.hsync_width fa
      have u := congrArg _usbtv_t.hsync_width f1
      exact t.trans u
    have b3 : s'.hsync = s1.hsync := by
      have t := congrArg _usbtv_t.hsync fa
      exact t
    have b4 : s'.hsyncwin = s1.hsyncwin := by
      have t := congrArg _usbtv_t.hsyncwin fa
      exact t
    -- the line number
    have c3 : s3.line = s.line := by
      have t := congrArg _usbtv_t.line g3
      exact t
    have c4 := vsync_scan_line h4 (by rw [c3]; exact i6)
    have c6 : s6.line = s4.line := by
      have t := congrArg _usbtv_t.line g6
      exact t
    have c7 : s6.lines = s.lines := by
      have t := congrArg _usbtv_t.lines g6
      have u := congrArg _usbtv_t.lines (vsync_scan_frame h4)
      have v := congrArg _usbtv_t.lines g3
      exact t.trans (u.trans v)
    have c8 : s'.lines = s.lines := by
      have t := congrArg _usbtv_t.lines fa
      have u := congrArg _usbtv_t.lines f1
      have v := congrArg _usbtv_t.lines f0
      exact t.trans (u.trans v)
    have c9 : s'.line = (if s6.line + 1 > s6.lines then 1 else s6.line + 1) := by
      have t := (line_advance_spec s6).1
      rw [h7] at t
      exact t
    -- the colour phase
    have d4 : s4.colour = s.colour ∧ s4.fsc = s.fsc := by
      constructor
      · have u := congrArg _usbtv_t.colour (vsync_scan_frame h4)
        have v := congrArg _usbtv_t.colour g3
        exact u.trans v
      · have u := congrArg _usbtv_t.fsc (vsync_scan_frame h4)
        have v := congrArg _usbtv_t.fsc g3
        exact u.trans v
    have d6 : s'.fsc = s5.fsc := by
      have e7 : s' = (line_advance s6).2 := by rw [h7]
      have f7 := line_advance_frame s6
      rw [← e7] at f7
      have t := congrArg _usbtv_t.fsc f7
      have u := congrArg _usbtv_t.fsc (rasterize_frame h6)
      exact t.trans u
    have d7 : s'.colour = s.colour := by
      have t := congrArg _usbtv_t.colour fa
      have u := congrArg _usbtv_t.colour f1
      have v := congrArg _usbtv_t.colour f0
      exact t.trans (u.trans v)
    unfold StateInv
    refine ⟨⟨by rw [a1]; exact l.1, by rw [a1, a2]; exact l.2.1⟩,
      ⟨by rw [b1]; exact w1.1, by rw [b1, b2]; exact w1.2.1⟩,
      (by rw [b3, b4]; exact w1.2.2), ⟨?_, ?_⟩, ?_⟩
    · rw [c9]
      split <;> omega
    · rw [c9, c8]
      rw [c7]
      split <;> omega
    · intro hc
      rw [d7] at hc
      rw [d6]
      exact fsc_update_range h5 (by rw [d4.2]; exact (i8 hc).1) (by rw [d4.2]; exact (i8 hc).2)

/-! ## The bound on the phase correction -/

/-- With lines of at least two samples the accumulator uses up a pending correction before
it completes a line, and it asks for more input only with a correction of `0` or with a
correction of `1` and an empty line buffer. -/
theorem fill_line_offset : ∀ (fuel : Nat) (s : _usbtv_t) (b : Bool) (s' : _usbtv_t),
    fill_line fuel s = some (b, s') → 2 ≤ s.width →
    (s.hsync_offset = 0 ∨ (s.iline_len = 0 ∧ s.hsync_offset = -1) ∨
      (s.hsync_offset = 1 ∧ (s.iline_len = 0 ∨ s.iline_len = 1))) →
    (b = true → s'.hsync_offset = 0 ∧ s'.iline_len = 0) ∧
    (b = false → s'.hsync_offset = 0 ∨ (s'.iline_len = 0 ∧ s'.hsync_offset = 1)) := by
  intro fuel
  induction fuel with
  | zero => intro s b s' h; exact absurd h (by simp [fill_line])
  | succ fuel ih =>
    intro s b s' h hw hP
    rw [fill_line] at h
    split at h
    · rename_i hlt
      split at h
      · rename_i hneg
        have t := ih _ _ _ h
        exact t hw (by dsimp only; omega)
      · split at h
        · rename_i hpos
          have t := ih _ _ _ h
          exact t hw (by dsimp only; omega)
        · rename_i hnp
          split at h
          · simp only [Option.some.injEq, Prod.mk.injEq] at h
            rw [← h.2, ← h.1]
            refine ⟨fun hb => absurd hb (by simp), fun _ => ?_⟩
            omega
          · split at h
            · exact absurd h (by simp)
            · have t := ih _ _ _ h
              exact t hw (by dsimp only; omega)
    · rename_i hge
      simp only [Option.some.injEq, Prod.mk.injEq] at h
      rw [← h.2, ← h.1]
      dsimp only
      refine ⟨fun _ => ⟨?_, rfl⟩, fun hb => absurd hb (by simp)⟩
      omega

/-- A read entered with lines of at least two samples and a correction that is pending only
at the start of a line begins its per-line processing with `hsync_offset = 0` and leaves a
correction of `-1`, `0` or `1`, again pending only at the start of a line. -/
theorem read_phase {s : _usbtv_t} {r : Int} {s' : _usbtv_t}
    (h : _usbtv_read s = some (r, s')) (hw : 2 ≤ s.width) (hK : PhaseInv s) :
    PhaseInv s' ∧ s'.width = s.width ∧
    (s'.hsync_offset = -1 ∨ s'.hsync_offset = 0 ∨ s'.hsync_offset = 1) ∧
    (r ≠ 2 → (filled s).hsync_offset = 0) := by
  have hP : s.hsync_offset = 0 ∨ (s.iline_len = 0 ∧ s.hsync_offset = -1) ∨
      (s.hsync_offset = 1 ∧ (s.iline_len = 0 ∨ s.iline_len = 1)) := by
    unfold PhaseInv at hK
    omega
  by_cases hr : r = 2
  · subst hr
    have h2 := read_two h
    have l := (fill_line_offset _ _ _ _ h2 hw hP).2 rfl
    have e1 : s'.width = s.width := by
      have t := congrArg _usbtv_t.width (fill_line_frame _ _ _ _ h2)
      exact t
    unfold PhaseInv
    refine ⟨by omega, e1, by omega, fun hn => absurd rfl hn⟩
  · have hs0 : ∃ s0, fill_line (fill_fuel s) s = some (true, s0) ∧
        process_line s0 = some (r, s') := by
      rcases read_inv h with ⟨h2, _⟩ | hx
      · exact absurd h2 hr
      · exact hx
    obtain ⟨s0, h0, hp⟩ := hs0
    obtain ⟨mx, s1, _, _, _, _, h1, _, _, _, _, _, _⟩ := process_line_inv hp
    have l := (fill_line_offset _ _ _ _ h0 hw hP).1 rfl
    have o := process_line_offset h1 hp
    have fa := process_line_frame hp
    have e1 : s'.width = s.width := by
      have t := congrArg _usbtv_t.width fa
      have u := congrArg _usbtv_t.width (fill_line_frame _ _ _ _ h0)
      exact t.trans u
    have e2 : s'.iline_len = 0 := by
      have t := congrArg _usbtv_t.iline_len fa
      exact t.trans l.2
    have e3 := hsync_adjust_offset s1 mx
    rw [o.2.2.1, l.1] at e3
    have e4 : s'.hsync_offset = -1 ∨ s'.hsync_offset = 0 ∨ s'.hsync_offset = 1 := by
      rw [o.1, e3]
      split_ifs <;> omega
    have e5 : (filled s).hsync_offset = 0 := by
      unfold filled
      rw [h0]
      exact l.1
    unfold PhaseInv
    exact ⟨by omega, e1, e4, fun _ => e5⟩

/-- The states between two completed lines are reached from the same initial state. -/
theorem reach_idle {s0 s t : _usbtv_t} (h : Idle s t) : Reach s0 s → Reach s0 t := by
  induction h with
  | done s => exact fun hR => hR
  | write s t buf _ ih => exact fun hR => ih (Reach.write s buf hR)
  | more s s1 t hr _ ih => exact fun hR => ih (Reach.read s 2 s1 hR hr)

/-- Every state reached from an initial state with lines of at least two samples and no
pending correction has the lines of the initial state and a correction that is pending only
at the start of a line. -/
theorem reach_phase {s0 s : _usbtv_t} (h : Reach s0 s) (hw : 2 ≤ s0.width)
    (h0 : s0.hsync_offset = 0) : s.width = s0.width ∧ PhaseInv s := by
  induction h with
  | start => exact ⟨rfl, Or.inl h0⟩
  | write s buf _ ih => exact ih
  | read s r s' _ hr ih =>
    have t := read_phase hr (by rw [ih.1]; exact hw) ih.2
    exact ⟨t.2.1.trans ih.1, t.1⟩

/-! ## Runs with a buffer per line, and the mono vsync register -/

/-- When each of the first `n` reads of the feeding caller completes a line, these reads are
a run of `n` completed lines. -/
theorem play_run (s : _usbtv_t) (bufs : Nat → List Int) (n : Nat)
    (h : play_ok s bufs n = true) :
    CompletedLines n (play_t s bufs) (play_u s bufs) (play_r s bufs) := by
  constructor
  · intro i hi
    unfold play_ok at h
    rw [List.all_eq_true] at h
    have hi2 := h i (List.mem_range.mpr hi)
    have hne : play_r s bufs i ≠ 2 := by simpa using hi2
    refine ⟨?_, hne⟩
    cases hx : _usbtv_read (play_t s bufs i) with
    | none => simp [play_r, hx] at hne
    | some p =>
      obtain ⟨a, b⟩ := p
      simp [play_r, play_u, after_read, hx]
  · intro i _
    exact Idle.write _ _ (bufs (i + 1)) (Idle.done _)

/-- A completed mono read shifts the bit of its line-start measurement into the ten-bit
register, and it executes the rest of the line with line number `9` when the register now
holds `510` and with the line number it was entered with otherwise. -/
theorem read_mono_vsync {s : _usbtv_t} {r : Int} {s' : _usbtv_t}
    (h : _usbtv_read s = some (r, s')) (hr : r ≠ 2) (hc : s.colour = 0) :
    s'.vsync = (s.vsync * 2 + line_bit s) % 1024 ∧
    fsc_line s = (if s'.vsync = 510 then 9 else s.line) := by
  obtain ⟨s0, mx, s1, s3, s4, s5, s6, h0, h1, h3, h4, h5, _, h6, h7, g3, g6⟩ :=
    read_stages h hr
  obtain ⟨hreg, hline, _⟩ := vsync_scan_spec h4
  have c3 : s3.colour = 0 := by
    have t := congrArg _usbtv_t.colour g3
    exact t.trans hc
  have v3 : s3.vsync = s.vsync := by
    have t := congrArg _usbtv_t.vsync g3
    exact t
  have l3 : s3.line = s.line := by
    have t := congrArg _usbtv_t.line g3
    exact t
  have v7 : s'.vsync = s4.vsync := by
    have e7 : s' = (line_advance s6).2 := by rw [h7]
    have f7 := line_advance_frame s6
    rw [← e7] at f7
    have t := congrArg _usbtv_t.vsync f7
    have u := congrArg _usbtv_t.vsync g6
    exact t.trans u
  have hfl : fsc_line s = s4.line := by
    unfold fsc_line
    rw [h0]
    dsimp only
    unfold pre_fsc
    rw [h1]
    dsimp only
    rw [h3]
    dsimp only
    rw [h4]
  have hpv : pre_vsync s0 = some s3 := by
    unfold pre_vsync
    rw [h1]
    exact h3
  unfold vsync_reg at hreg
  split at hreg
  · exact absurd hreg (by simp)
  · rename_i m1 hm1
    dsimp only at hreg
    rw [if_neg (by rw [c3]; simp)] at hreg
    simp only [Option.some.injEq] at hreg
    have hbit : line_bit s = if below_sync m1 then 1 else 0 := by
      unfold line_bit line_low
      rw [h0]
      dsimp only
      rw [hpv]
      dsimp only
      rw [hm1]
    constructor
    · rw [v7, ← hreg, hbit, v3]
      split
      · unfold or1
        rw [if_pos (by omega)]
      · rw [add_zero]
    · rw [hfl, hline, c3, v7, l3]
      by_cases h510 : s4.vsync = 510
      · rw [if_pos h510]
        unfold vsync_match
        simp [h510]
      · rw [if_neg h510]
        unfold vsync_match
        simp [h510]

/-- The register and the mode pass unchanged from a completed line to the next read. -/
theorem run_link_vsync {n : Nat} {t u : Nat → _usbtv_t} {r : Nat → Int}
    (hrun : CompletedLines n t u r) {i : Nat} (hi : i + 1 < n) :
    (t (i + 1)).vsync = (u i).vsync ∧ (t (i + 1)).sync_level = (u i).sync_level := by
  have f := idle_frame (hrun.2 i hi)
  constructor
  · have e := congrArg _usbtv_t.vsync f
    exact e
  · have e := congrArg _usbtv_t.sync_level f
    exact e

theorem line_bit_cases (s : _usbtv_t) : line_bit s = 0 ∨ line_bit s = 1 := by
  unfold line_bit
  split
  · right; rfl
  · left; rfl

/-- In a mono run the register after a line is the register after the previous line,
shifted, with the bit of the line. -/
theorem run_mono_step {n : Nat} {t u : Nat → _usbtv_t} {r : Nat → Int}
    (hrun : CompletedLines n t u r) (hmono : (t 0).colour = 0) :
    (∀ k, k < n → 0 ≤ (u k).vsync ∧ (u k).vsync < 1024 ∧
      fsc_line (t k) = (if (u k).vsync = 510 then 9 else (t k).line)) ∧
    (∀ k, k + 1 < n →
      (u (k + 1)).vsync = ((u k).vsync * 2 + line_bit (t (k + 1))) % 1024) := by
  have one : ∀ k, k < n → (u k).vsync = ((t k).vsync * 2 + line_bit (t k)) % 1024 ∧
      fsc_line (t k) = (if (u k).vsync = 510 then 9 else (t k).line) := by
    intro k hk
    obtain ⟨hrd, hr2⟩ := hrun.1 k hk
    exact read_mono_vsync hrd hr2 (by rw [run_colour hrun k hk]; exact hmono)
  constructor
  · intro k hk
    have a := one k hk
    refine ⟨?_, ?_, a.2⟩
    · rw [a.1]; omega
    · rw [a.1]; omega
  · intro k hk
    have a := (one (k + 1) hk).1
    rw [(run_link_vsync hrun hk).1] at a
    exact a

/-- The low bits of a ten-bit register after one shift. -/
theorem shift_bits (w v b : Int) (h : w = (v * 2 + b) % 1024) (hb : b = 0 ∨ b = 1) :
    w % 2 = b ∧ w % 4 = 2 * (v % 2) + b ∧ w % 8 = 2 * (v % 4) + b ∧
    w % 16 = 2 * (v % 8) + b ∧ w % 32 = 2 * (v % 16) + b ∧ w % 64 = 2 * (v % 32) + b ∧
    w % 128 = 2 * (v % 64) + b ∧ w % 256 = 2 * (v % 128) + b ∧
    w % 512 = 2 * (v % 256) + b ∧ w = 2 * (v % 512) + b := by
  refine ⟨by omega, by omega, by omega, by omega, by omega, by omega, by omega, by omega,
    by omega, by omega⟩

/-! ## Three fields on one pixel -/

theorem colour_pixel_some (c : Nat) (fsc v : Int) (h0 : 0 ≤ fsc) (h2 : fsc ≤ 2) :
    ∃ c1, colour_pixel c fsc v = some c1 := by
  unfold colour_pixel
  rw [if_pos ⟨h0, h2⟩]
  exact ⟨_, rfl⟩

/-- A pixel below `2 ^ 32` is determined by its four bytes. -/
theorem pixel_of_bytes (r : Nat) (h : r < 2 ^ 32) :
    r = byte r 0 + 256 * byte r 1 + 65536 * byte r 2 + 16777216 * byte r 3 := by
  unfold byte
  simp only [Nat.shiftRight_eq_div_pow]
  norm_num
  omega

/-- Three updates of the three channels, in any order, set the three colour bytes and keep
the alpha byte. -/
theorem overlay_bytes (c : Nat) (f1 v1 f2 v2 f3 v3 : Int)
    (hf1 : 0 ≤ f1 ∧ f1 ≤ 2) (hf2 : 0 ≤ f2 ∧ f2 ≤ 2) (hf3 : 0 ≤ f3 ∧ f3 ≤ 2)
    (h12 : f1 ≠ f2) (h13 : f1 ≠ f3) (h23 : f2 ≠ f3)
    (hv1 : 0 ≤ v1 ∧ v1 ≤ 255) (hv2 : 0 ≤ v2 ∧ v2 ≤ 255) (hv3 : 0 ≤ v3 ∧ v3 ≤ 255) :
    ∃ r, overlay c f1 v1 f2 v2 f3 v3 = some r ∧ r < 2 ^ 32 ∧
      (byte r f1.toNat : Int) = v1 ∧ (byte r f2.toNat : Int) = v2 ∧
      (byte r f3.toNat : Int) = v3 ∧ byte r 3 = byte c 3 := by
  obtain ⟨c1, e1⟩ := colour_pixel_some c f1 v1 hf1.1 hf1.2
  obtain ⟨c2, e2⟩ := colour_pixel_some c1 f2 v2 hf2.1 hf2.2
  obtain ⟨c3, e3⟩ := colour_pixel_some c2 f3 v3 hf3.1 hf3.2
  obtain ⟨_, _, _, a1, k1⟩ := colour_pixel_bytes hv1.1 hv1.2 e1
  obtain ⟨_, _, _, a2, k2⟩ := colour_pixel_bytes hv2.1 hv2.2 e2
  obtain ⟨_, _, lt3, a3, k3⟩ := colour_pixel_bytes hv3.1 hv3.2 e3
  refine ⟨c3, ?_, lt3, ?_, ?_, a3, ?_⟩
  · unfold overlay
    rw [e1]
    dsimp only
    rw [e2]
    exact e3
  · rw [k3 f1.toNat (by omega) (by omega), k2 f1.toNat (by omega) (by omega)]
    exact a1
  · rw [k3 f2.toNat (by omega) (by omega)]
    exact a2
  · rw [k3 3 (by omega) (by omega), k2 3 (by omega) (by omega), k1 3 (by omega) (by omega)]

/-! ## The level filter -/

/-- One step of the level filter moves the level toward the sync tip mean by at least one
unit while it is `100` or more away, and keeps it within `99` once it is that near. -/
theorem level_filter_near (x s : Int) :
    (x - level_filter s x).natAbs ≤ max 99 ((x - s).natAbs - 1) := by
  unfold level_filter
  rw [tdiv_pos_cases (s * 99 + x) 100 (by decide)]
  split <;> omega

/-- The level that a completed read leaves is one step of the filter with the sync tip mean
of its line. -/
theorem read_level {s : _usbtv_t} {r : Int} {s' : _usbtv_t}
    (h : _usbtv_read s = some (r, s')) (hr : r ≠ 2) :
    s'.sync_level = level_filter s.sync_level (line_tip s) ∧
    s'.blank_level = add_level s'.sync_level 3 10 ∧
    s'.black_level = (if s.colour ≠ 0 then add_level s'.sync_level 3525 10000
                      else add_level s'.sync_level 3 10) ∧
    s'.white_level = add_level s'.sync_level 1 1 := by
  obtain ⟨s0, mx, s1, s3, s4, s5, s6, h0, h1, h3, h4, h5, _, h6, h7, g3, g6⟩ :=
    read_stages h hr
  have fa := after_scan_frame h3 h4 h5 h6 h7
  have e7 : s' = (line_advance s6).2 := by rw [h7]
  have f7 := line_advance_frame s6
  rw [← e7] at f7
  have f4 := vsync_scan_frame h4
  have lv : s'.sync_level = s3.sync_level ∧ s'.blank_level = s3.blank_level ∧
      s'.black_level = s3.black_level ∧ s'.white_level = s3.white_level := by
    refine ⟨?_, ?_, ?_, ?_⟩
    · have a := congrArg _usbtv_t.sync_level f7
      have b := congrArg _usbtv_t.sync_level g6
      have c := congrArg _usbtv_t.sync_level f4
      exact a.trans (b.trans c)
    · have a := congrArg _usbtv_t.blank_level f7
      have b := congrArg _usbtv_t.blank_level g6
      have c := congrArg _usbtv_t.blank_level f4
      exact a.trans (b.trans c)
    · have a := congrArg _usbtv_t.black_level f7
      have b := congrArg _usbtv_t.black_level g6
      have c := congrArg _usbtv_t.black_level f4
      exact a.trans (b.trans c)
    · have a := congrArg _usbtv_t.white_level f7
      have b := congrArg _usbtv_t.white_level g6
      have c := congrArg _usbtv_t.white_level f4
      exact a.trans (b.trans c)
  have f0 := fill_line_frame _ _ _ _ h0
  have f1 := hsync_scan_frame h1
  have sl1 : s1.sync_level = s.sync_level := by
    have a := congrArg _usbtv_t.sync_level f1
    have b := congrArg _usbtv_t.sync_level f0
    exact a.trans b
  have c1 : s1.colour = s.colour := by
    have a := congrArg _usbtv_t.colour f1
    have b := congrArg _usbtv_t.colour f0
    exact a.trans b
  have htip : sync_tip (hsync_adjust s1 mx) = sync_tip s1 := rfl
  have hsc : scanned s0 = s1 := by
    unfold scanned
    rw [h1]
  unfold level_update at h3
  rw [htip] at h3
  split at h3
  · exact absurd h3 (by simp)
  · rename_i ref href
    simp only [Option.some.injEq] at h3
    have hlt : line_tip s = ref := by
      unfold line_tip
      rw [h0]
      dsimp only
      rw [hsc, href]
    rw [lv.1, lv.2.1, lv.2.2.1, lv.2.2.2, hlt, ← h3]
    unfold level_filter
    refine ⟨?_, ?_, ?_, ?_⟩
    · show ((hsync_adjust s1 mx).sync_level * 99 + ref).tdiv 100 = _
      rw [show (hsync_adjust s1 mx).sync_level = s1.sync_level from rfl, sl1]
    · show add_level (((hsync_adjust s1 mx).sync_level * 99 + ref).tdiv 100) 3 10 = _
      rfl
    · show (if (hsync_adjust s1 mx).colour ≠ 0 then _ else _) = _
      rw [show (hsync_adjust s1 mx).colour = s1.colour from rfl, c1]
    · rfl

/-- In a run whose lines all have the sync tip mean `x`, the distance of the level from `x`
falls by at least one per line until it is `99` or less, and then stays `99` or less. -/
theorem run_level {n : Nat} {t u : Nat → _usbtv_t} {r : Nat → Int}
    (hrun : CompletedLines n t u r) (x : Int) (hx : ∀ i, i < n → line_tip (t i) = x) :
    ∀ i, i < n →
      (x - (u i).sync_level).natAbs ≤ max 99 ((x - (t 0).sync_level).natAbs - (i + 1)) := by
  intro i
  induction i with
  | zero =>
    intro h0
    obtain ⟨hrd, hr2⟩ := hrun.1 0 h0
    have e := (read_level hrd hr2).1
    rw [hx 0 h0] at e
    have k := level_filter_near x (t 0).sync_level
    rw [e]
    omega
  | succ i ih =>
    intro hi
    obtain ⟨hrd, hr2⟩ := hrun.1 (i + 1) hi
    have e := (read_level hrd hr2).1
    rw [hx (i + 1) hi, (run_link_vsync hrun hi).2] at e
    have k := level_filter_near x (u i).sync_level
    have p := ih (by omega)
    rw [e]
    omega

/-! ## The sync tip window -/

/-- The summation loop adds the samples of its window to the accumulator. -/
theorem sum_from_window (a : List Int) : ∀ (n : Nat) (x : Nat) (acc : Int),
    x + n ≤ a.length → sum_from a n (x : Int) acc = some (acc + (window a x n).sum) := by
  intro n
  induction n with
  | zero =>
    intro x acc _
    simp [sum_from, window]
  | succ n ih =>
    intro x acc h
    have hx : x < a.length := by omega
    have hrd : rd a (x : Int) = some (a.get ⟨x, hx⟩) := by
      unfold rd
      rw [if_pos (by omega)]
      simp [List.getElem?_eq_getElem hx]
    rw [sum_from, hrd]
    dsimp only
    have e := ih (x + 1) (acc + a.get ⟨x, hx⟩) (by omega)
    rw [show ((x : Int) + 1) = ((x + 1 : Nat) : Int) by push_cast; rfl, e]
    have hw : window a x (n + 1) = a.get ⟨x, hx⟩ :: window a (x + 1) n := by
      unfold window
      rw [List.drop_eq_getElem_cons hx, List.take_succ_cons]
      simp
    rw [hw, List.sum_cons, add_assoc]

/-- A summation loop that returns stays inside the buffer. -/
theorem sum_from_bound (a : List Int) : ∀ (n : Nat) (x : Nat) (acc v : Int),
    sum_from a n (x : Int) acc = some v → n = 0 ∨ x + n ≤ a.length := by
  intro n
  induction n with
  | zero => intro x acc v _; left; rfl
  | succ n ih =>
    intro x acc v h
    right
    rw [sum_from] at h
    split at h
    · exact absurd h (by simp)
    · rename_i w hw
      have b := (rd_eq_some hw).2.1
      have hx : x < a.length := by simpa using b
      have e := ih (x + 1) (acc + w) v
        (by rw [show (((x + 1 : Nat) : Int)) = (x : Int) + 1 by push_cast; rfl]; exact h)
      omega

/-- With an hsync window of at least 3 samples that fits the line buffer, the sync tip is the
truncated mean of the samples `iline[1], ..., iline[hsync_width - 2]`. -/
theorem sync_tip_window (s : _usbtv_t) (h3 : 3 ≤ s.hsync_width)
    (hlen : s.hsync_width - 1 ≤ s.iline.length) :
    sync_tip s = some (mean_of (window s.iline 1 (s.hsync_width - 2).toNat)) ∧
    ((window s.iline 1 (s.hsync_width - 2).toNat).length : Int) = s.hsync_width - 2 := by
  obtain ⟨k, hk⟩ : ∃ k : Nat, s.hsync_width = (k : Int) + 3 :=
    ⟨(s.hsync_width - 3).toNat, by omega⟩
  have hl : k + 2 ≤ s.iline.length := by omega
  have e1 : (s.hsync_width - 1 - 2).toNat = k := by omega
  have e2 : (s.hsync_width - 2).toNat = k + 1 := by omega
  have wl : (window s.iline 1 (k + 1)).length = k + 1 := by
    unfold window
    rw [List.length_take, List.length_drop]
    omega
  have hs := sum_from_window s.iline (k + 1) 1 0 (by omega)
  rw [sum_from] at hs
  unfold sync_tip
  rw [e1, e2]
  split at hs
  · exact absurd hs (by simp)
  · rename_i r1 hr1
    rw [show ((1 : Nat) : Int) = 1 from rfl] at hr1
    rw [hr1]
    dsimp only
    rw [show ((1 : Nat) : Int) + 1 = 2 from rfl] at hs
    have hs2 := sum_from_window s.iline k 2 (0 + r1) (by omega)
    rw [show ((2 : Nat) : Int) = 2 from rfl] at hs2
    rw [hs2] at hs
    simp only [Option.some.injEq] at hs
    have hs3 := sum_from_window s.iline k 2 r1 (by omega)
    rw [show ((2 : Nat) : Int) = 2 from rfl] at hs3
    rw [hs3]
    dsimp only
    rw [if_neg (by omega)]
    constructor
    · unfold mean_of
      have hs4 : r1 + (window s.iline 2 k).sum = (window s.iline 1 (k + 1)).sum := by omega
      have hd : s.hsync_width - 2 = ((k + 1 : Nat) : Int) := by
        rw [hk]
        push_cast
        omega
      rw [wl, hs4, hd]
    · rw [wl, hk]
      push_cast
      omega

/-! ## The hsync search -/

/-- One iteration of the hsync search. -/
theorem hsync_loop_unfold {s : _usbtv_t} {x old v : Int} {win : List Int}
    (h1 : rd s.hsyncwin s.hsyncwin_x = some old) (h2 : rd s.iline x = some v)
    (h3 : wr s.hsyncwin s.hsyncwin_x v = some win) (n : Nat) (mx ref : Int) :
    hsync_loop (n + 1) x mx ref s =
      if s.hsync - old + v < ref then
        hsync_loop n (x + 1) x (s.hsync - old + v) (hsync_next s old v win)
      else hsync_loop n (x + 1) mx ref (hsync_next s old v win) := by
  rw [hsync_loop, h1, h2]
  simp only [h3]
  rfl

/-- An iteration that returns has read the window and the line and stored the sample. -/
theorem hsync_loop_reads {n : Nat} {x mx ref : Int} {s : _usbtv_t} {mx' : Int}
    {s' : _usbtv_t} (h : hsync_loop (n + 1) x mx ref s = some (mx', s')) :
    ∃ old v win, rd s.hsyncwin s.hsyncwin_x = some old ∧ rd s.iline x = some v ∧
      wr s.hsyncwin s.hsyncwin_x v = some win := by
  rw [hsync_loop] at h
  split at h
  · rename_i old v hold hv
    split at h
    · exact absurd h (by simp)
    · rename_i win hwin
      exact ⟨old, v, win, hold, hv, hwin⟩
  · exact absurd h (by simp)

/-- The state that the search leaves does not depend on the tracked minimum. -/
theorem hsync_loop_state : ∀ (n : Nat) (x mx ref : Int) (s : _usbtv_t),
    (hsync_loop n x mx ref s).map Prod.snd = hsync_after s x n := by
  intro n
  induction n with
  | zero =>
    intro x mx ref s
    simp [hsync_after, hsync_loop]
  | succ n ih =>
    intro x mx ref s
    unfold hsync_after
    cases h1 : rd s.hsyncwin s.hsyncwin_x with
    | none => simp [hsync_loop, h1]
    | some old =>
      cases h2 : rd s.iline x with
      | none => simp [hsync_loop, h1, h2]
      | some v =>
        cases h3 : wr s.hsyncwin s.hsyncwin_x v with
        | none => simp [hsync_loop, h1, h2, h3]
        | some win =>
          rw [hsync_loop_unfold h1 h2 h3, hsync_loop_unfold h1 h2 h3]
          split_ifs <;> simp only [ih]

theorem hsync_after_succ {s : _usbtv_t} {x old v : Int} {win : List Int}
    (h1 : rd s.hsyncwin s.hsyncwin_x = some old) (h2 : rd s.iline x = some v)
    (h3 : wr s.hsyncwin s.hsyncwin_x v = some win) (n : Nat) :
    hsync_after s x (n + 1) = hsync_after (hsync_next s old v win) (x + 1) n := by
  unfold hsync_after
  rw [hsync_loop_unfold h1 h2 h3]
  split_ifs
  · rw [hsync_loop_state]
    rfl
  · rfl

theorem running_sum_zero {s : _usbtv_t} {x old v : Int} {win : List Int}
    (h1 : rd s.hsyncwin s.hsyncwin_x = some old) (h2 : rd s.iline x = some v)
    (h3 : wr s.hsyncwin s.hsyncwin_x v = some win) :
    running_sum s x 0 = s.hsync - old + v := by
  unfold running_sum
  rw [hsync_after_succ h1 h2 h3]
  rfl

theorem running_sum_succ {s : _usbtv_t} {x old v : Int} {win : List Int}
    (h1 : rd s.hsyncwin s.hsyncwin_x = some old) (h2 : rd s.iline x = some v)
    (h3 : wr s.hsyncwin s.hsyncwin_x v = some win) (j : Nat) :
    running_sum s x (j + 1) = running_sum (hsync_next s old v win) (x + 1) j := by
  unfold running_sum
  rw [hsync_after_succ h1 h2 h3]

/-- The search returns the first index at which the running sum takes its minimum, when that
minimum is below the reference it was entered with, and the index it was entered with
otherwise. -/
theorem hsync_loop_min : ∀ (n : Nat) (x mx ref : Int) (s : _usbtv_t) (mx' : Int)
    (s' : _usbtv_t), hsync_loop n x mx ref s = some (mx', s') →
    (mx' = mx ∧ ∀ j, j < n → ref ≤ running_sum s x j) ∨
    (∃ j, j < n ∧ mx' = x + j ∧ running_sum s x j < ref ∧
      (∀ i, i < n → running_sum s x j ≤ running_sum s x i) ∧
      (∀ i, i < j → running_sum s x j < running_sum s x i)) := by
  intro n
  induction n with
  | zero =>
    intro x mx ref s mx' s' h
    simp only [hsync_loop, Option.some.injEq, Prod.mk.injEq] at h
    left
    exact ⟨h.1.symm, fun j hj => absurd hj (by omega)⟩
  | succ n ih =>
    intro x mx ref s mx' s' h
    obtain ⟨old, v, win, h1, h2, h3⟩ := hsync_loop_reads h
    rw [hsync_loop_unfold h1 h2 h3] at h
    have r0 := running_sum_zero h1 h2 h3
    have rS := running_sum_succ h1 h2 h3
    split at h
    · rename_i hlt
      rcases ih _ _ _ _ _ _ h with ⟨e, hall⟩ | ⟨j, hj, e, hlow, hmin, hfirst⟩
      · right
        refine ⟨0, by omega, by rw [e]; simp, by rw [r0]; exact hlt, ?_, ?_⟩
        · intro i hi
          cases i with
          | zero => exact le_refl _
          | succ i =>
            rw [rS i, r0]
            exact hall i (by omega)
        · intro i hi
          exact absurd hi (by omega)
      · right
        refine ⟨j + 1, by omega, by rw [e]; push_cast; ring, ?_, ?_, ?_⟩
        · rw [rS j]
          omega
        · intro i hi
          cases i with
          | zero =>
            rw [rS j, r0]
            omega
          | succ i =>
            rw [rS j, rS i]
            exact hmin i (by omega)
        · intro i hi
          cases i with
          | zero =>
            rw [rS j, r0]
            exact hlow
          | succ i =>
            rw [rS j, rS i]
            exact hfirst i (by omega)
    · rename_i hge
      rcases ih _ _ _ _ _ _ h with ⟨e, hall⟩ | ⟨j, hj, e, hlow, hmin, hfirst⟩
      · left
        refine ⟨e, ?_⟩
        intro i hi
        cases i with
        | zero =>
          rw [r0]
          omega
        | succ i =>
          rw [rS i]
          exact hall i (by omega)
      · right
        refine ⟨j + 1, by omega, by rw [e]; push_cast; ring, ?_, ?_, ?_⟩
        · rw [rS j]
          exact hlow
        · intro i hi
          cases i with
          | zero =>
            rw [rS j, r0]
            omega
          | succ i =>
            rw [rS j, rS i]
            exact hmin i (by omega)
        · intro i hi
          cases i with
          | zero =>
            rw [rS j, r0]
            omega
          | succ i =>
            rw [rS j, rS i]
            exact hfirst i (by omega)

/-- Storing a sample at the window index and advancing the index drops the oldest entry of
the window and appends the sample as its newest. -/
theorem rot_step (w : List Int) (p : Nat) (hp : p < w.length) (v : Int) :
    (w.set p v).drop (if p + 1 = w.length then 0 else p + 1) ++
      (w.set p v).take (if p + 1 = w.length then 0 else p + 1) =
    (w.drop p ++ w.take p).drop 1 ++ [v] := by
  have hd : (w.drop p ++ w.take p).drop 1 = w.drop (p + 1) ++ w.take p := by
    rw [List.drop_append_of_le_length (by rw [List.length_drop]; omega), List.drop_drop]
  rw [hd]
  by_cases hlast : p + 1 = w.length
  · rw [if_pos hlast]
    have e1 : w.drop (p + 1) = [] := List.drop_eq_nil_of_le (by omega)
    have e2 : (w.set p v).take (p + 1) = w.take p ++ [v] := take_set_succ w p v hp
    have e3 : (w.set p v).take (p + 1) = w.set p v :=
      List.take_of_length_le (by rw [List.length_set]; omega)
    rw [e1, List.drop_zero, List.take_zero, List.append_nil, List.nil_append, ← e3, e2]
  · rw [if_neg hlast, drop_set_succ w p (p + 1) v (by omega), take_set_succ w p v hp,
      List.append_assoc]

theorem window_order_length (s : _usbtv_t) (h0 : 0 ≤ s.hsyncwin_x)
    (h1 : s.hsyncwin_x ≤ s.hsyncwin.length) :
    (window_order s).length = s.hsyncwin.length := by
  unfold window_order
  rw [List.length_append, List.length_drop, List.length_take]
  omega

theorem window_order_sum (s : _usbtv_t) : (window_order s).sum = s.hsyncwin.sum := by
  unfold window_order
  rw [List.sum_append, add_comm, List.sum_take_add_sum_drop]

/-- One iteration of the search drops the oldest entry of the window and appends the sample
of the line. -/
theorem window_order_next {s : _usbtv_t} (old : Int) {v : Int} {win : List Int}
    (h3 : wr s.hsyncwin s.hsyncwin_x v = some win)
    (hlen : (s.hsyncwin.length : Int) = s.hsync_width) :
    window_order (hsync_next s old v win) = (window_order s).drop 1 ++ [v] ∧
    ((hsync_next s old v win).hsyncwin.length : Int) = (hsync_next s old v win).hsync_width ∧
    0 ≤ (hsync_next s old v win).hsyncwin_x ∧
    (hsync_next s old v win).hsyncwin_x < (hsync_next s old v win).hsync_width := by
  obtain ⟨h0, hlt, e⟩ := wr_eq_some h3
  have hp : s.hsyncwin_x.toNat < s.hsyncwin.length := by omega
  have k := rot_step s.hsyncwin s.hsyncwin_x.toNat hp v
  have hx : (if s.hsyncwin_x + 1 = s.hsync_width then (0 : Int) else s.hsyncwin_x + 1).toNat =
      (if s.hsyncwin_x.toNat + 1 = s.hsyncwin.length then 0 else s.hsyncwin_x.toNat + 1) := by
    split_ifs <;> omega
  refine ⟨?_, ?_, ?_, ?_⟩
  · unfold window_order hsync_next
    dsimp only
    rw [hx, e]
    exact k
  · show ((win.length : Nat) : Int) = s.hsync_width
    rw [e, List.length_set]
    exact hlen
  · show (0 : Int) ≤ if s.hsyncwin_x + 1 = s.hsync_width then 0 else s.hsyncwin_x + 1
    split_ifs <;> omega
  · show (if s.hsyncwin_x + 1 = s.hsync_width then (0 : Int) else s.hsyncwin_x + 1)
      < s.hsync_width
    split_ifs <;> omega

/-- After `n` iterations from index `x` the window, read from its oldest entry, is what is
left of the old window followed by the samples `iline[x], ..., iline[x + n - 1]` when the
first `n` entries are dropped. -/
theorem hsync_loop_window : ∀ (n x : Nat) (mx ref : Int) (s : _usbtv_t) (mx' : Int)
    (s' : _usbtv_t), hsync_loop n (x : Int) mx ref s = some (mx', s') →
    (s.hsyncwin.length : Int) = s.hsync_width → 0 ≤ s.hsyncwin_x →
    window_order s' = (window_order s ++ window s.iline x n).drop n ∧
    (n = 0 ∨ x + n ≤ s.iline.length) := by
  intro n
  induction n with
  | zero =>
    intro x mx ref s mx' s' h _ _
    simp only [hsync_loop, Option.some.injEq, Prod.mk.injEq] at h
    rw [← h.2]
    simp [window]
  | succ n ih =>
    intro x mx ref s mx' s' h hlen h0
    obtain ⟨old, v, win, h1, h2, h3⟩ := hsync_loop_reads h
    rw [hsync_loop_unfold h1 h2 h3] at h
    obtain ⟨k1, k2, k3, _⟩ := window_order_next old h3 hlen
    have hlt := (wr_eq_some h3).2.1
    have hx1 : ((x : Int) + 1) = ((x + 1 : Nat) : Int) := by push_cast; rfl
    obtain ⟨b0, b1, b2⟩ := rd_eq_some h2
    have hxl : x < s.iline.length := by
      have : ((x : Int)).toNat < s.iline.length := b1
      simpa using this
    have hv : s.iline.get ⟨x, hxl⟩ = v := by
      have t := b2
      simp only [Int.toNat_ofNat] at t
      rw [List.getElem?_eq_getElem hxl] at t
      simpa using t
    have hw : window s.iline x (n + 1) = v :: window s.iline (x + 1) n := by
      unfold window
      rw [List.drop_eq_getElem_cons hxl, List.take_succ_cons]
      simp only [List.get_eq_getElem] at hv
      rw [hv]
    have hne : 1 ≤ (window_order s).length := by
      rw [window_order_length s h0 (by omega)]
      omega
    have step : ∀ (m r : Int), hsync_loop n ((x : Int) + 1) m r (hsync_next s old v win) =
        some (mx', s') →
        window_order s' = (window_order s ++ window s.iline x (n + 1)).drop (n + 1) ∧
        (n + 1 = 0 ∨ x + (n + 1) ≤ s.iline.length) := by
      intro m r hh
      rw [hx1] at hh
      obtain ⟨q1, q2⟩ := ih (x + 1) m r _ _ _ hh k2 k3
      refine ⟨?_, ?_⟩
      · rw [q1, k1, hw]
        show ((window_order s).drop 1 ++ [v] ++ window s.iline (x + 1) n).drop n = _
        rw [show n + 1 = 1 + n by omega, ← List.drop_drop,
          List.drop_append_of_le_length hne, List.append_assoc]
        rfl
      · right
        have : (hsync_next s old v win).iline = s.iline := rfl
        rw [this] at q2
        omega
    split at h
    · exact step _ _ h
    · exact step _ _ h

/-- The entries that are left when a window of `A.length` entries is followed by the first
`m` samples of a line and `m ≥ A.length` entries are dropped are the last `A.length` of
these samples. -/
theorem drop_window (A a : List Int) (m : Nat) (hA : A.length ≤ m) :
    (A ++ window a 0 m).drop m = window a (m - A.length) A.length := by
  rw [List.drop_append_eq_append_drop, List.drop_eq_nil_of_le hA, List.nil_append]
  unfold window
  rw [List.drop_zero, List.drop_take]
  congr 1
  omega

/-- The search returns when the window has `hsync_width` entries, the window index is inside
the window and the samples it pushes are inside the line buffer. -/
theorem hsync_loop_returns : ∀ (n x : Nat) (mx ref : Int) (s : _usbtv_t),
    (s.hsyncwin.length : Int) = s.hsync_width → 0 ≤ s.hsyncwin_x →
    s.hsyncwin_x < s.hsync_width → x + n ≤ s.iline.length →
    ∃ mx' s', hsync_loop n (x : Int) mx ref s = some (mx', s') := by
  intro n
  induction n with
  | zero =>
    intro x mx ref s _ _ _ _
    exact ⟨mx, s, rfl⟩
  | succ n ih =>
    intro x mx ref s hlen h0 h1 hx
    obtain ⟨old, hold⟩ := rd_of_lt s.hsyncwin s.hsyncwin_x h0 (by omega)
    obtain ⟨v, hv⟩ := rd_of_lt s.iline (x : Int) (by omega) (by omega)
    have hwr := wr_of_lt s.hsyncwin s.hsyncwin_x v h0 (by omega)
    obtain ⟨_, k2, k3, k4⟩ := window_order_next old hwr hlen
    rw [hsync_loop_unfold hold hv hwr]
    have hx1 : ((x : Int) + 1) = ((x + 1 : Nat) : Int) := by push_cast; rfl
    rw [hx1]
    split
    · exact ih (x + 1) _ _ _ k2 k3 k4 (by
        show x + 1 + n ≤ s.iline.length
        omega)
    · exact ih (x + 1) _ _ _ k2 k3 k4 (by
        show x + 1 + n ≤ s.iline.length
        omega)

/-- Once the search has pushed `hsync_width` samples or more, the running sum is the sum of
the last `hsync_width` samples pushed. -/
theorem running_sum_window (s : _usbtv_t) (x : Nat)
    (hlen : (s.hsyncwin.length : Int) = s.hsync_width) (h0 : 0 ≤ s.hsyncwin_x)
    (h1 : s.hsyncwin_x < s.hsync_width) (hsum : s.hsync = s.hsyncwin.sum)
    (hx : s.hsync_width ≤ x + 1) (hl : x + 1 ≤ s.iline.length) :
    running_sum s 0 x =
      (window s.iline (x + 1 - s.hsync_width.toNat) s.hsync_width.toNat).sum := by
  obtain ⟨mx', t, ht⟩ := hsync_loop_returns (x + 1) 0 0 0 s hlen h0 h1 (by omega)
  have hw := (hsync_loop_window (x + 1) 0 0 0 s mx' t ht hlen h0).1
  have hs := (hsync_loop_sum (x + 1) _ _ _ s mx' t ht h0 h1 hsum).2.2
  have hA : (window_order s).length = s.hsync_width.toNat := by
    rw [window_order_length s h0 (by omega)]
    omega
  have ha : hsync_after s 0 (x + 1) = some t := by
    unfold hsync_after
    have e : hsync_loop (x + 1) 0 0 0 s = some (mx', t) := ht
    rw [e]
    rfl
  unfold running_sum
  rw [ha]
  dsimp only
  rw [hs, ← window_order_sum, hw, drop_window _ _ _ (by omega), hA]

/-! ## The sample windows that `_usbtv_init` computes -/

/-- The rounded value is within one half of the exact value, for the three denominators
that `_usbtv_init` uses. -/
theorem fp_round_near (up : Bool) (n : Nat) :
    (20000000 * fp_round up n 10000000 ≤ 2 * (n : Int) + 10000000 ∧
     2 * (n : Int) ≤ 20000000 * fp_round up n 10000000 + 10000000) ∧
    (31500000 * fp_round up n 15750000 ≤ 2 * (n : Int) + 15750000 ∧
     2 * (n : Int) ≤ 31500000 * fp_round up n 15750000 + 15750000) ∧
    (6400 * fp_round up n 3200 ≤ 2 * (n : Int) + 3200 ∧
     2 * (n : Int) ≤ 6400 * fp_round up n 3200 + 3200) := by
  unfold fp_round
  refine ⟨?_, ?_, ?_⟩
  · split_ifs <;> omega
  · split_ifs <;> omega
  · split_ifs <;> omega

/-- The value of `ceil` is at least the exact value and at most one above it. -/
theorem fp_ceil_near (up : Bool) (n : Nat) :
    10000000 * fp_ceil up n 10000000 ≤ (n : Int) + 10000000 ∧
    (n : Int) ≤ 10000000 * fp_ceil up n 10000000 := by
  unfold fp_ceil
  split_ifs <;> omega

theorem line_denominators : (525 * 30000 : Nat) = 15750000 ∧ (320 * 10 : Nat) = 3200 := by
  constructor <;> norm_num

/-- Only whether `colour` is zero matters to `_usbtv_init`. -/
theorem init_colour_one (tie : Nat → Bool) (junk : Nat → Int) (junk_fb : Nat → Nat)
    (sample_rate : Nat) (colour : Int) (hc : colour ≠ 0) :
    _usbtv_init tie junk junk_fb sample_rate colour =
      _usbtv_init tie junk junk_fb sample_rate 1 := by
  unfold _usbtv_init
  rw [if_pos hc, if_pos (show (1 : Int) ≠ 0 by decide)]

/-- The sample counts of the mono mode. -/
theorem init_mono (tie : Nat → Bool) (junk : Nat → Int) (junk_fb : Nat → Nat)
    (sample_rate : Nat) :
    (_usbtv_init tie junk junk_fb sample_rate 0).colour = 0 ∧
    (_usbtv_init tie junk junk_fb sample_rate 0).width =
      fp_round (tie 6) sample_rate 3200 ∧
    (_usbtv_init tie junk junk_fb sample_rate 0).vsync_width =
      fp_round (tie 1) (sample_rate * 2675) 10000000 ∧
    (_usbtv_init tie junk junk_fb sample_rate 0).active_left =
      fp_round (tie 2) (sample_rate * 250) 10000000 ∧
    (_usbtv_init tie junk junk_fb sample_rate 0).active_width =
      (if fp_ceil (tie 3) (sample_rate * 2825) 10000000 > fp_round (tie 6) sample_rate 3200
       then fp_round (tie 6) sample_rate 3200
       else fp_ceil (tie 3) (sample_rate * 2825) 10000000) := by
  have hcol : ¬ (if (0 : Int) ≠ 0 then (1 : Int) else 0) ≠ 0 := by decide
  unfold _usbtv_init
  dsimp only
  simp only [if_neg hcol, line_denominators.2]
  refine ⟨?_, ?_, ?_, ?_, ?_⟩ <;> trivial

/-- The sample counts of the colour mode. -/
theorem init_colour (tie : Nat → Bool) (junk : Nat → Int) (junk_fb : Nat → Nat)
    (sample_rate : Nat) :
    (_usbtv_init tie junk junk_fb sample_rate 1).colour = 1 ∧
    (_usbtv_init tie junk junk_fb sample_rate 1).width =
      fp_round (tie 6) (sample_rate * 1001) 15750000 ∧
    (_usbtv_init tie junk junk_fb sample_rate 1).vsync_width =
      fp_round (tie 1) (sample_rate * 271) 10000000 ∧
    (_usbtv_init tie junk junk_fb sample_rate 1).active_left =
      fp_round (tie 2) (sample_rate * 92) 10000000 ∧
    (_usbtv_init tie junk junk_fb sample_rate 1).active_width =
      (if fp_ceil (tie 3) (sample_rate * 529) 10000000 >
          fp_round (tie 6) (sample_rate * 1001) 15750000
       then fp_round (tie 6) (sample_rate * 1001) 15750000
       else fp_ceil (tie 3) (sample_rate * 529) 10000000) ∧
    (_usbtv_init tie junk junk_fb sample_rate 1).fsc_left =
      fp_round (tie 4) (sample_rate * 147) 10000000 ∧
    (_usbtv_init tie junk junk_fb sample_rate 1).fsc_width =
      fp_round (tie 5) (sample_rate * 200) 10000000 := by
  have hcol : (if (1 : Int) ≠ 0 then (1 : Int) else 0) ≠ 0 := by decide
  unfold _usbtv_init
  dsimp only
  simp only [if_pos hcol, line_denominators.1]
  refine ⟨?_, ?_, ?_, ?_, ?_, ?_, ?_⟩ <;> trivial

/-- For every sample rate and in both modes the vsync window is not longer than a line, and
in colour mode the mid-line vsync window and the burst window end inside the line. -/
theorem init_windows_fit (tie : Nat → Bool) (junk : Nat → Int) (junk_fb : Nat → Nat)
    (sample_rate : Nat) (colour : Int) :
    (_usbtv_init tie junk junk_fb sample_rate colour).vsync_width ≤
      (_usbtv_init tie junk junk_fb sample_rate colour).width ∧
    ((_usbtv_init tie junk junk_fb sample_rate colour).colour ≠ 0 →
      (_usbtv_init tie junk junk_fb sample_rate colour).width.tdiv 2 +
        (_usbtv_init tie junk junk_fb sample_rate colour).vsync_width ≤
        (_usbtv_init tie junk junk_fb sample_rate colour).width ∧
      (_usbtv_init tie junk junk_fb sample_rate colour).fsc_left +
        (_usbtv_init tie junk junk_fb sample_rate colour).fsc_width ≤
        (_usbtv_init tie junk junk_fb sample_rate colour).width) := by
  by_cases hc : colour = 0
  · subst hc
    obtain ⟨e0, eW, eV, _, _⟩ := init_mono tie junk junk_fb sample_rate
    rw [e0, eW, eV]
    refine ⟨?_, fun h => absurd rfl h⟩
    have bW := (fp_round_near (tie 6) sample_rate).2.2
    have bV := (fp_round_near (tie 1) (sample_rate * 2675)).1
    generalize fp_round (tie 6) sample_rate 3200 = W at bW ⊢
    generalize fp_round (tie 1) (sample_rate * 2675) 10000000 = V at bV ⊢
    push_cast at bV
    have hW : 0 ≤ W := by omega
    by_contra hn
    have h1 : (sample_rate : Int) < 1 := by linarith
    have h2 : V < 1 := by linarith
    omega
  · rw [init_colour_one tie junk junk_fb sample_rate colour hc]
    obtain ⟨_, eW, eV, _, _, eL, eF⟩ := init_colour tie junk junk_fb sample_rate
    rw [eW, eV, eL, eF]
    have bW := (fp_round_near (tie 6) (sample_rate * 1001)).2.1
    have bV := (fp_round_near (tie 1) (sample_rate * 271)).1
    have bL := (fp_round_near (tie 4) (sample_rate * 147)).1
    have bF := (fp_round_near (tie 5) (sample_rate * 200)).1
    generalize fp_round (tie 6) (sample_rate * 1001) 15750000 = W at bW ⊢
    generalize fp_round (tie 1) (sample_rate * 271) 10000000 = V at bV ⊢
    generalize fp_round (tie 4) (sample_rate * 147) 10000000 = L at bL ⊢
    generalize fp_round (tie 5) (sample_rate * 200) 10000000 = F at bF ⊢
    push_cast at bW bV bL bF
    have hs : (0 : Int) ≤ sample_rate := Int.ofNat_nonneg _
    generalize (sample_rate : Int) = a at bW bV bL bF hs
    have hW : 0 ≤ W := by omega
    have hmid : W / 2 + V ≤ W := by
      have hh : 2 * (W / 2) ≤ W := by omega
      generalize W / 2 = h at hh ⊢
      by_contra hn
      linarith
    refine ⟨?_, fun _ => ⟨?_, ?_⟩⟩
    · have hh : 0 ≤ W / 2 := by omega
      omega
    · rw [Int.tdiv_eq_ediv hW (by decide)]
      exact hmid
    · by_contra hn
      have h1 : W < 1 := by linarith
      have h2 : W = 0 := by omega
      subst h2
      have h3 : L < 1 := by linarith
      have h4 : F < 1 := by linarith
      omega

/-- The active window ends inside the line when the sample rate is at least 400 000 samples
per second in mono mode and at least 1 400 000 samples per second in colour mode. -/
theorem init_active_fit (tie : Nat → Bool) (junk : Nat → Int) (junk_fb : Nat → Nat)
    (sample_rate : Nat) (colour : Int)
    (hrate : (colour = 0 ∧ 400000 ≤ sample_rate) ∨ (colour ≠ 0 ∧ 1400000 ≤ sample_rate)) :
    (_usbtv_init tie junk junk_fb sample_rate colour).active_left +
      (_usbtv_init tie junk junk_fb sample_rate colour).active_width ≤
      (_usbtv_init tie junk junk_fb sample_rate colour).width := by
  rcases hrate with ⟨hc, hr⟩ | ⟨hc, hr⟩
  · subst hc
    obtain ⟨_, eW, _, eL, eA⟩ := init_mono tie junk junk_fb sample_rate
    rw [eW, eL, eA]
    have bW := (fp_round_near (tie 6) sample_rate).2.2
    have bL := (fp_round_near (tie 2) (sample_rate * 250)).1
    have bA := fp_ceil_near (tie 3) (sample_rate * 2825)
    generalize fp_round (tie 6) sample_rate 3200 = W at bW ⊢
    generalize fp_round (tie 2) (sample_rate * 250) 10000000 = L at bL ⊢
    generalize fp_ceil (tie 3) (sample_rate * 2825) 10000000 = A at bA ⊢
    push_cast at bL bA
    have hs : (400000 : Int) ≤ sample_rate := by exact_mod_cast hr
    generalize (sample_rate : Int) = a at bW bL bA hs
    have key : L + A ≤ W := by linarith
    split_ifs <;> omega
  · rw [init_colour_one tie junk junk_fb sample_rate colour hc]
    obtain ⟨_, eW, _, eL, eA, _, _⟩ := init_colour tie junk junk_fb sample_rate
    rw [eW, eL, eA]
    have bW := (fp_round_near (tie 6) (sample_rate * 1001)).2.1
    have bL := (fp_round_near (tie 2) (sample_rate * 92)).1
    have bA := fp_ceil_near (tie 3) (sample_rate * 529)
    generalize fp_round (tie 6) (sample_rate * 1001) 15750000 = W at bW ⊢
    generalize fp_round (tie 2) (sample_rate * 92) 10000000 = L at bL ⊢
    generalize fp_ceil (tie 3) (sample_rate * 529) 10000000 = A at bA ⊢
    push_cast at bW bL bA
    have hs : (1400000 : Int) ≤ sample_rate := by exact_mod_cast hr
    generalize (sample_rate : Int) = a at bW bL bA hs
    have key : L + A ≤ W := by linarith
    split_ifs <;> omega

/-- C1 (phase correction sign).  Let `s0` be the state in which the per-line processing of a
completed read begins, `mx` the index found by its hsync search and `d = mx - hsync_width`.
With `width / 2` the C expression `s->width / 2`: if `0 < d < width / 2` the read leaves
`hsync_offset` one above its value in `s0`, if `-width / 2 < d < 0` one below, and if `d = 0`
unchanged.  The line buffer has `width` entries, as allocated by `_usbtv_init`. -/
theorem phase_correction_sign (s s0 s1 s' : _usbtv_t) (mx r : Int)
    (halloc : (s0.iline.length : Int) = s0.width)
    (hfill : fill_line (fill_fuel s) s = some (true, s0))
    (hscan : hsync_scan s0 = some (mx, s1))
    (hread : _usbtv_read s = some (r, s')) :
    (0 < mx - s0.hsync_width ∧ mx - s0.hsync_width < s0.width.tdiv 2 →
      s'.hsync_offset = s0.hsync_offset + 1) ∧
    ((-s0.width).tdiv 2 < mx - s0.hsync_width ∧ mx - s0.hsync_width < 0 →
      s'.hsync_offset = s0.hsync_offset - 1) ∧
    (mx - s0.hsync_width = 0 → s'.hsync_offset = s0.hsync_offset) := by
  have hp : process_line s0 = some (r, s') := by
    unfold _usbtv_read at hread
    rw [hfill] at hread
    exact hread
  obtain ⟨e1, e2, e3, e4, e5⟩ := process_line_offset hscan hp
  have hw : 2 ≤ s0.width := by omega
  have hW : 1 ≤ s0.width.tdiv 2 := by
    rw [Int.tdiv_eq_ediv (by omega) (by omega)]
    omega
  have hN : (-s0.width).tdiv 2 = -(s0.width.tdiv 2) := Int.neg_tdiv _ _
  rw [e1, hsync_adjust_offset, e3, e4, e5]
  unfold hsync_delta
  dsimp only
  rw [hN]
  generalize s0.width.tdiv 2 = W at hW
  refine ⟨?_, ?_, ?_⟩
  · intro hd
    split_ifs <;> omega
  · intro hd
    split_ifs <;> omega
  · intro hd
    split_ifs <;> omega


/-- Instance of C1: a sync tip found two samples late advances `hsync_offset` by one. -/
theorem phase_correction_sign_witness :
    (0 < (5 : Int) - (filled late_sync).hsync_width ∧
      (5 : Int) - (filled late_sync).hsync_width < (filled late_sync).width.tdiv 2) ∧
    (after_read late_sync).hsync_offset = (filled late_sync).hsync_offset + 1 :=
  ⟨by decide,
    (phase_correction_sign late_sync (filled late_sync) (scanned (filled late_sync))
      (after_read late_sync) 5 0 (by decide) (by rfl) (by rfl) (by rfl)).1 (by decide)⟩

/-- C2 (line accumulator).  In a state with `iline_len = 0`, `hsync_offset = k` for `k` in
`{-1, 0, 1}` and `width = W >= 2` (the line buffer holding `W` entries), a read with at least
`W + k` pending samples completes the line: the accumulator finishes with `iline_len = 0` and
no correction pending after consuming exactly `W + k` samples, the read is the per-line
processing of that one line, so its status is `0` or `1`, and the line is the `W` samples fed
(`k = 0`), the `W` samples after the discarded first one (`k = 1`), or the old `iline[0]`
followed by the `W - 1` samples consumed (`k = -1`).  When the state is well-formed (`Ready`)
the read does return.  With fewer pending samples the read returns `2` and leaves `line`,
`frame` and the framebuffer unchanged. -/
theorem line_accumulator (s : _usbtv_t) (k : Int) (W : Nat)
    (hk : k = -1 ∨ k = 0 ∨ k = 1) (hlen : s.iline_len = 0) (hoff : s.hsync_offset = k)
    (hw : s.width = (W : Int)) (hW : 2 ≤ W) (halloc : s.iline.length = W) :
    ((W : Int) + k ≤ s.inp.length →
      ∃ s0, fill_line (fill_fuel s) s = some (true, s0) ∧ _usbtv_read s = process_line s0 ∧
        s0.iline_len = 0 ∧ s0.hsync_offset = 0 ∧ s0.inp = s.inp.drop ((W : Int) + k).toNat ∧
        (k = 0 → s0.iline = s.inp.take W) ∧
        (k = 1 → s0.iline = (s.inp.drop 1).take W) ∧
        (k = -1 → s0.iline = s.iline.take 1 ++ s.inp.take (W - 1)) ∧
        (∀ r s', _usbtv_read s = some (r, s') →
          (r = 0 ∨ r = 1) ∧ s'.iline_len = 0 ∧ s'.inp = s0.inp ∧ s'.iline = s0.iline) ∧
        (Ready s → ∃ r s', _usbtv_read s = some (r, s') ∧ (r = 0 ∨ r = 1))) ∧
    ((s.inp.length : Int) < (W : Int) + k →
      ∃ s', _usbtv_read s = some (2, s') ∧ s'.line = s.line ∧ s'.frame = s.frame ∧
        s'.framebuffer = s.framebuffer) := by
  -- the result of the accumulator, by cases on `k`
  have key : ((W : Int) + k ≤ s.inp.length →
      ∃ s0, fill_line (fill_fuel s) s = some (true, s0) ∧
        s0.iline_len = 0 ∧ s0.hsync_offset = 0 ∧ s0.inp = s.inp.drop ((W : Int) + k).toNat ∧
        (k = 0 → s0.iline = s.inp.take W) ∧
        (k = 1 → s0.iline = (s.inp.drop 1).take W) ∧
        (k = -1 → s0.iline = s.iline.take 1 ++ s.inp.take (W - 1))) ∧
      ((s.inp.length : Int) < (W : Int) + k →
        ∃ s', fill_line (fill_fuel s) s = some (false, s')) := by
    rcases hk with rfl | rfl | rfl
    · -- `k = -1`: one slot is skipped, then `W - 1` samples are copied
      have step : fill_line (fill_fuel s) s =
          fill_line (s.inp.length + 1) { s with iline_len := 1, hsync_offset := 0 } := by
        unfold fill_fuel
        rw [hoff]
        show fill_line (s.inp.length + 1 + 1) s = _
        rw [fill_line, if_pos (by omega), if_pos (by omega), hlen, hoff]
        rfl
      rw [step, fill_line_copy s.inp (s.inp.length + 1)
        { s with iline_len := 1, hsync_offset := 0 } 1 W rfl rfl rfl hw halloc (by omega)
        (by omega)]
      constructor
      · intro hin
        rw [if_pos (by omega)]
        refine ⟨_, rfl, rfl, rfl, ?_, ?_, ?_, ?_⟩
        · show List.drop (W - 1) s.inp = _
          congr 1
          omega
        · intro h; omega
        · intro h; omega
        · intro _; rfl
      · intro hin
        rw [if_neg (by omega)]
        exact ⟨_, rfl⟩
    · -- `k = 0`: `W` samples are copied
      have step : fill_line (fill_fuel s) s = fill_line (s.inp.length + 1) s := by
        unfold fill_fuel
        rw [hoff]
        rfl
      rw [step, fill_line_copy s.inp (s.inp.length + 1) s 0 W rfl hoff hlen hw halloc (by omega)
        (by omega)]
      constructor
      · intro hin
        rw [if_pos (by omega)]
        refine ⟨_, rfl, rfl, hoff, ?_, ?_, ?_, ?_⟩
        · show List.drop (W - 0) s.inp = _
          congr 1
        · intro _
          show List.take 0 s.iline ++ List.take (W - 0) s.inp = _
          simp
        · intro h; omega
        · intro h; omega
      · intro hin
        rw [if_neg (by omega)]
        exact ⟨_, rfl⟩
    · -- `k = 1`: the first sample is stored and dropped again, then `W` samples are copied
      cases hl : s.inp with
      | nil =>
        constructor
        · intro hin
          simp at hin
          omega
        · intro _
          refine ⟨s, ?_⟩
          unfold fill_fuel
          rw [hoff, hl]
          show fill_line (0 + 1 + 1) s = _
          rw [fill_line, if_pos (by omega), if_neg (by omega), if_neg (by omega), hl]
      | cons v rest =>
        have step : fill_line (fill_fuel s) s =
            fill_line (rest.length + 1)
              { s with inp := rest, iline := s.iline.set 0 v, iline_len := 0,
                       hsync_offset := 0 } := by
          unfold fill_fuel
          rw [hoff, hl]
          show fill_line (rest.length + 1 + 1 + 1) s = _
          rw [fill_line, if_pos (by omega), if_neg (by omega), if_neg (by omega), hl]
          simp only
          rw [hlen, wr_of_lt s.iline 0 v (by omega) (by omega)]
          simp only
          rw [fill_line, if_pos (by simp; omega), if_neg (by simp [hoff]),
            if_pos (by simp [hoff])]
          simp [hoff]
        rw [step, fill_line_copy rest (rest.length + 1)
          { s with inp := rest, iline := s.iline.set 0 v, iline_len := 0, hsync_offset := 0 }
          0 W rfl rfl rfl hw (by simp [halloc]) (by omega) (by omega)]
        constructor
        · intro hin
          simp only [List.length_cons] at hin
          rw [if_pos (by omega)]
          refine ⟨_, rfl, rfl, rfl, ?_, ?_, ?_, ?_⟩
          · show List.drop (W - 0) rest = _
            have e : ((W : Int) + 1).toNat = W + 1 := by omega
            rw [e, List.drop_succ_cons]
            rfl
          · intro h; omega
          · intro _
            show List.take 0 (s.iline.set 0 v) ++ List.take (W - 0) rest = _
            simp
          · intro h; omega
        · intro hin
          simp only [List.length_cons] at hin
          rw [if_neg (by omega)]
          exact ⟨_, rfl⟩
  constructor
  · intro hin
    obtain ⟨s0, hfill, h1, h1', h2, h3, h4, h5⟩ := key.1 hin
    have hread : _usbtv_read s = process_line s0 := by
      unfold _usbtv_read
      rw [hfill]
    refine ⟨s0, hfill, hread, h1, h1', h2, h3, h4, h5, ?_, ?_⟩
    · intro r s' hr
      rw [hread] at hr
      have f := process_line_frame hr
      refine ⟨process_line_status hr, ?_, ?_, ?_⟩
      · have t := congrArg _usbtv_t.iline_len f
        exact t.trans h1
      · have t := congrArg _usbtv_t.inp f
        exact t
      · have t := congrArg _usbtv_t.iline f
        exact t
    · intro hR
      obtain ⟨r, s', hp, hr, _⟩ := process_line_total s0 (fill_line_ready hfill hR)
      exact ⟨r, s', by rw [hread]; exact hp, hr⟩
  · intro hin
    obtain ⟨s', hfill⟩ := key.2 hin
    have f := fill_line_frame _ _ _ _ hfill
    refine ⟨s', ?_, ?_, ?_, ?_⟩
    · unfold _usbtv_read
      rw [hfill]
    · have t := congrArg _usbtv_t.line f
      exact t
    · have t := congrArg _usbtv_t.frame f
      exact t
    · have t := congrArg _usbtv_t.framebuffer f
      exact t

/-- Instance of C2: the decoder `mono8` with a pending correction of `-1`, fed the seven
samples that complete its line, returns status `0`. -/
theorem line_accumulator_witness :
    ((7 : Nat) : Int) + (-1) ≤ (skip_one.inp.length : Int) ∧
    (filled skip_one).iline = skip_one.iline.take 1 ++ skip_one.inp.take (8 - 1) ∧
    _usbtv_read skip_one = process_line (filled skip_one) ∧
    (_usbtv_read skip_one).isSome = true :=
  have h := (line_accumulator skip_one (-1) 8 (by decide) (by rfl) (by rfl) (by rfl) (by decide)
    (by rfl)).1 (by decide)
  ⟨by decide,
    (by
      obtain ⟨s0, h0, _, _, _, _, _, _, h6, _⟩ := h
      have e : filled skip_one = s0 := by
        unfold filled
        rw [h0]
      rw [e]
      exact h6 rfl),
    (by
      obtain ⟨s0, h0, h1, _⟩ := h
      have e : filled skip_one = s0 := by
        unfold filled
        rw [h0]
      rw [e]
      exact h1),
    (by
      obtain ⟨s0, _, _, _, _, _, _, _, _, _, h8⟩ := h
      obtain ⟨r, s', hr, _⟩ := h8 (by decide)
      rw [hr]
      rfl)⟩

/-- C3 (vertical sync detection table).  In a read that completes a line, let `s3` be the
state in which the vsync scan is entered and `s4` the state it leaves, its register updated
and masked (16 bits in colour mode, 10 bits in mono mode).  In colour mode the line number is
set to 7 when the register equals 252 and to 269 when it equals 126; in mono mode it is set to
9 when the register equals 510; for every other register value the line number is the one the
read was entered with.  The read then leaves that line number advanced by one (or wrapped
to 1). -/
theorem vsync_detection_table (s s' : _usbtv_t) (r : Int)
    (hread : _usbtv_read s = some (r, s')) (hr : r ≠ 2) :
    ∃ s3 s4, vsync_scan s3 = some s4 ∧ s3.line = s.line ∧ s3.colour = s.colour ∧
      vsync_reg s3 = some s4.vsync ∧ s4.vsync = s'.vsync ∧ 0 ≤ s4.vsync ∧
      (s.colour ≠ 0 → s4.vsync < 65536 ∧
        (s4.vsync = 252 → s4.line = 7) ∧ (s4.vsync = 126 → s4.line = 269) ∧
        (s4.vsync ≠ 252 → s4.vsync ≠ 126 → s4.line = s.line)) ∧
      (s.colour = 0 → s4.vsync < 1024 ∧
        (s4.vsync = 510 → s4.line = 9) ∧ (s4.vsync ≠ 510 → s4.line = s.line)) ∧
      s'.line = (if s4.line + 1 > s.lines then 1 else s4.line + 1) := by
  obtain ⟨s0, mx, s1, s3, s4, s5, s6, h0, h1, h3, h4, h5, _, h6, h7, f3, f6⟩ :=
    read_stages hread hr
  have e1 : s3.line = s.line := by
    have t := congrArg _usbtv_t.line f3
    exact t
  have e2 : s3.colour = s.colour := by
    have t := congrArg _usbtv_t.colour f3
    exact t
  have e3 : s3.lines = s.lines := by
    have t := congrArg _usbtv_t.lines f3
    exact t
  have f4 := vsync_scan_frame h4
  have e4 : s4.lines = s3.lines := by
    have t := congrArg _usbtv_t.lines f4
    exact t
  have e5 : s6.line = s4.line := by
    have t := congrArg _usbtv_t.line f6
    exact t
  have e6 : s6.lines = s4.lines := by
    have t := congrArg _usbtv_t.lines f6
    exact t
  have e7 : s6.vsync = s4.vsync := by
    have t := congrArg _usbtv_t.vsync f6
    exact t
  have e8 : s' = (line_advance s6).2 := by rw [h7]
  have e9 : s'.vsync = s6.vsync := by
    have t := congrArg _usbtv_t.vsync (line_advance_frame s6)
    rw [← e8] at t
    exact t
  obtain ⟨g1, g2, _⟩ := vsync_scan_spec h4
  obtain ⟨r1, r2, r3⟩ := vsync_reg_range g1
  rw [e1, e2] at g2
  rw [e2] at r2 r3
  refine ⟨s3, s4, h4, e1, e2, g1, by rw [e9, e7], r1, ?_, ?_, ?_⟩
  · intro hc
    refine ⟨r2 hc, ?_, ?_, ?_⟩
    · intro hv
      rw [g2, hv]
      simp [vsync_match, hc]
    · intro hv
      rw [g2, hv]
      simp [vsync_match, hc]
    · intro hv1 hv2
      rw [g2]
      simp [vsync_match, hc, hv1, hv2]
  · intro hc
    refine ⟨r3 hc, ?_, ?_⟩
    · intro hv
      rw [g2, hv]
      simp [vsync_match, hc]
    · intro hv
      rw [g2]
      simp [vsync_match, hc, hv]
  · rw [e8]
    unfold line_advance
    dsimp only
    rw [e5, e6, e4, e3]
    split
    · rfl
    · split <;> rfl

/-- Instance of C3: in colour mode a register that reaches 252 sets the line number to 7,
which the read leaves advanced to 8. -/
theorem vsync_detection_table_witness :
    _usbtv_read sync_end = some (0, after_read sync_end) ∧ (0 : Int) ≠ 2 ∧
    (after_read sync_end).vsync = 252 ∧ (after_read sync_end).line = 8 :=
  ⟨by rfl, by decide, by decide,
    (by
      obtain ⟨s3, s4, _, _, _, _, h5, _, h7, _, h9⟩ :=
        vsync_detection_table sync_end (after_read sync_end) 0 (by rfl) (by decide)
      have hv : (after_read sync_end).vsync = 252 := by decide
      have h4 : s4.line = 7 := (h7 (by decide)).2.1 (by rw [h5, hv])
      rw [h9, h4]
      decide)⟩

/-- C4, counterexample.  The decoder `held` enters its read with `vsync_count = 5 > 0`; the
line it completes brings the register to the mono pattern 510.  The match is not ignored:
the read returns with the line number reset (9, advanced to 10, instead of 101) and
`vsync_count` reloaded (`320 * 10 - 1 = 3199`, instead of 4). -/
theorem vsync_rate_limit_counterexample :
    0 < held.vsync_count ∧ held.colour = 0 ∧ held.line = 100 ∧ held.vsync_count = 5 ∧
    (_usbtv_read held).map (fun p => (p.1, p.2.vsync, p.2.line, p.2.vsync_count)) =
      some (0, 510, 10, 3199) := by
  decide

/-- C4, amended (vsync countdown).  In a read that completes a line, a line whose updated
vsync register matches a detection pattern (252 or 126 in colour, 510 in mono) resets the
line number and reloads `vsync_count` with `lines * 10`, whatever `vsync_count` was when the
read was entered; the countdown is then decremented by one when it is not zero.  On a line
without a match the countdown is only decremented by one when it is not zero. -/
theorem vsync_countdown (s s' : _usbtv_t) (r : Int)
    (hread : _usbtv_read s = some (r, s')) (hr : r ≠ 2) :
    ((s.colour ≠ 0 ∧ (s'.vsync = 252 ∨ s'.vsync = 126)) ∨ (s.colour = 0 ∧ s'.vsync = 510) →
      s'.vsync_count = s.lines * 10 + (if s.lines * 10 ≠ 0 then -1 else 0) ∧
      s'.line = (if vsync_match s.colour s'.vsync + 1 > s.lines then 1
                 else vsync_match s.colour s'.vsync + 1)) ∧
    (¬ ((s.colour ≠ 0 ∧ (s'.vsync = 252 ∨ s'.vsync = 126)) ∨ (s.colour = 0 ∧ s'.vsync = 510)) →
      s'.vsync_count = s.vsync_count + (if s.vsync_count ≠ 0 then -1 else 0)) := by
  obtain ⟨s0, mx, s1, s3, s4, s5, s6, h0, h1, h3, h4, h5, _, h6, h7, f3, f6⟩ :=
    read_stages hread hr
  have e1 : s3.line = s.line := by
    have t := congrArg _usbtv_t.line f3
    exact t
  have e2 : s3.colour = s.colour := by
    have t := congrArg _usbtv_t.colour f3
    exact t
  have e3 : s3.lines = s.lines := by
    have t := congrArg _usbtv_t.lines f3
    exact t
  have e3' : s3.vsync_count = s.vsync_count := by
    have t := congrArg _usbtv_t.vsync_count f3
    exact t
  have f4 := vsync_scan_frame h4
  have e4 : s4.lines = s3.lines := by
    have t := congrArg _usbtv_t.lines f4
    exact t
  have e5 : s6.line = s4.line := by
    have t := congrArg _usbtv_t.line f6
    exact t
  have e6 : s6.lines = s4.lines := by
    have t := congrArg _usbtv_t.lines f6
    exact t
  have e7 : s6.vsync = s4.vsync := by
    have t := congrArg _usbtv_t.vsync f6
    exact t
  have e7' : s6.vsync_count = s4.vsync_count := by
    have t := congrArg _usbtv_t.vsync_count f6
    exact t
  have e8 : s' = (line_advance s6).2 := by rw [h7]
  have e9 : s'.vsync = s6.vsync := by
    have t := congrArg _usbtv_t.vsync (line_advance_frame s6)
    rw [← e8] at t
    exact t
  have e10 : s'.vsync_count = s6.vsync_count := by
    have t := congrArg _usbtv_t.vsync_count (line_advance_frame s6)
    rw [← e8] at t
    exact t
  have e11 : s'.line = (if s4.line + 1 > s.lines then 1 else s4.line + 1) := by
    rw [e8]
    unfold line_advance
    dsimp only
    rw [e5, e6, e4, e3]
    split
    · rfl
    · split <;> rfl
  obtain ⟨_, g2, g3⟩ := vsync_scan_spec h4
  have ev : s4.vsync = s'.vsync := by rw [e9, e7]
  rw [e2, ev] at g2 g3
  rw [e3, e3'] at g3
  rw [e10, e7', g3, e11, g2]
  constructor
  · intro hm
    have hne : vsync_match s.colour s'.vsync ≠ 0 := by
      unfold vsync_match
      rcases hm with ⟨hc, hv | hv⟩ | ⟨hc, hv⟩
      · rw [if_pos hc, hv]
        decide
      · rw [if_pos hc, hv]
        decide
      · rw [if_neg (by simp [hc]), hv]
        decide
    simp only [if_pos hne]
    exact ⟨trivial, trivial⟩
  · intro hm
    have he : vsync_match s.colour s'.vsync = 0 := by
      unfold vsync_match
      by_cases hc : s.colour ≠ 0
      · rw [if_pos hc]
        have h252 : s'.vsync ≠ 252 := fun hv => hm (Or.inl ⟨hc, Or.inl hv⟩)
        have h126 : s'.vsync ≠ 126 := fun hv => hm (Or.inl ⟨hc, Or.inr hv⟩)
        rw [if_neg h252, if_neg h126]
      · rw [if_neg hc]
        have h510 : s'.vsync ≠ 510 := fun hv => hm (Or.inr ⟨by simpa using hc, hv⟩)
        rw [if_neg h510]
    rw [if_neg (by simp [he])]

/-- Instance of the amended C4: the matching line of `held` reloads the countdown. -/
theorem vsync_countdown_witness :
    _usbtv_read held = some (0, after_read held) ∧ (0 : Int) ≠ 2 ∧
    (held.colour = 0 ∧ (after_read held).vsync = 510) ∧
    (after_read held).vsync_count = held.lines * 10 + (if held.lines * 10 ≠ 0 then -1 else 0) :=
  ⟨by rfl, by decide, by decide,
    ((vsync_countdown held (after_read held) 0 (by rfl) (by decide)).1
      (Or.inr (by decide))).1⟩

/-- C5 (clamping).  Whatever the sample and the levels, the intensity computed by the
rasterizer lies in `0 .. 255`.  Consequently, for every iteration of the rasterizer loop, in
every state and mode: the stored pixel is a 32-bit value; in mono mode it is `0x010101 * v`,
its three colour bytes are `v` and its alpha byte is `0`; in colour mode byte `fsc` of the
stored pixel is `v` and its three other bytes are those of the pixel read. -/
theorem clamping (s s' : _usbtv_t) (aline x : Int) (h : put_pixel s aline x = some s') :
    (∀ sample black white v : Int, intensity sample black white = some v → 0 ≤ v ∧ v ≤ 255) ∧
    ∃ sample v c px, rd s.iline (s.active_left + x) = some sample ∧
      intensity sample s.black_level s.white_level = some v ∧ 0 ≤ v ∧ v ≤ 255 ∧
      rd s.framebuffer (aline * s.active_width + x) = some c ∧
      rd s'.framebuffer (aline * s.active_width + x) = some px ∧ px < 2 ^ 32 ∧
      (s.colour = 0 → px = 0x010101 * v.toNat ∧ (byte px 0 : Int) = v ∧
        (byte px 1 : Int) = v ∧ (byte px 2 : Int) = v ∧ byte px 3 = 0) ∧
      (s.colour ≠ 0 → 0 ≤ s.fsc ∧ s.fsc ≤ 2 ∧ (byte px s.fsc.toNat : Int) = v ∧
        ∀ j : Nat, j < 4 → (j : Int) ≠ s.fsc → byte px j = byte c j) := by
  refine ⟨fun _ _ _ _ hv => intensity_range hv, ?_⟩
  obtain ⟨sample, v, c, px, p1, p2, p3, p4, p5⟩ := put_pixel_spec h
  obtain ⟨v0, v1⟩ := intensity_range p2
  have hlt : px < 2 ^ 32 := by
    split at p4
    · exact (colour_pixel_bytes v0 v1 p4).2.2.1
    · simp only [Option.some.injEq] at p4
      rw [← p4]
      exact Nat.mod_lt _ (by norm_num)
  refine ⟨sample, v, c, px, p1, p2, v0, v1, p3, rd_wr_same p5, hlt, ?_, ?_⟩
  · intro hc
    rw [if_neg (by simp [hc])] at p4
    simp only [Option.some.injEq] at p4
    rw [← p4]
    exact mono_pixel_bytes v0 v1
  · intro hc
    rw [if_pos hc] at p4
    obtain ⟨b1, b2, _, b4, b5⟩ := colour_pixel_bytes v0 v1 p4
    exact ⟨b1, b2, b4, b5⟩

/-- Instance of C5: column 1 of `lit` holds the sample 10000, whose intensity is 1. -/
theorem clamping_witness :
    put_pixel lit 0 1 = some (put_at lit 0 1) ∧
    intensity 10000 lit.black_level lit.white_level = some 1 ∧
    rd (put_at lit 0 1).framebuffer (0 * lit.active_width + 1) = some 0x010101 ∧
    (0x010101 : Nat) < 2 ^ 32 :=
  ⟨by rfl, by decide, by decide,
    (by
      obtain ⟨_, sample, v, c, px, _, _, _, _, _, h6, h7, _⟩ :=
        clamping lit (put_at lit 0 1) 0 1 (by rfl)
      have e : rd (put_at lit 0 1).framebuffer (0 * lit.active_width + 1) = some 0x010101 := by
        decide
      rw [e] at h6
      simp only [Option.some.injEq] at h6
      rw [h6]
      exact h7)⟩

/-- C6 (colour channel isolation).  In colour mode (`colour ≠ 0`, 480 active lines) let a
read entered with `fsc = k` complete a line, and let `aline` be the row computed for the
line (the line number being the one in the state `s5` in which the rasterizer is entered).
The framebuffer keeps its length; in every pixel the three bytes other than byte `k` (bit
offset `8 * k`), the alpha byte included, are unchanged; every pixel outside the
`active_width` pixels of row `aline` is unchanged; and when `aline` is out of range the whole
framebuffer is unchanged. -/
theorem colour_channel_isolation (s s0 s5 s' : _usbtv_t) (r k : Int)
    (hfill : fill_line (fill_fuel s) s = some (true, s0)) (hpre : pre_raster s0 = some s5)
    (hread : _usbtv_read s = some (r, s'))
    (hc : s.colour ≠ 0) (hal : s.active_lines = 480) (hk : s.fsc = k) :
    s'.framebuffer.length = s.framebuffer.length ∧
    (∀ (i : Int) (c c' : Nat), rd s.framebuffer i = some c → rd s'.framebuffer i = some c' →
      ∀ j : Nat, j < 4 → (j : Int) ≠ k → byte c' j = byte c j) ∧
    (∀ i : Int, ¬ (0 ≤ aline_of s5.colour s5.line ∧ aline_of s5.colour s5.line < s.active_lines ∧
        aline_of s5.colour s5.line * s.active_width ≤ i ∧
        i < aline_of s5.colour s5.line * s.active_width + s.active_width) →
      rd s'.framebuffer i = rd s.framebuffer i) ∧
    (¬ (0 ≤ aline_of s5.colour s5.line ∧ aline_of s5.colour s5.line < s.active_lines) →
      s'.framebuffer = s.framebuffer) := by
  obtain ⟨s4, s6, h5, h6, h7, e9, f5, e4, e4l, _, _, _⟩ := read_raster hfill hpre hread
  have c5 : s5.colour = s.colour := by
    have t := congrArg _usbtv_t.colour f5
    exact t
  have al5 : s5.active_lines = s.active_lines := by
    have t := congrArg _usbtv_t.active_lines f5
    exact t
  have aw5 : s5.active_width = s.active_width := by
    have t := congrArg _usbtv_t.active_width f5
    exact t
  have fb5 : s5.framebuffer = s.framebuffer := by
    have t := congrArg _usbtv_t.framebuffer f5
    exact t
  rw [e9]
  unfold rasterize at h6
  rw [al5] at h6
  by_cases hin : aline_of s5.colour s5.line ≥ 0 ∧ aline_of s5.colour s5.line < s.active_lines
  · rw [if_pos hin] at h6
    -- the line is rasterized, so the FSC block has left `fsc` alone
    have hrange := aline_of_colour_range (by rw [c5]; exact hc) ⟨hin.1, by rw [← hal]; exact hin.2⟩
    have e5 : s5 = s4 := fsc_update_idle h5 (by omega) (by omega) (by omega) (by omega)
    have k5 : s5.fsc = k := by rw [e5, e4, hk]
    obtain ⟨q1, q2, q3⟩ := raster_loop_spec _ _ _ _ _ h6
    rw [fb5] at q1 q2 q3
    rw [aw5] at q2 q3
    rw [k5] at q3
    refine ⟨q1, ?_, ?_, ?_⟩
    · intro i c c' hi hi' j hj hjk
      by_cases hrow : aline_of s5.colour s5.line * s.active_width ≤ i ∧
          i < aline_of s5.colour s5.line * s.active_width + s.active_width
      · have hw : 0 ≤ s.active_width := by omega
        obtain ⟨sample, v, c0, px, _, r2, r3, r4, r5⟩ :=
          q3 (i - aline_of s5.colour s5.line * s.active_width) (by omega)
            (by rw [Int.toNat_of_nonneg hw]; omega)
        have ei : aline_of s5.colour s5.line * s.active_width +
            (i - aline_of s5.colour s5.line * s.active_width) = i := by omega
        rw [ei] at r3 r5
        rw [hi] at r3
        rw [hi'] at r5
        simp only [Option.some.injEq] at r3 r5
        subst r3 r5
        rw [if_pos (by rw [c5]; exact hc)] at r4
        obtain ⟨v0, v1⟩ := intensity_range r2
        exact (colour_pixel_bytes v0 v1 r4).2.2.2.2 j hj hjk
      · have e := q2 i (by
          by_cases hw : 0 ≤ s.active_width
          · rw [Int.toNat_of_nonneg hw]
            omega
          · have z : s.active_width.toNat = 0 := by omega
            rw [z]
            omega)
        rw [e, hi] at hi'
        simp only [Option.some.injEq] at hi'
        rw [hi']
    · intro i hi
      apply q2
      by_cases hw : 0 ≤ s.active_width
      · rw [Int.toNat_of_nonneg hw]
        omega
      · have z : s.active_width.toNat = 0 := by omega
        rw [z]
        omega
    · intro hout
      exact absurd ⟨hin.1, hin.2⟩ hout
  · rw [if_neg hin] at h6
    simp only [Option.some.injEq] at h6
    rw [← h6, fb5]
    refine ⟨rfl, ?_, fun _ _ => rfl, fun _ => rfl⟩
    intro i c c' hi hi' j _ _
    rw [hi] at hi'
    simp only [Option.some.injEq] at hi'
    rw [hi']

/-- Instance of C6: the green field of `tint` replaces the green byte of the pixel of row 0
and keeps its blue, red and alpha bytes. -/
theorem colour_channel_isolation_witness :
    tint.colour ≠ 0 ∧ tint.active_lines = 480 ∧ tint.fsc = 1 ∧
    _usbtv_read tint = some (0, after_read tint) ∧
    rd tint.framebuffer 0 = some 0x00AABBCC ∧
    rd (after_read tint).framebuffer 0 = some 0x00AA05CC ∧
    byte 0x00AA05CC 0 = byte 0x00AABBCC 0 ∧ byte 0x00AA05CC 2 = byte 0x00AABBCC 2 ∧
    byte 0x00AA05CC 3 = byte 0x00AABBCC 3 :=
  have h := (colour_channel_isolation tint (filled tint) (at_raster tint) (after_read tint) 0 1
    (by rfl) (by rfl) (by rfl) (by decide) (by decide) (by decide)).2.1 0 0x00AABBCC 0x00AA05CC
    (by decide) (by decide)
  ⟨by decide, by decide, by decide, by rfl, by decide, by decide,
    h 0 (by decide) (by decide), h 2 (by decide) (by decide), h 3 (by decide) (by decide)⟩

/-- C7 (mono pixel format).  In mono mode let a read complete a line whose row
`line - 9` is in range, `line`, the levels and the line buffer being those of the state `s5`
in which the rasterizer is entered.  For every column `x` of the row the read leaves at
`(line - 9) * active_width + x` the pixel `0x010101 * v`, where `v` is
`(iline[active_left + x] - black_level) * 255 / (white_level - black_level)` (truncated)
clamped to `0 .. 255`: red, green and blue are `v` and alpha is zero.  A sample equal to
`white_level` gives `0x00FFFFFF`, a sample at or below `black_level` gives `0`. -/
theorem mono_pixel_format (s s0 s5 s' : _usbtv_t) (r x : Int)
    (hfill : fill_line (fill_fuel s) s = some (true, s0)) (hpre : pre_raster s0 = some s5)
    (hread : _usbtv_read s = some (r, s'))
    (hc : s.colour = 0) (hrow : 0 ≤ s5.line - 9 ∧ s5.line - 9 < s5.active_lines)
    (hx : 0 ≤ x ∧ x < s5.active_width) :
    ∃ sample v : Int, rd s5.iline (s5.active_left + x) = some sample ∧
      s5.iline = s0.iline ∧
      v = (if ((sample - s5.black_level) * 255).tdiv (s5.white_level - s5.black_level) > 255
           then 255
           else if ((sample - s5.black_level) * 255).tdiv (s5.white_level - s5.black_level) < 0
           then 0
           else ((sample - s5.black_level) * 255).tdiv (s5.white_level - s5.black_level)) ∧
      0 ≤ v ∧ v ≤ 255 ∧
      rd s'.framebuffer ((s5.line - 9) * s5.active_width + x) = some (0x010101 * v.toNat) ∧
      (byte (0x010101 * v.toNat) 0 : Int) = v ∧ (byte (0x010101 * v.toNat) 1 : Int) = v ∧
      (byte (0x010101 * v.toNat) 2 : Int) = v ∧ byte (0x010101 * v.toNat) 3 = 0 ∧
      (sample = s5.white_level → 0x010101 * v.toNat = 0x00FFFFFF) ∧
      (sample ≤ s5.black_level → 0x010101 * v.toNat = 0) := by
  obtain ⟨s4, s6, h5, h6, h7, e9, f5, _, _, eil, l1, l2⟩ := read_raster hfill hpre hread
  have c5 : s5.colour = 0 := by
    have t := congrArg _usbtv_t.colour f5
    exact t.trans hc
  have ea : aline_of s5.colour s5.line = s5.line - 9 := by
    unfold aline_of
    rw [if_neg (by simp [c5])]
  unfold rasterize at h6
  rw [ea, if_pos ⟨hrow.1, hrow.2⟩] at h6
  obtain ⟨_, _, q3⟩ := raster_loop_spec _ _ _ _ _ h6
  obtain ⟨sample, v, c, px, r1, r2, _, r4, r5⟩ :=
    q3 x (by omega) (by rw [Int.toNat_of_nonneg (by omega)]; omega)
  obtain ⟨v0, v1⟩ := intensity_range r2
  rw [if_neg (by simp [c5])] at r4
  simp only [Option.some.injEq] at r4
  obtain ⟨m0, m1, m2, m3, m4⟩ := mono_pixel_bytes v0 v1
  rw [m0] at m1 m2 m3 m4
  have hd : s5.white_level - s5.black_level ≠ 0 := by omega
  have hv : v = (if ((sample - s5.black_level) * 255).tdiv (s5.white_level - s5.black_level)
        > 255 then 255
      else if ((sample - s5.black_level) * 255).tdiv (s5.white_level - s5.black_level) < 0
        then 0
      else ((sample - s5.black_level) * 255).tdiv (s5.white_level - s5.black_level)) := by
    unfold intensity at r2
    rw [if_neg hd] at r2
    simp only [Option.some.injEq] at r2
    exact r2.symm
  refine ⟨sample, v, r1, eil, hv, v0, v1, ?_, m1, m2, m3, m4, ?_, ?_⟩
  · rw [e9, r5, ← r4, m0]
  · intro hs
    have hq : ((sample - s5.black_level) * 255).tdiv (s5.white_level - s5.black_level)
        = 255 := by
      rw [hs]
      exact Int.mul_tdiv_cancel_left _ hd
    rw [hq] at hv
    have h255 : v = 255 := by
      rw [hv]
      decide
    rw [h255]
    decide
  · intro hs
    have hq : ((sample - s5.black_level) * 255).tdiv (s5.white_level - s5.black_level)
        ≤ 0 := by
      rw [tdiv_pos_cases _ _ (by omega)]
      split
      · rename_i hn
        have hz : (sample - s5.black_level) * 255 = 0 := by omega
        rw [hz]
        simp
      · have hp : 0 ≤ (-((sample - s5.black_level) * 255)) / (s5.white_level - s5.black_level) :=
          Int.ediv_nonneg (by omega) (by omega)
        omega
    have h0 : v = 0 := by
      rw [hv]
      split_ifs <;> omega
    rw [h0]
    decide

/-- Instance of C7: column 1 of row 0 of `grey` holds a white-level sample and is left as
the pixel `0x00FFFFFF`. -/
theorem mono_pixel_format_witness :
    grey.colour = 0 ∧
    (0 ≤ (at_raster grey).line - 9 ∧ (at_raster grey).line - 9 < (at_raster grey).active_lines) ∧
    (at_raster grey).white_level = 32767 ∧
    rd (at_raster grey).iline ((at_raster grey).active_left + 1) = some 32767 ∧
    rd (after_read grey).framebuffer (((at_raster grey).line - 9) * (at_raster grey).active_width
      + 1) = some 0x00FFFFFF :=
  ⟨by decide, by decide, by decide, by decide,
    (by
      obtain ⟨sample, v, h1, _, _, _, _, h6, _, _, _, _, h11, _⟩ :=
        mono_pixel_format grey (filled grey) (at_raster grey) (after_read grey) 0 1
          (by rfl) (by rfl) (by rfl) (by decide) (by decide) (by decide)
      have e : rd (at_raster grey).iline ((at_raster grey).active_left + 1) = some 32767 := by
        decide
      rw [e] at h1
      simp only [Option.some.injEq] at h1
      have hw : sample = (at_raster grey).white_level := by
        rw [← h1]
        decide
      rw [h6, h11 hw])⟩

/-- C8 (active-line mapping).  With 480 active lines (colour) the row computed for line
number `l` is in range exactly for `l` in `23 .. 262`, where it is the even row
`2 * (l - 23)`, and for `l` in `286 .. 525`, where it is the odd row `2 * (l - 286) + 1`; on
those lines the map is one-to-one and reaches every row of `0 .. 479`.  With 312 active lines
(mono) the row is in range exactly for `l` in `9 .. 320`, where it is `l - 9`, one-to-one
onto `0 .. 311`.  On every line whose row is out of range the rasterizer writes nothing. -/
theorem active_line_mapping (c : Int) (hc : c ≠ 0) :
    (∀ l : Int, (0 ≤ aline_of c l ∧ aline_of c l < 480) ↔
      ((23 ≤ l ∧ l ≤ 262) ∨ (286 ≤ l ∧ l ≤ 525))) ∧
    (∀ l : Int, 23 ≤ l → l ≤ 262 → aline_of c l = 2 * (l - 23)) ∧
    (∀ l : Int, 286 ≤ l → l ≤ 525 → aline_of c l = 2 * (l - 286) + 1) ∧
    (∀ l l' : Int, (0 ≤ aline_of c l ∧ aline_of c l < 480) →
      (0 ≤ aline_of c l' ∧ aline_of c l' < 480) → aline_of c l = aline_of c l' → l = l') ∧
    (∀ row : Int, 0 ≤ row → row < 480 →
      ∃ l : Int, ((23 ≤ l ∧ l ≤ 262) ∨ (286 ≤ l ∧ l ≤ 525)) ∧ aline_of c l = row) ∧
    (∀ l : Int, (0 ≤ aline_of 0 l ∧ aline_of 0 l < 312) ↔ (9 ≤ l ∧ l ≤ 320)) ∧
    (∀ l : Int, aline_of 0 l = l - 9) ∧
    (∀ l l' : Int, aline_of 0 l = aline_of 0 l' → l = l') ∧
    (∀ row : Int, 0 ≤ row → row < 312 → ∃ l : Int, (9 ≤ l ∧ l ≤ 320) ∧ aline_of 0 l = row) ∧
    (∀ s : _usbtv_t,
      ¬ (0 ≤ aline_of s.colour s.line ∧ aline_of s.colour s.line < s.active_lines) →
      rasterize s = some s) := by
  have hcol : ∀ l : Int,
      aline_of c l = if l < 265 then (l - 23) * 2 else (l - 286) * 2 + 1 := by
    intro l
    unfold aline_of
    rw [if_pos hc]
  have hmono : ∀ l : Int, aline_of 0 l = l - 9 := by
    intro l
    unfold aline_of
    simp
  refine ⟨?_, ?_, ?_, ?_, ?_, ?_, hmono, ?_, ?_, ?_⟩
  · intro l
    rw [hcol]
    split_ifs <;> omega
  · intro l h1 h2
    rw [hcol]
    split_ifs <;> omega
  · intro l h1 h2
    rw [hcol]
    split_ifs <;> omega
  · intro l l' h1 h2 h3
    rw [hcol] at h1 h3
    rw [hcol] at h2 h3
    split_ifs at h1 h2 h3 <;> omega
  · intro row h0 h1
    by_cases hpar : row % 2 = 0
    · refine ⟨row / 2 + 23, Or.inl (by omega), ?_⟩
      rw [hcol]
      split_ifs <;> omega
    · refine ⟨row / 2 + 286, Or.inr (by omega), ?_⟩
      rw [hcol]
      split_ifs <;> omega
  · intro l
    rw [hmono]
    omega
  · intro l l' h
    rw [hmono, hmono] at h
    omega
  · intro row h0 h1
    refine ⟨row + 9, by omega, ?_⟩
    rw [hmono]
    omega
  · intro s hs
    unfold rasterize
    rw [if_neg (by omega)]

/-- Instance of C8: with `colour = 1` the last line 525 maps to the last row 479. -/
theorem active_line_mapping_witness :
    (1 : Int) ≠ 0 ∧ aline_of 1 525 = 2 * (525 - 286) + 1 :=
  ⟨by decide, (active_line_mapping 1 (by decide)).2.2.1 525 (by decide) (by decide)⟩

/-- C9 (FSC hold).  Take a run of completed lines in colour mode and in it `m ≤ 525`
consecutive lines whose FSC block is executed with the line numbers `1 .. m` (no vsync
jump); `m = 525` is a whole frame.  Among these lines the burst detector resets the colour
phase (sets `fsc = 1` and `fsc_hold = 1`) at most once; in particular a reset on line 18
excludes a reset on line 281, whatever the samples of that line.  Every reset leaves
`fsc = 1` with the hold set, and after a reset the hold stays set up to the third following
field start (line 1 or 264), which brings `fsc` back to 1 and clears the hold. -/
theorem fsc_hold_once (n a m : Nat) (t u : Nat → _usbtv_t) (r : Nat → Int)
    (hrun : CompletedLines n t u r) (hcol : (t 0).colour ≠ 0)
    (hm : m ≤ 525) (hwin : a + m ≤ n)
    (hnum : ∀ k, k < m → fsc_line (t (a + k)) = (k : Int) + 1) :
    (∀ i j, i < m → j < m → fsc_reset (t (a + i)) = true → fsc_reset (t (a + j)) = true →
      i = j) ∧
    (280 < m → fsc_reset (t (a + 17)) = true → fsc_reset (t (a + 280)) = false) ∧
    (∀ i, i < n → fsc_reset (t i) = true → (u i).fsc = 1 ∧ (u i).fsc_hold = 1) ∧
    (∀ i j1 j2 j3, i < j1 → j1 < j2 → j2 < j3 → j3 < n →
      (∀ k, i < k → k ≤ j3 →
        ((fsc_line (t k) = 1 ∨ fsc_line (t k) = 264) ↔ (k = j1 ∨ k = j2 ∨ k = j3))) →
      fsc_reset (t i) = true →
      (∀ k, i ≤ k → k < j3 → (u k).fsc_hold = 1) ∧ (u j3).fsc_hold = 0 ∧ (u j3).fsc = 1) := by
  -- the line number of line `k` of the window
  have hline : ∀ k, a ≤ k → k < a + m → fsc_line (t k) = ((k - a : Nat) : Int) + 1 := by
    intro k h1 h2
    have h := hnum (k - a) (by omega)
    have e : a + (k - a) = k := by omega
    rw [e] at h
    exact h
  -- a reset on line 18 excludes a reset on line 281
  have s2 : 280 < m → fsc_reset (t (a + 17)) = true → fsc_reset (t (a + 280)) = false := by
    intro h280 hres
    obtain ⟨_, _, r3, r4⟩ := run_reset hrun hcol (by omega) hres
    obtain ⟨b1, b2, _⟩ := run_hold_segment hrun hcol (a + 17) 245 (by omega)
      (fun k h1 h2 => by
        rw [hline k (by omega) (by omega)]
        omega)
      (by rw [r4]; decide)
    have e262 : a + 17 + 245 = a + 262 := by omega
    rw [e262, r3] at b1
    rw [e262, r4] at b2
    obtain ⟨c1, c2⟩ := run_field_start hrun hcol (k := a + 262) (by omega)
      (by
        right
        rw [hline (a + 262 + 1) (by omega) (by omega)]
        omega)
    rw [b1] at c1 c2
    rw [b2] at c2
    have c1' : (u (a + 262 + 1)).fsc = 2 := by
      rw [c1]
      decide
    have c2' : (u (a + 262 + 1)).fsc_hold = 1 := by
      rw [c2]
      decide
    obtain ⟨_, d2, _⟩ := run_hold_segment hrun hcol (a + 262 + 1) 16 (by omega)
      (fun k h1 h2 => by
        rw [hline k (by omega) (by omega)]
        omega)
      (by rw [c2']; decide)
    have e279 : a + 262 + 1 + 16 = a + 279 := by omega
    rw [e279, c2'] at d2
    cases hres2 : fsc_reset (t (a + 280)) with
    | false => rfl
    | true =>
      obtain ⟨_, q2, _, _⟩ := run_reset hrun hcol (by omega) hres2
      obtain ⟨_, _, _, _, _, l6⟩ := run_link hrun (i := a + 279) (by omega)
      have e280 : a + 279 + 1 = a + 280 := by omega
      rw [e280] at l6
      rw [l6, d2] at q2
      exact absurd q2 (by decide)
  -- the index of a reset inside the window
  have hidx : ∀ i, i < m → fsc_reset (t (a + i)) = true → i = 17 ∨ i = 280 := by
    intro i hi hres
    obtain ⟨q1, _, _, _⟩ := run_reset hrun hcol (by omega) hres
    rw [hnum i hi] at q1
    omega
  refine ⟨?_, s2, ?_, ?_⟩
  · intro i j hi hj hri hrj
    rcases hidx i hi hri with h1 | h1 <;> rcases hidx j hj hrj with h2 | h2
    · omega
    · subst h1 h2
      have := s2 (by omega) hri
      rw [hrj] at this
      exact absurd this (by simp)
    · subst h1 h2
      have := s2 (by omega) hrj
      rw [hri] at this
      exact absurd this (by simp)
    · omega
  · intro i hi hres
    obtain ⟨_, _, r3, r4⟩ := run_reset hrun hcol hi hres
    exact ⟨r3, r4⟩
  · intro i j1 j2 j3 h1 h2 h3 h4 hfs hres
    obtain ⟨_, _, r3, r4⟩ := run_reset hrun hcol (by omega) hres
    -- from the reset up to the first field start
    have segA : ∀ k, i ≤ k → k < j1 → (u k).fsc = 1 ∧ (u k).fsc_hold = 1 := by
      intro k hk1 hk2
      obtain ⟨b1, b2, _⟩ := run_hold_segment hrun hcol i (k - i) (by omega)
        (fun k' g1 g2 => by
          rw [hfs k' g1 (by omega)]
          omega)
        (by rw [r4]; decide)
      have e : i + (k - i) = k := by omega
      rw [e] at b1 b2
      exact ⟨b1.trans r3, b2.trans r4⟩
    obtain ⟨a1, a2⟩ := segA (j1 - 1) (by omega) (by omega)
    have ej1 : j1 - 1 + 1 = j1 := by omega
    obtain ⟨c1, c2⟩ := run_field_start hrun hcol (k := j1 - 1) (by omega)
      (by
        rw [ej1, hfs j1 (by omega) (by omega)]
        left; rfl)
    rw [ej1, a1] at c1 c2
    rw [a2] at c2
    have c1' : (u j1).fsc = 2 := by
      rw [c1]
      decide
    have c2' : (u j1).fsc_hold = 1 := by
      rw [c2]
      decide
    -- between the first and the second field start
    have segB : ∀ k, j1 ≤ k → k < j2 → (u k).fsc = 2 ∧ (u k).fsc_hold = 1 := by
      intro k hk1 hk2
      obtain ⟨b1, b2, _⟩ := run_hold_segment hrun hcol j1 (k - j1) (by omega)
        (fun k' g1 g2 => by
          rw [hfs k' (by omega) (by omega)]
          omega)
        (by rw [c2']; decide)
      have e : j1 + (k - j1) = k := by omega
      rw [e] at b1 b2
      exact ⟨b1.trans c1', b2.trans c2'⟩
    obtain ⟨a3, a4⟩ := segB (j2 - 1) (by omega) (by omega)
    have ej2 : j2 - 1 + 1 = j2 := by omega
    obtain ⟨d1, d2⟩ := run_field_start hrun hcol (k := j2 - 1) (by omega)
      (by
        rw [ej2, hfs j2 (by omega) (by omega)]
        right; left; rfl)
    rw [ej2, a3] at d1 d2
    rw [a4] at d2
    have d1' : (u j2).fsc = 0 := by
      rw [d1]
      decide
    have d2' : (u j2).fsc_hold = 1 := by
      rw [d2]
      decide
    -- between the second and the third field start
    have segC : ∀ k, j2 ≤ k → k < j3 → (u k).fsc = 0 ∧ (u k).fsc_hold = 1 := by
      intro k hk1 hk2
      obtain ⟨b1, b2, _⟩ := run_hold_segment hrun hcol j2 (k - j2) (by omega)
        (fun k' g1 g2 => by
          rw [hfs k' (by omega) (by omega)]
          omega)
        (by rw [d2']; decide)
      have e : j2 + (k - j2) = k := by omega
      rw [e] at b1 b2
      exact ⟨b1.trans d1', b2.trans d2'⟩
    obtain ⟨a5, a6⟩ := segC (j3 - 1) (by omega) (by omega)
    have ej3 : j3 - 1 + 1 = j3 := by omega
    obtain ⟨f1, f2⟩ := run_field_start hrun hcol (k := j3 - 1) (by omega)
      (by
        rw [ej3, hfs j3 (by omega) (by omega)]
        right; right; rfl)
    rw [ej3, a5] at f1 f2
    refine ⟨?_, ?_, ?_⟩
    · intro k hk1 hk2
      by_cases g1 : k < j1
      · exact (segA k hk1 g1).2
      · by_cases g2 : k < j2
        · exact (segB k (by omega) g2).2
        · exact (segC k (by omega) hk2).2
    · rw [f2, if_pos (by decide)]
    · rw [f1]
      decide

/-- Instance of C9: the first 20 lines of a frame of `cam`, each with a white burst.  Line 18
resets the colour phase and leaves `fsc = 1` with the hold set. -/
theorem fsc_hold_once_witness :
    CompletedLines 20 (feed_t cam burst_line) (feed_u cam burst_line) (feed_r cam burst_line) ∧
    (feed_t cam burst_line 0).colour ≠ 0 ∧
    fsc_line (feed_t cam burst_line (0 + 17)) = 18 ∧
    fsc_reset (feed_t cam burst_line (0 + 17)) = true ∧
    (feed_u cam burst_line 17).fsc = 1 ∧ (feed_u cam burst_line 17).fsc_hold = 1 :=
  have hchk : feed_check burst_line first_lines cam = true := by decide
  have hrun := feed_check_run burst_line first_lines cam hchk
  have hnum : ∀ k, k < 20 → fsc_line (feed_t cam burst_line (0 + k)) = (k : Int) + 1 :=
    fun k hk => by
      have h1 := hrun.2 k hk
      rw [Nat.zero_add]
      interval_cases k <;> simpa [first_lines] using h1
  have hres : fsc_reset (feed_t cam burst_line (0 + 17)) = true := by decide
  have h := fsc_hold_once 20 0 20 (feed_t cam burst_line) (feed_u cam burst_line)
    (feed_r cam burst_line) hrun.1 (by decide) (by decide) (by decide) hnum
  ⟨hrun.1, by decide, hnum 17 (by decide), hres, h.2.2.1 17 (by decide) hres⟩

/-- C10 (frame event cadence).  Take a run of `n` completed lines that starts with line
number `l0 + 1` (`l0 = 0` is a start from `line = 1`) and in which no line's updated vsync
register matches a detection pattern.  In mono mode (320 lines) completed line `i` (counted
from 0) has line number `(l0 + i) mod 320 + 1`, its read returns `1` exactly when that number
is 320 and `0` otherwise, and leaves the line number of the next line and the frame counter
raised by the number of frames completed so far, so the counter increments exactly on the
lines that return `1`, with `line` reset to 1.  In colour mode (525 lines) the read returns
`1` exactly on line numbers 263 and 525, after which the line counter is 264 or has exceeded
525 and is reset to 1, and `0` otherwise. -/
theorem frame_event_cadence (n l0 : Nat) (t u : Nat → _usbtv_t) (r : Nat → Int)
    (hrun : CompletedLines n t u r) (hstart : (t 0).line = (l0 : Int) + 1)
    (hnov : ∀ i, i < n →
      ((t i).colour ≠ 0 → (u i).vsync ≠ 252 ∧ (u i).vsync ≠ 126) ∧
      ((t i).colour = 0 → (u i).vsync ≠ 510)) :
    ((t 0).colour = 0 → (t 0).lines = 320 → l0 < 320 → ∀ i, i < n →
      (t i).line = (((l0 + i) % 320 : Nat) : Int) + 1 ∧
      r i = (if (l0 + i) % 320 = 319 then 1 else 0) ∧
      (u i).line = (((l0 + i + 1) % 320 : Nat) : Int) + 1 ∧
      (u i).frame = (t 0).frame + (((l0 + i + 1) / 320 : Nat) : Int)) ∧
    ((t 0).colour ≠ 0 → (t 0).lines = 525 → l0 < 525 → ∀ i, i < n →
      (t i).line = (((l0 + i) % 525 : Nat) : Int) + 1 ∧
      r i = (if (l0 + i) % 525 = 262 ∨ (l0 + i) % 525 = 524 then 1 else 0) ∧
      (u i).line = (((l0 + i + 1) % 525 : Nat) : Int) + 1 ∧
      (u i).frame = (t 0).frame + (((l0 + i + 1) / 525 : Nat) : Int)) := by
  have hm : ∀ i, i < n → vsync_match (t i).colour (u i).vsync = 0 :=
    fun i hi => vsync_match_zero (hnov i hi)
  constructor
  · intro hc hl hl0
    have inv : ∀ i, i < n → (t i).line = (((l0 + i) % 320 : Nat) : Int) + 1 ∧
        (t i).frame = (t 0).frame + (((l0 + i) / 320 : Nat) : Int) ∧ (t i).lines = 320 ∧
        (t i).colour = 0 := by
      intro i
      induction i with
      | zero =>
        intro _
        refine ⟨?_, ?_, hl, hc⟩
        · rw [hstart]
          omega
        · omega
      | succ k ih =>
        intro hk
        obtain ⟨i1, i2, i3, i4⟩ := ih (by omega)
        obtain ⟨hrd, hr2⟩ := hrun.1 k (by omega)
        obtain ⟨a1, a2, _, a4, a5, _⟩ := read_advance hrd hr2 (hm k (by omega))
        obtain ⟨l1, l2, l3, l4, _, _⟩ := run_link hrun hk
        rw [i1, i3] at a1 a2
        rw [i2] at a2
        rw [l1, l2, l3, l4, a1, a2, a4, a5]
        refine ⟨?_, ?_, i3, i4⟩
        · split_ifs <;> omega
        · split_ifs <;> omega
    intro i hi
    obtain ⟨i1, i2, i3, i4⟩ := inv i hi
    obtain ⟨hrd, hr2⟩ := hrun.1 i hi
    obtain ⟨a1, a2, a3, _, _, _⟩ := read_advance hrd hr2 (hm i hi)
    rw [i1, i3] at a1 a2 a3
    rw [i2] at a2
    rw [i4] at a3
    refine ⟨i1, ?_, ?_, ?_⟩
    · rw [a3]
      split_ifs <;> first | rfl | omega
    · rw [a1]
      split_ifs <;> omega
    · rw [a2]
      split_ifs <;> omega
  · intro hc hl hl0
    have inv : ∀ i, i < n → (t i).line = (((l0 + i) % 525 : Nat) : Int) + 1 ∧
        (t i).frame = (t 0).frame + (((l0 + i) / 525 : Nat) : Int) ∧ (t i).lines = 525 ∧
        (t i).colour = (t 0).colour := by
      intro i
      induction i with
      | zero =>
        intro _
        refine ⟨?_, ?_, hl, rfl⟩
        · rw [hstart]
          omega
        · omega
      | succ k ih =>
        intro hk
        obtain ⟨i1, i2, i3, i4⟩ := ih (by omega)
        obtain ⟨hrd, hr2⟩ := hrun.1 k (by omega)
        obtain ⟨a1, a2, _, a4, a5, _⟩ := read_advance hrd hr2 (hm k (by omega))
        obtain ⟨l1, l2, l3, l4, _, _⟩ := run_link hrun hk
        rw [i1, i3] at a1 a2
        rw [i2] at a2
        rw [l1, l2, l3, l4, a1, a2, a4, a5]
        refine ⟨?_, ?_, i3, i4⟩
        · split_ifs <;> omega
        · split_ifs <;> omega
    intro i hi
    obtain ⟨i1, i2, i3, i4⟩ := inv i hi
    obtain ⟨hrd, hr2⟩ := hrun.1 i hi
    obtain ⟨a1, a2, a3, _, _, _⟩ := read_advance hrd hr2 (hm i hi)
    rw [i1, i3] at a1 a2 a3
    rw [i2] at a2
    have hci : (t i).colour ≠ 0 := by rw [i4]; exact hc
    refine ⟨i1, ?_, ?_, ?_⟩
    · rw [a3]
      split_ifs <;> first | rfl | omega
    · rw [a1]
      split_ifs <;> omega
    · rw [a2]
      split_ifs <;> omega

/-- Instance of C10: the lines 319, 320 and 1 of `mono_end`.  The read of line 320 returns
`1`, resets the line counter to 1 and increments the frame counter. -/
theorem frame_event_cadence_witness :
    CompletedLines 3 (feed_t mono_end burst_line) (feed_u mono_end burst_line)
      (feed_r mono_end burst_line) ∧
    (feed_t mono_end burst_line 0).line = ((318 : Nat) : Int) + 1 ∧
    (feed_t mono_end burst_line 0).colour = 0 ∧
    (feed_t mono_end burst_line 0).lines = 320 ∧
    feed_r mono_end burst_line 1 = (if (318 + 1) % 320 = 319 then 1 else 0) ∧
    (feed_u mono_end burst_line 1).line = (((318 + 1 + 1) % 320 : Nat) : Int) + 1 ∧
    (feed_u mono_end burst_line 1).frame =
      (feed_t mono_end burst_line 0).frame + (((318 + 1 + 1) / 320 : Nat) : Int) :=
  have hchk : feed_check burst_line [319, 320, 1] mono_end = true := by decide
  have hrun := (feed_check_run burst_line [319, 320, 1] mono_end hchk).1
  have hnov : ∀ i, i < 3 →
      ((feed_t mono_end burst_line i).colour ≠ 0 →
        (feed_u mono_end burst_line i).vsync ≠ 252 ∧
        (feed_u mono_end burst_line i).vsync ≠ 126) ∧
      ((feed_t mono_end burst_line i).colour = 0 →
        (feed_u mono_end burst_line i).vsync ≠ 510) := by decide
  have h := (frame_event_cadence 3 318 (feed_t mono_end burst_line)
    (feed_u mono_end burst_line) (feed_r mono_end burst_line) hrun (by decide) hnov).1
    (by decide) (by decide) (by decide) 1 (by decide)
  ⟨hrun, by decide, by decide, by decide, h.2.1, h.2.2.1, h.2.2.2⟩

/-! ## C11: the state invariant -/

/-- Claim C11.  The predicate `0 ≤ iline_len ≤ width`, `0 ≤ hsyncwin_x < hsync_width`,
`hsync` is the sum of `hsyncwin`, `1 ≤ line ≤ lines` and, in colour mode, `fsc` is `0`, `1`
or `2`, holds in the state that `_usbtv_init` produces when `width ≥ 1` and
`hsync_width ≥ 1`; every `_usbtv_write` preserves it, every `_usbtv_read` that returns
preserves it whatever its status, and so it holds in every state reached from the initial
one, whatever the samples. -/
theorem state_invariant (tie : Nat → Bool) (junk : Nat → Int) (junk_fb : Nat → Nat)
    (sample_rate : Nat) (colour : Int)
    (hw : 1 ≤ (_usbtv_init tie junk junk_fb sample_rate colour).width)
    (hh : 1 ≤ (_usbtv_init tie junk junk_fb sample_rate colour).hsync_width) :
    StateInv (_usbtv_init tie junk junk_fb sample_rate colour) ∧
    (∀ (s : _usbtv_t) (buf : List Int), StateInv s → StateInv (_usbtv_write s buf)) ∧
    (∀ (s : _usbtv_t) (r : Int) (s' : _usbtv_t),
      StateInv s → _usbtv_read s = some (r, s') → StateInv s') ∧
    (∀ s : _usbtv_t, Reach (_usbtv_init tie junk junk_fb sample_rate colour) s →
      StateInv s) := by
  have h0 : StateInv (_usbtv_init tie junk junk_fb sample_rate colour) := by
    unfold StateInv
    refine ⟨⟨le_refl 0, ?_⟩, ⟨le_refl 0, ?_⟩, ?_, ⟨le_refl 1, ?_⟩, ?_⟩
    · have : (0 : Int) ≤ (_usbtv_init tie junk junk_fb sample_rate colour).width := by omega
      exact this
    · have : (0 : Int) < (_usbtv_init tie junk junk_fb sample_rate colour).hsync_width := by
        omega
      exact this
    · show (0 : Int) = (List.replicate _ (0 : Int)).sum
      simp
    · show (1 : Int) ≤ if (if colour ≠ 0 then (1 : Int) else 0) ≠ 0 then 525 else 320
      split <;> decide
    · intro _
      exact ⟨le_refl 0, (by decide : (0 : Int) ≤ 2)⟩
  have hwr : ∀ (s : _usbtv_t) (buf : List Int), StateInv s → StateInv (_usbtv_write s buf) :=
    fun s buf hI => hI
  have hrd : ∀ (s : _usbtv_t) (r : Int) (s' : _usbtv_t),
      StateInv s → _usbtv_read s = some (r, s') → StateInv s' :=
    fun s r s' hI h => read_state_inv h hI
  refine ⟨h0, hwr, hrd, ?_⟩
  intro s hs
  induction hs with
  | start => exact h0
  | write s buf _ ih => exact hwr s buf ih
  | read s r s' _ h ih => exact hrd s r s' ih h

/-- The claim for mono at 2 250 000 samples per second: lines of 703 samples and a window of
45 samples. -/
theorem state_invariant_witness :
    (mono_sdr.width = 703 ∧ mono_sdr.hsync_width = 45) ∧ StateInv mono_sdr ∧
    StateInv (_usbtv_write mono_sdr [1, 2, 3]) :=
  ⟨⟨by decide, by decide⟩,
   (state_invariant (fun _ => false) (fun _ => 0) (fun _ => 0) 2250000 0
      (by decide) (by decide)).1,
   (state_invariant (fun _ => false) (fun _ => 0) (fun _ => 0) 2250000 0
      (by decide) (by decide)).2.1 mono_sdr [1, 2, 3]
      (state_invariant (fun _ => false) (fun _ => 0) (fun _ => 0) 2250000 0
        (by decide) (by decide)).1⟩

/-! ## C12: reads at a low sample rate -/

/-- Claim C12 at mono, 90 000 samples per second: `_usbtv_init` computes lines of 28 samples
and an hsync window of 2 samples; the first read that is given a full line completes the
accumulator and the hsync search and then divides the sync tip sum by `hsync_width - 2 = 0`,
so the read has no result. -/
theorem read_divides_by_zero :
    (slow_mono.width = 28 ∧ slow_mono.hsync_width = 2 ∧ slow_mono.hsync_width - 2 = 0) ∧
    (fill_line (fill_fuel slow_mono) slow_mono).isSome = true ∧
    (hsync_scan (filled slow_mono)).isSome = true ∧
    rd (scanned (filled slow_mono)).iline 1 = some 0 ∧
    sync_tip (scanned (filled slow_mono)) = none ∧
    _usbtv_read slow_mono = none := by
  refine ⟨⟨by decide, by decide, by decide⟩, by decide, by decide, by decide, by decide, ?_⟩
  rfl

/-! ## C13: the wrap of the hsync delta -/

/-- Claim C13 fails as stated.  With lines of 8 samples, a window of 3 samples and the search
result `mx = 7` the delta is `4 = width / 2`; the wrapped value is `-4`, which is outside
`(-4, 4]`, and the phase correction is decremented, so this delta counts as negative. -/
theorem hsync_delta_half_counterexample :
    (7 : Int) - 3 = (8 : Int).tdiv 2 ∧ hsync_delta 7 3 8 = -4 ∧
    ¬ (-((8 : Int).tdiv 2) < hsync_delta 7 3 8) ∧
    (hsync_adjust mono8 7).hsync_offset = mono8.hsync_offset - 1 := by
  decide

/-- Claim C13, amended.  For `width ≥ 2`, `0 ≤ hsync_width ≤ width` and `0 ≤ mx < width`
the value whose sign drives the update is `mx - hsync_width` plus `-width`, `0` or `width`,
so it is congruent to `mx - hsync_width` modulo `width`, and it lies in the half-open
interval `[-(width - width / 2), width / 2)` with the integer division of C, which is
`[-width / 2, width / 2)` for an even width.  A delta of exactly `width / 2` is wrapped to a
negative value, and a delta of `width - 1` is treated as `-1`. -/
theorem hsync_delta_wrap (width hsync_width mx : Int) (hw : 2 ≤ width)
    (hh0 : 0 ≤ hsync_width) (hh1 : hsync_width ≤ width) (hm0 : 0 ≤ mx) (hm1 : mx < width) :
    (hsync_delta mx hsync_width width = mx - hsync_width - width ∨
     hsync_delta mx hsync_width width = mx - hsync_width ∨
     hsync_delta mx hsync_width width = mx - hsync_width + width) ∧
    hsync_delta mx hsync_width width % width = (mx - hsync_width) % width ∧
    -(width - width.tdiv 2) ≤ hsync_delta mx hsync_width width ∧
    hsync_delta mx hsync_width width < width.tdiv 2 ∧
    (mx - hsync_width = width.tdiv 2 → hsync_delta mx hsync_width width < 0) ∧
    (mx - hsync_width = width - 1 → hsync_delta mx hsync_width width = -1) := by
  have e1 : width.tdiv 2 = width / 2 := by
    rw [tdiv_pos_cases width 2 (by decide), if_pos (by omega)]
  have e2 : (-width).tdiv 2 = -(width / 2) := by
    rw [Int.neg_tdiv, e1]
  have key : hsync_delta mx hsync_width width = mx - hsync_width - width ∨
      hsync_delta mx hsync_width width = mx - hsync_width ∨
      hsync_delta mx hsync_width width = mx - hsync_width + width := by
    unfold hsync_delta
    dsimp only
    split_ifs <;> omega
  have rng : -(width - width / 2) ≤ hsync_delta mx hsync_width width ∧
      hsync_delta mx hsync_width width < width / 2 ∧
      (mx - hsync_width = width / 2 → hsync_delta mx hsync_width width < 0) ∧
      (mx - hsync_width = width - 1 → hsync_delta mx hsync_width width = -1) := by
    unfold hsync_delta
    dsimp only
    rw [e1, e2]
    split_ifs <;> omega
  refine ⟨key, ?_, ?_⟩
  · rcases key with k | k | k
    · rw [k]
      have : mx - hsync_width - width = mx - hsync_width + width * (-1) := by ring
      rw [this, Int.add_mul_emod_self_left]
    · rw [k]
    · rw [k, Int.add_emod_self]
  · rw [e1]
    exact rng

/-- The amended claim for lines of 8 samples, a window of 3 samples and `mx = 7`. -/
theorem hsync_delta_wrap_witness :
    hsync_delta 7 3 8 % 8 = (7 - 3) % 8 ∧ -(8 - (8 : Int).tdiv 2) ≤ hsync_delta 7 3 8 ∧
    hsync_delta 7 3 8 < (8 : Int).tdiv 2 :=
  ⟨(hsync_delta_wrap 8 3 7 (by decide) (by decide) (by decide) (by decide) (by decide)).2.1,
   (hsync_delta_wrap 8 3 7 (by decide) (by decide) (by decide) (by decide) (by decide)).2.2.1,
   (hsync_delta_wrap 8 3 7 (by decide) (by decide) (by decide) (by decide)
     (by decide)).2.2.2.1⟩

/-! ## C14: the phase correction is bounded -/

/-- Claim C14.  From the state that `_usbtv_init` produces with `width ≥ 2`, for every input
stream and every interleaving of writes and reads, `hsync_offset` is `-1`, `0` or `1` after
every read, and it is `0` when the per-line processing of a completed line begins (the state
that the accumulator leaves).  In particular this holds after each line of every run of
completed lines, whatever its length, so also after 200 completed lines. -/
theorem bounded_phase_correction (tie : Nat → Bool) (junk : Nat → Int) (junk_fb : Nat → Nat)
    (sample_rate : Nat) (colour : Int)
    (hw : 2 ≤ (_usbtv_init tie junk junk_fb sample_rate colour).width) :
    (∀ (s : _usbtv_t) (r : Int) (s' : _usbtv_t),
      Reach (_usbtv_init tie junk junk_fb sample_rate colour) s →
      _usbtv_read s = some (r, s') →
      (s'.hsync_offset = -1 ∨ s'.hsync_offset = 0 ∨ s'.hsync_offset = 1) ∧
      (r ≠ 2 → (filled s).hsync_offset = 0)) ∧
    (∀ (n : Nat) (t u : Nat → _usbtv_t) (r : Nat → Int), CompletedLines n t u r →
      Reach (_usbtv_init tie junk junk_fb sample_rate colour) (t 0) →
      ∀ i, i < n →
        ((u i).hsync_offset = -1 ∨ (u i).hsync_offset = 0 ∨ (u i).hsync_offset = 1) ∧
        (filled (t i)).hsync_offset = 0) := by
  have step : ∀ (s : _usbtv_t) (r : Int) (s' : _usbtv_t),
      Reach (_usbtv_init tie junk junk_fb sample_rate colour) s →
      _usbtv_read s = some (r, s') →
      (s'.hsync_offset = -1 ∨ s'.hsync_offset = 0 ∨ s'.hsync_offset = 1) ∧
      (r ≠ 2 → (filled s).hsync_offset = 0) := by
    intro s r s' hR h
    have p := reach_phase hR hw rfl
    have q := read_phase h (by rw [p.1]; exact hw) p.2
    exact ⟨q.2.2.1, q.2.2.2⟩
  refine ⟨step, ?_⟩
  intro n t u r hrun h0
  have hreach : ∀ i, i < n →
      Reach (_usbtv_init tie junk junk_fb sample_rate colour) (t i) := by
    intro i
    induction i with
    | zero => exact fun _ => h0
    | succ i ih =>
      intro hi
      have hi' : i < n := by omega
      exact reach_idle (hrun.2 i hi)
        (Reach.read (t i) (r i) (u i) (ih hi') (hrun.1 i hi').1)
  intro i hi
  have q := step (t i) (r i) (u i) (hreach i hi) (hrun.1 i hi).1
  exact ⟨q.1, q.2 (hrun.1 i hi).2⟩

/-- The claim for mono at 160 000 samples per second (lines of 50 samples) and the first
line read after initialisation, whose sync pulse is late: the read completes with status `0`
and leaves `hsync_offset = 1`, and its per-line processing begins with `hsync_offset = 0`. -/
theorem bounded_phase_correction_witness :
    mono160.width = 50 ∧ (after_read mono160_line).hsync_offset = 1 ∧
    ((after_read mono160_line).hsync_offset = -1 ∨ (after_read mono160_line).hsync_offset = 0 ∨
      (after_read mono160_line).hsync_offset = 1) ∧
    (filled mono160_line).hsync_offset = 0 :=
  ⟨by decide, by decide,
   ((bounded_phase_correction (fun _ => false) (fun _ => 0) (fun _ => 0) 160000 0
      (by decide)).1 mono160_line 0 (after_read mono160_line)
      (Reach.write mono160 _ Reach.start) rfl).1,
   ((bounded_phase_correction (fun _ => false) (fun _ => 0) (fun _ => 0) 160000 0
      (by decide)).1 mono160_line 0 (after_read mono160_line)
      (Reach.write mono160 _ Reach.start) rfl).2 (by decide)⟩

/-! ## C15: the mono vsync pattern -/

/-- Claim C15 fails as stated.  The mono decoder `locked8` is given eleven lines whose
line-start measurement is low and then a line whose measurement is not low.  After the
eleventh line the register is `0x3FF`; on the twelfth line it becomes `0x3FE = 1022`, not
`510`, and the line number is not reset to `9`: the line is executed as line 20. -/
theorem mono_vsync_eleven_counterexample :
    play_ok locked8 eleven_low 12 = true ∧
    (line_low (play_t locked8 eleven_low 0) = true ∧
     line_low (play_t locked8 eleven_low 5) = true ∧
     line_low (play_t locked8 eleven_low 10) = true ∧
     line_low (play_t locked8 eleven_low 11) = false) ∧
    (play_u locked8 eleven_low 10).vsync = 0x3FF ∧
    (play_u locked8 eleven_low 11).vsync = 1022 ∧
    fsc_line (play_t locked8 eleven_low 11) = 20 ∧
    (play_u locked8 eleven_low 11).line = 21 := by
  decide!

/-- Claim C15, amended.  In a run of completed mono lines the register after a line holds
the bits of the last ten line-start measurements, oldest bit first, and a line is executed
with line number `9` exactly when the register then holds `510`.  So after ten or more
consecutive low lines the register is `0x3FF`, and when the next line is not low it becomes
`0x3FE = 1022` and the line number is not reset.  The register takes the value `510`, and the
line number is reset to `9` on that line, when a line that is not low follows exactly eight
consecutive low lines that follow a line that is not low. -/
theorem mono_vsync_register (n : Nat) (t u : Nat → _usbtv_t) (r : Nat → Int)
    (hrun : CompletedLines n t u r) (hmono : (t 0).colour = 0) :
    (∀ i, i + 9 < n →
      (u (i + 9)).vsync =
        512 * line_bit (t i) + 256 * line_bit (t (i + 1)) + 128 * line_bit (t (i + 2)) +
        64 * line_bit (t (i + 3)) + 32 * line_bit (t (i + 4)) + 16 * line_bit (t (i + 5)) +
        8 * line_bit (t (i + 6)) + 4 * line_bit (t (i + 7)) + 2 * line_bit (t (i + 8)) +
        line_bit (t (i + 9))) ∧
    (∀ k, k < n → fsc_line (t k) = (if (u k).vsync = 510 then 9 else (t k).line)) ∧
    (∀ i, i + 10 < n → (∀ j, j < 10 → line_low (t (i + j)) = true) →
      line_low (t (i + 10)) = false →
      (u (i + 9)).vsync = 0x3FF ∧ (u (i + 10)).vsync = 1022 ∧
      fsc_line (t (i + 10)) = (t (i + 10)).line) ∧
    (∀ i, i + 9 < n → line_low (t i) = false →
      (∀ j, 1 ≤ j → j ≤ 8 → line_low (t (i + j)) = true) → line_low (t (i + 9)) = false →
      (u (i + 9)).vsync = 510 ∧ fsc_line (t (i + 9)) = 9) := by
  obtain ⟨hone, hstep⟩ := run_mono_step hrun hmono
  have bits : ∀ i, i + 9 < n →
      (u (i + 9)).vsync =
        512 * line_bit (t i) + 256 * line_bit (t (i + 1)) + 128 * line_bit (t (i + 2)) +
        64 * line_bit (t (i + 3)) + 32 * line_bit (t (i + 4)) + 16 * line_bit (t (i + 5)) +
        8 * line_bit (t (i + 6)) + 4 * line_bit (t (i + 7)) + 2 * line_bit (t (i + 8)) +
        line_bit (t (i + 9)) := by
    intro i hi
    obtain ⟨hrd, hr2⟩ := hrun.1 i (by omega)
    have s0 := (read_mono_vsync hrd hr2 (by rw [run_colour hrun i (by omega)]; exact hmono)).1
    have s1 : (u (i + 1)).vsync = ((u i).vsync * 2 + line_bit (t (i + 1))) % 1024 :=
      hstep i (by omega)
    have s2 : (u (i + 2)).vsync = ((u (i + 1)).vsync * 2 + line_bit (t (i + 2))) % 1024 :=
      hstep (i + 1) (by omega)
    have s3 : (u (i + 3)).vsync = ((u (i + 2)).vsync * 2 + line_bit (t (i + 3))) % 1024 :=
      hstep (i + 2) (by omega)
    have s4 : (u (i + 4)).vsync = ((u (i + 3)).vsync * 2 + line_bit (t (i + 4))) % 1024 :=
      hstep (i + 3) (by omega)
    have s5 : (u (i + 5)).vsync = ((u (i + 4)).vsync * 2 + line_bit (t (i + 5))) % 1024 :=
      hstep (i + 4) (by omega)
    have s6 : (u (i + 6)).vsync = ((u (i + 5)).vsync * 2 + line_bit (t (i + 6))) % 1024 :=
      hstep (i + 5) (by omega)
    have s7 : (u (i + 7)).vsync = ((u (i + 6)).vsync * 2 + line_bit (t (i + 7))) % 1024 :=
      hstep (i + 6) (by omega)
    have s8 : (u (i + 8)).vsync = ((u (i + 7)).vsync * 2 + line_bit (t (i + 8))) % 1024 :=
      hstep (i + 7) (by omega)
    have s9 : (u (i + 9)).vsync = ((u (i + 8)).vsync * 2 + line_bit (t (i + 9))) % 1024 :=
      hstep (i + 8) (by omega)
    have k0 := (shift_bits _ _ _ s0 (line_bit_cases _)).1
    have k1 := (shift_bits _ _ _ s1 (line_bit_cases _)).2.1
    have k2 := (shift_bits _ _ _ s2 (line_bit_cases _)).2.2.1
    have k3 := (shift_bits _ _ _ s3 (line_bit_cases _)).2.2.2.1
    have k4 := (shift_bits _ _ _ s4 (line_bit_cases _)).2.2.2.2.1
    have k5 := (shift_bits _ _ _ s5 (line_bit_cases _)).2.2.2.2.2.1
    have k6 := (shift_bits _ _ _ s6 (line_bit_cases _)).2.2.2.2.2.2.1
    have k7 := (shift_bits _ _ _ s7 (line_bit_cases _)).2.2.2.2.2.2.2.1
    have k8 := (shift_bits _ _ _ s8 (line_bit_cases _)).2.2.2.2.2.2.2.2.1
    have k9 := (shift_bits _ _ _ s9 (line_bit_cases _)).2.2.2.2.2.2.2.2.2
    rw [k9, k8, k7, k6, k5, k4, k3, k2, k1, k0]
    ring
  have bit_true : ∀ s : _usbtv_t, line_low s = true → line_bit s = 1 := by
    intro s hs
    unfold line_bit
    rw [if_pos hs]
  have bit_false : ∀ s : _usbtv_t, line_low s = false → line_bit s = 0 := by
    intro s hs
    unfold line_bit
    rw [if_neg (by rw [hs]; simp)]
  refine ⟨bits, fun k hk => (hone k hk).2.2, ?_, ?_⟩
  · intro i hi hlow hhigh
    have e9 := bits i (by omega)
    have c0 := bit_true _ (hlow 0 (by omega))
    have c1 := bit_true _ (hlow 1 (by omega))
    have c2 := bit_true _ (hlow 2 (by omega))
    have c3 := bit_true _ (hlow 3 (by omega))
    have c4 := bit_true _ (hlow 4 (by omega))
    have c5 := bit_true _ (hlow 5 (by omega))
    have c6 := bit_true _ (hlow 6 (by omega))
    have c7 := bit_true _ (hlow 7 (by omega))
    have c8 := bit_true _ (hlow 8 (by omega))
    have c9 := bit_true _ (hlow 9 (by omega))
    rw [Nat.add_zero] at c0
    rw [c0, c1, c2, c3, c4, c5, c6, c7, c8, c9] at e9
    have e10 : (u (i + 10)).vsync = ((u (i + 9)).vsync * 2 + line_bit (t (i + 10))) % 1024 :=
      hstep (i + 9) (by omega)
    rw [bit_false _ hhigh, e9] at e10
    have f := (hone (i + 10) hi).2.2
    rw [e10] at f
    refine ⟨by rw [e9]; decide, by rw [e10]; decide, ?_⟩
    rw [f, if_neg (by decide)]
  · intro i hi h0 hlow h9
    have e9 := bits i hi
    rw [bit_false _ h0, bit_true _ (hlow 1 (by omega) (by omega)),
      bit_true _ (hlow 2 (by omega) (by omega)), bit_true _ (hlow 3 (by omega) (by omega)),
      bit_true _ (hlow 4 (by omega) (by omega)), bit_true _ (hlow 5 (by omega) (by omega)),
      bit_true _ (hlow 6 (by omega) (by omega)), bit_true _ (hlow 7 (by omega) (by omega)),
      bit_true _ (hlow 8 (by omega) (by omega)), bit_false _ h9] at e9
    have f := (hone (i + 9) hi).2.2
    rw [e9] at f
    refine ⟨by rw [e9]; decide, ?_⟩
    rw [f, if_pos (by decide)]

/-- The amended claim for the mono decoder `locked8` and ten lines: a line that is not low,
eight low lines and a line that is not low.  The tenth line leaves `510` in the register and
is executed as line `9`. -/
theorem mono_vsync_register_witness :
    (play_u locked8 eight_low 9).vsync = 510 ∧ fsc_line (play_t locked8 eight_low 9) = 9 :=
  (mono_vsync_register 10 (play_t locked8 eight_low) (play_u locked8 eight_low)
    (play_r locked8 eight_low) (play_run locked8 eight_low 10 (by decide)) (by decide)).2.2.2
    0 (by decide) (by decide)
    (fun j h1 h8 => by
      have hj : j = 1 ∨ j = 2 ∨ j = 3 ∨ j = 4 ∨ j = 5 ∨ j = 6 ∨ j = 7 ∨ j = 8 := by omega
      rcases hj with e | e | e | e | e | e | e | e <;> subst e <;> decide)
    (by decide)

/-! ## C16: three fields overlay into one pixel -/

/-- Claim C16.  Starting from any pixel whose alpha byte is `0`, the three colour pixel
updates with `(fsc = 1, v = 0x80)`, `(fsc = 2, v = 0x40)` and `(fsc = 0, v = 0x20)` yield the
pixel `0x00408020`, in this order and in each of the five other orders: the result does not
depend on the previous colour bytes. -/
theorem colour_overlay (c : Nat) (ha : byte c 3 = 0) :
    overlay c 1 0x80 2 0x40 0 0x20 = some 0x00408020 ∧
    overlay c 1 0x80 0 0x20 2 0x40 = some 0x00408020 ∧
    overlay c 2 0x40 1 0x80 0 0x20 = some 0x00408020 ∧
    overlay c 2 0x40 0 0x20 1 0x80 = some 0x00408020 ∧
    overlay c 0 0x20 1 0x80 2 0x40 = some 0x00408020 ∧
    overlay c 0 0x20 2 0x40 1 0x80 = some 0x00408020 := by
  have fin : ∀ r : Nat, r < 2 ^ 32 → (byte r 0 : Int) = 0x20 → (byte r 1 : Int) = 0x80 →
      (byte r 2 : Int) = 0x40 → byte r 3 = byte c 3 → r = 0x00408020 := by
    intro r hr b0 b1 b2 b3
    have e := pixel_of_bytes r hr
    rw [b3, ha] at e
    omega
  refine ⟨?_, ?_, ?_, ?_, ?_, ?_⟩
  · obtain ⟨r, e, hr, b1, b2, b0, b3⟩ := overlay_bytes c 1 0x80 2 0x40 0 0x20
      (by decide) (by decide) (by decide) (by decide) (by decide) (by decide)
      (by decide) (by decide) (by decide)
    rw [e, fin r hr b0 b1 b2 b3]
  · obtain ⟨r, e, hr, b1, b0, b2, b3⟩ := overlay_bytes c 1 0x80 0 0x20 2 0x40
      (by decide) (by decide) (by decide) (by decide) (by decide) (by decide)
      (by decide) (by decide) (by decide)
    rw [e, fin r hr b0 b1 b2 b3]
  · obtain ⟨r, e, hr, b2, b1, b0, b3⟩ := overlay_bytes c 2 0x40 1 0x80 0 0x20
      (by decide) (by decide) (by decide) (by decide) (by decide) (by decide)
      (by decide) (by decide) (by decide)
    rw [e, fin r hr b0 b1 b2 b3]
  · obtain ⟨r, e, hr, b2, b0, b1, b3⟩ := overlay_bytes c 2 0x40 0 0x20 1 0x80
      (by decide) (by decide) (by decide) (by decide) (by decide) (by decide)
      (by decide) (by decide) (by decide)
    rw [e, fin r hr b0 b1 b2 b3]
  · obtain ⟨r, e, hr, b0, b1, b2, b3⟩ := overlay_bytes c 0 0x20 1 0x80 2 0x40
      (by decide) (by decide) (by decide) (by decide) (by decide) (by decide)
      (by decide) (by decide) (by decide)
    rw [e, fin r hr b0 b1 b2 b3]
  · obtain ⟨r, e, hr, b0, b2, b1, b3⟩ := overlay_bytes c 0 0x20 2 0x40 1 0x80
      (by decide) (by decide) (by decide) (by decide) (by decide) (by decide)
      (by decide) (by decide) (by decide)
    rw [e, fin r hr b0 b1 b2 b3]

/-- The claim for the pixel `0x00C0FFEE`, in the order green, red, blue. -/
theorem colour_overlay_witness :
    byte 0x00C0FFEE 3 = 0 ∧ overlay 0x00C0FFEE 1 0x80 2 0x40 0 0x20 = some 0x00408020 :=
  ⟨by decide, (colour_overlay 0x00C0FFEE (by decide)).1⟩

/-! ## C17: convergence of the level filter -/

/-- Claim C17 fails as stated.  The decoder `locked8` starts with `sync_level = 0` and is
given lines whose sync tip mean is `50`.  The level is `0` after each of these lines and never
`50`: one step of the filter from `0` with the sync tip mean `50` gives `(0 * 99 + 50) / 100`,
which is `0` again. -/
theorem level_filter_stall_counterexample :
    locked8.sync_level = 0 ∧ play_ok locked8 (fun _ => tip50_line) 4 = true ∧
    (line_tip (play_t locked8 (fun _ => tip50_line) 0) = 50 ∧
     line_tip (play_t locked8 (fun _ => tip50_line) 1) = 50 ∧
     line_tip (play_t locked8 (fun _ => tip50_line) 2) = 50 ∧
     line_tip (play_t locked8 (fun _ => tip50_line) 3) = 50) ∧
    ((play_u locked8 (fun _ => tip50_line) 0).sync_level = 0 ∧
     (play_u locked8 (fun _ => tip50_line) 1).sync_level = 0 ∧
     (play_u locked8 (fun _ => tip50_line) 2).sync_level = 0 ∧
     (play_u locked8 (fun _ => tip50_line) 3).sync_level = 0) ∧
    level_filter 0 50 = 0 := by
  decide!

/-- Claim C17, amended.  When every completed line of a run has the sync tip mean `x`, each
line replaces `sync_level` by `(99 * sync_level + x) / 100` with the truncating division of C.
The value `x` is a fixed point of this step, and the step drives `sync_level` to within `99`
of `x`: the distance falls by at least one per line while it exceeds `99`, so after at most
`|x - sync_level|` lines it is `99` or less, and it stays `99` or less.  The level need not
reach `x`. -/
theorem level_filter_band (n : Nat) (t u : Nat → _usbtv_t) (r : Nat → Int)
    (hrun : CompletedLines n t u r) (x : Int) (hx : ∀ i, i < n → line_tip (t i) = x) :
    level_filter x x = x ∧
    (∀ i, i < n → (u i).sync_level = level_filter (t i).sync_level x) ∧
    (∀ i, i + 1 < n → (t (i + 1)).sync_level = (u i).sync_level) ∧
    (∀ i, i < n →
      (x - (u i).sync_level).natAbs ≤ max 99 ((x - (t 0).sync_level).natAbs - (i + 1))) ∧
    (∀ i, i < n → (x - (t 0).sync_level).natAbs ≤ i + 100 →
      (x - (u i).sync_level).natAbs ≤ 99) := by
  have hfix : level_filter x x = x := by
    unfold level_filter
    rw [show x * 99 + x = x * 100 by ring]
    exact Int.mul_tdiv_cancel x (by decide)
  have hstep : ∀ i, i < n → (u i).sync_level = level_filter (t i).sync_level x := by
    intro i hi
    obtain ⟨hrd, hr2⟩ := hrun.1 i hi
    have e := (read_level hrd hr2).1
    rw [hx i hi] at e
    exact e
  refine ⟨hfix, hstep, fun i hi => (run_link_vsync hrun hi).2, run_level hrun x hx, ?_⟩
  intro i hi hd
  have k := run_level hrun x hx i hi
  omega

/-- The amended claim for the decoder `locked8` and four lines with the sync tip mean `50`:
the level after the fourth line is within `99` of `50`. -/
theorem level_filter_band_witness :
    (50 - (play_u locked8 (fun _ => tip50_line) 3).sync_level).natAbs ≤ 99 :=
  (level_filter_band 4 (play_t locked8 (fun _ => tip50_line))
    (play_u locked8 (fun _ => tip50_line)) (play_r locked8 (fun _ => tip50_line))
    (play_run locked8 (fun _ => tip50_line) 4 (by decide)) 50
    (fun i hi => by
      have hj : i = 0 ∨ i = 1 ∨ i = 2 ∨ i = 3 := by omega
      rcases hj with e | e | e | e <;> subst e <;> decide)).2.2.2.2
    3 (by decide) (by decide)

/-! ## C18: the reference levels below a negative sync level -/

/-- Claim C18 on lines whose sync tip is at level `-32000`, given to the mono decoder
`locked8`, which starts with `sync_level = 0`.  After the 36th completed line the level is
`-9702` and the offsets are the ones of the claim, `9830` and `32767`, with
`white_level - black_level = 22937`.  After the 37th line the level is `-9924`: the sum
`sync_level + INT16_MAX * 0.3` is negative, its conversion to `int` rounds toward zero, and
`blank_level - sync_level` and `black_level - sync_level` are `9831`, so that
`white_level - black_level` is `22936` on this line. -/
theorem levels_below_zero :
    locked8.colour = 0 ∧ locked8.sync_level = 0 ∧
    (play_r locked8 (fun _ => deep_line) 35 = 0 ∧
     (play_u locked8 (fun _ => deep_line) 35).sync_level = -9702 ∧
     (play_u locked8 (fun _ => deep_line) 35).blank_level = -9702 + 9830 ∧
     (play_u locked8 (fun _ => deep_line) 35).white_level -
       (play_u locked8 (fun _ => deep_line) 35).black_level = 22937) ∧
    (play_r locked8 (fun _ => deep_line) 36 = 0 ∧
     (play_u locked8 (fun _ => deep_line) 36).sync_level = -9924 ∧
     (play_u locked8 (fun _ => deep_line) 36).blank_level = -9924 + 9831 ∧
     (play_u locked8 (fun _ => deep_line) 36).black_level = -9924 + 9831 ∧
     (play_u locked8 (fun _ => deep_line) 36).white_level = -9924 + 32767 ∧
     (play_u locked8 (fun _ => deep_line) 36).white_level -
       (play_u locked8 (fun _ => deep_line) 36).black_level = 22936) := by
  decide!

/-! ## C19: the mid-line vsync measurement -/

/-- Claim C19 on the colour decoder `cam` with lines of 8 samples and a vsync window of 2
samples, for the line `1000, 0, 0, 0, 6000, 0, 5000, 5000`.  The mid-line window is
`iline[4], iline[5] = 6000, 0` and `blank_level` is `9830`: the mean with each sample counted
once gives `3000 - 9830 = -6830`, which is below `-0.15 * INT16_MAX`, so the claim sets the
second bit.  The code adds `iline[4]` twice, gets `(6000 + 6000 + 0) / 2 - 9830 = -3830`,
which is not below, and leaves the second bit clear: the register is `2`, not `3`.  The
line-start measurement of the same read counts each sample once. -/
theorem mid_line_double_count :
    ((at_vsync mid_line).width.tdiv 2 = 4 ∧ (at_vsync mid_line).vsync_width = 2 ∧
     rd (at_vsync mid_line).iline 4 = some 6000 ∧ rd (at_vsync mid_line).iline 5 = some 0 ∧
     (at_vsync mid_line).blank_level = 9830) ∧
    (vsync_m2_claimed (at_vsync mid_line) = -6830 ∧ below_sync (-6830) = true) ∧
    (vsync_m2 (at_vsync mid_line) = some (-3830) ∧ below_sync (-3830) = false) ∧
    (vsync_m1 (at_vsync mid_line) = some ((1000 + 0) / 2 - 9830)) ∧
    (mid_line.vsync = 0 ∧ (after_read mid_line).vsync = 2 ∧
     (after_read mid_line).vsync % 2 = 0) := by
  decide!

/-! ## C20: the sync tip window -/

/-- Claim C20 fails as stated.  With an hsync window of 4 samples and a line that starts
with `0, 100, 0, 0` the code computes `(iline[1] + iline[2]) / 2 = 50`, while the mean of the
samples `iline[2], ..., iline[hsync_width - 2]`, here `iline[2]` alone, is `0`. -/
theorem sync_tip_counterexample :
    wide_tip.hsync_width = 4 ∧ rd wide_tip.iline 1 = some 100 ∧
    rd wide_tip.iline 2 = some 0 ∧ sync_tip wide_tip = some 50 ∧
    sync_tip_claimed wide_tip = 0 := by
  decide

/-- Claim C20, amended.  For `hsync_width ≥ 3` and a line buffer that holds the hsync window,
the sync tip is the truncated mean of the `hsync_width - 2` samples
`iline[1], ..., iline[hsync_width - 2]`: the sum contains exactly those samples, `iline[1]`
included, and is divided by their count.  A completed read feeds this mean of its line into
the level filter. -/
theorem sync_tip_mean (s : _usbtv_t) (h3 : 3 ≤ s.hsync_width)
    (hlen : s.hsync_width - 1 ≤ s.iline.length) :
    sync_tip s = some (mean_of (window s.iline 1 (s.hsync_width - 2).toNat)) ∧
    ((window s.iline 1 (s.hsync_width - 2).toNat).length : Int) = s.hsync_width - 2 ∧
    (∀ (r : Int) (s' : _usbtv_t), _usbtv_read s = some (r, s') → r ≠ 2 →
      line_tip s = mean_of (window (filled s).iline 1 (s.hsync_width - 2).toNat) ∧
      s'.sync_level = level_filter s.sync_level (line_tip s)) := by
  refine ⟨(sync_tip_window s h3 hlen).1, (sync_tip_window s h3 hlen).2, ?_⟩
  intro r s' h hr
  refine ⟨?_, (read_level h hr).1⟩
  obtain ⟨s0, mx, s1, _, _, _, _, h0, h1, _, _, _, _, _, _, _, _⟩ := read_stages h hr
  have f0 := fill_line_frame _ _ _ _ h0
  have f1 := hsync_scan_frame h1
  have l0 := fill_line_length _ _ _ _ h0
  have w0 : s0.hsync_width = s.hsync_width := by
    have t := congrArg _usbtv_t.hsync_width f0
    exact t
  have w1 : s1.hsync_width = s0.hsync_width := by
    have t := congrArg _usbtv_t.hsync_width f1
    exact t
  have i1 : s1.iline = s0.iline := by
    have t := congrArg _usbtv_t.iline f1
    exact t
  have k := (sync_tip_window s1 (by rw [w1, w0]; exact h3)
    (by rw [w1, w0, i1, l0]; exact hlen)).1
  have hf : filled s = s0 := by
    unfold filled
    rw [h0]
  have hsc : scanned s0 = s1 := by
    unfold scanned
    rw [h1]
  unfold line_tip
  rw [h0]
  dsimp only
  rw [hsc, k, hf, i1, w1, w0]

/-- The amended claim for the hsync window of 4 samples and the line `0, 100, 0, 0, ...`: the
sync tip is the mean `50` of `iline[1]` and `iline[2]`. -/
theorem sync_tip_mean_witness :
    sync_tip wide_tip = some 50 ∧ window wide_tip.iline 1 2 = [100, 0] :=
  ⟨(sync_tip_mean wide_tip (by decide) (by decide)).1, by decide⟩

/-! ## C21: the result of the hsync search -/

/-- Claim C21.  Let `s0` be the state in which the per-line processing of a completed read
begins, `E = s0.hsync` the window sum on entry, `S x = running_sum s0 0 x` the running sum
after sample `x` has been pushed and `mx` the index that the search returns and that the
phase correction uses.  If no `S x` with `x < width` is below `E` then `mx = 0`; otherwise
`mx` is the smallest `x < width` at which `S` takes its minimum over the line, and
`S mx < E`.  When the window has `hsync_width` entries, `hsyncwin_x` is inside the window and
`hsync` is the window sum on entry (the state invariant), `S x` is the sum of
`iline[x - hsync_width + 1 .. x]` for every `x ≥ hsync_width - 1`, and for
`width ≥ hsync_width` the window that the scan and the read leave holds, from its oldest
entry to its newest, the last `hsync_width` samples of the line. -/
theorem hsync_search_result (s s0 s1 s' : _usbtv_t) (mx r : Int)
    (hfill : fill_line (fill_fuel s) s = some (true, s0))
    (hscan : hsync_scan s0 = some (mx, s1))
    (hread : _usbtv_read s = some (r, s'))
    (hlen : (s0.hsyncwin.length : Int) = s0.hsync_width)
    (hx0 : 0 ≤ s0.hsyncwin_x) (hx1 : s0.hsyncwin_x < s0.hsync_width)
    (hsum : s0.hsync = s0.hsyncwin.sum) :
    s'.hsync_offset = (hsync_adjust s1 mx).hsync_offset ∧
    ((∀ x : Nat, (x : Int) < s0.width → s0.hsync ≤ running_sum s0 0 x) → mx = 0) ∧
    ((∃ x : Nat, (x : Int) < s0.width ∧ running_sum s0 0 x < s0.hsync) →
      ∃ m : Nat, mx = (m : Int) ∧ (m : Int) < s0.width ∧ running_sum s0 0 m < s0.hsync ∧
        (∀ x : Nat, (x : Int) < s0.width → running_sum s0 0 m ≤ running_sum s0 0 x) ∧
        (∀ x : Nat, x < m → running_sum s0 0 m < running_sum s0 0 x)) ∧
    (∀ x : Nat, (x : Int) < s0.width → s0.hsync_width ≤ (x : Int) + 1 →
      running_sum s0 0 x =
        (window s0.iline (x + 1 - s0.hsync_width.toNat) s0.hsync_width.toNat).sum) ∧
    (s0.hsync_width ≤ s0.width →
      window_order s1 =
        window s0.iline (s0.width.toNat - s0.hsync_width.toNat) s0.hsync_width.toNat ∧
      window_order s' = window_order s1) := by
  have hp : process_line s0 = some (r, s') := by
    unfold _usbtv_read at hread
    rw [hfill] at hread
    exact hread
  have hoff := (process_line_offset hscan hp).1
  have hloop : hsync_loop s0.width.toNat ((0 : Nat) : Int) 0 s0.hsync s0 = some (mx, s1) :=
    hscan
  have hmin := hsync_loop_min _ _ _ _ _ _ _ hloop
  obtain ⟨hw, hb⟩ := hsync_loop_window _ 0 _ _ _ _ _ hloop hlen hx0
  have hz : (((0 : Nat) : Int)) = 0 := rfl
  rw [hz] at hmin
  have hbound : ∀ x : Nat, (x : Int) < s0.width → x + 1 ≤ s0.iline.length := by
    intro x hx
    rcases hb with e | e
    · omega
    · omega
  refine ⟨hoff, ?_, ?_, ?_, ?_⟩
  · intro hall
    rcases hmin with ⟨e, _⟩ | ⟨j, hj, _, hlow, _, _⟩
    · exact e
    · have := hall j (by omega)
      omega
  · rintro ⟨x, hx, hlow⟩
    rcases hmin with ⟨_, hall⟩ | ⟨j, hj, e, hl, hm, hf⟩
    · have := hall x (by omega)
      omega
    · refine ⟨j, by rw [e]; ring, by omega, hl, ?_, hf⟩
      intro y hy
      exact hm y (by omega)
  · intro x hx hge
    exact running_sum_window s0 x hlen hx0 hx1 hsum hge (hbound x hx)
  · intro hle
    constructor
    · rw [hw]
      have hA : (window_order s0).length = s0.hsync_width.toNat := by
        rw [window_order_length s0 hx0 (by omega)]
        omega
      rw [drop_window _ _ _ (by omega), hA]
    · obtain ⟨mx2, s2, s3, s4, s5, s6, h1, h3, h4, h5, _, h6, h7⟩ := process_line_inv hp
      rw [hscan] at h1
      simp only [Option.some.injEq, Prod.mk.injEq] at h1
      obtain ⟨rfl, rfl⟩ := h1
      have fa := after_scan_frame h3 h4 h5 h6 h7
      have a : s'.hsyncwin = s1.hsyncwin := by
        have t := congrArg _usbtv_t.hsyncwin fa
        exact t
      have b : s'.hsyncwin_x = s1.hsyncwin_x := by
        have t := congrArg _usbtv_t.hsyncwin_x fa
        exact t
      unfold window_order
      rw [a, b]

/-- The claim for the decoder `mono8` and the line `0, 0, 0, -100, -100, -100, 0, 0`: the
search returns `mx = 5`, the first index at which the running sum takes its minimum `-300`,
which is the sum of `iline[3 .. 5]`, and it leaves the last three samples of the line in the
window. -/
theorem hsync_search_result_witness :
    (running_sum (filled late_sync) 0 5 < (filled late_sync).hsync ∧
     running_sum (filled late_sync) 0 5 = -300 ∧
     running_sum (filled late_sync) 0 4 = -200) ∧
    running_sum (filled late_sync) 0 5 = (window (filled late_sync).iline 3 3).sum ∧
    window_order (scanned (filled late_sync)) = window (filled late_sync).iline 5 3 ∧
    window_order (after_read late_sync) = [-100, 0, 0] :=
  ⟨by decide,
   (hsync_search_result late_sync (filled late_sync) (scanned (filled late_sync))
      (after_read late_sync) 5 0 (by rfl) (by rfl) (by rfl) (by decide) (by decide)
      (by decide) (by decide)).2.2.2.1 5 (by decide) (by decide),
   ((hsync_search_result late_sync (filled late_sync) (scanned (filled late_sync))
      (after_read late_sync) 5 0 (by rfl) (by rfl) (by rfl) (by decide) (by decide)
      (by decide) (by decide)).2.2.2.2 (by decide)).1,
   by decide⟩

/-! ## C22: the active window of a low sample rate -/

/-- Claim C22 at mono, 141 600 samples per second.  `_usbtv_init` computes lines of 44
samples, `active_left = round(3.54) = 4` and `active_width = ceil(40.002) = 41`, which is
not above `width`, so the clamp of `active_width` leaves it alone and
`active_left + active_width = 45` exceeds `width = 44`; the vsync window of 38 samples fits.
The last column of the rasterizer reads `iline[44]`, outside the line buffer of 44 samples:
the first eight reads complete lines 1 to 8, which are not active, and the ninth read, the
first whose line is rasterized, has no result. -/
theorem active_window_overruns :
    (narrow_mono.width = 44 ∧ narrow_mono.hsync_width = 3 ∧ narrow_mono.vsync_width = 38 ∧
     narrow_mono.active_left = 4 ∧ narrow_mono.active_width = 41 ∧
     narrow_mono.iline.length = 44) ∧
    ¬ (narrow_mono.active_left + narrow_mono.active_width ≤ narrow_mono.width) ∧
    narrow_mono.vsync_width ≤ narrow_mono.width ∧
    rd narrow_mono.iline (narrow_mono.active_left + (narrow_mono.active_width - 1)) = none ∧
    play_ok narrow_mono flat_lines 8 = true ∧
    (play_u narrow_mono flat_lines 7).line = 9 ∧
    aline_of 0 9 = 0 ∧
    (_usbtv_read (play_t narrow_mono flat_lines 8)).isNone = true := by
  decide!

end ApolloTV
